import Mathlib

/-!
# The RTF translator's converter (`src/add-ons/translators/rtf/convert.cpp`)

A shallow embedding of the forward converter (`TextOutput`, `process_command`,
`write_text`, ...), of the container writer `convert_to_stxt` and of the
container reader at the head of `convert_styled_text_to_rtf`, followed by the
properties established about them.

Conventions of the embedding
* a byte (`char`, `uint8`) is a natural number below 256; stores into a `char`
  are reduced `% 256` where the stored expression can exceed a byte;
* `int32` values are integers; the `int32` additions of the source that a
  short input can drive out of range (`Option() + 50`, `section++`, `page++`)
  are signed overflows there, which C++ leaves undefined: the embedding takes
  the two's-complement value (`wrap_int32`), which is one of the outcomes a
  build can show, and the property of the indent-set command is stated for
  the arguments whose sum `Option() + 50` is defined;
* text offsets (`fOffset`, `text_run::offset`, both `int32` in the source) are
  natural numbers: the embedding covers texts below 2^31 bytes; a size stored
  into a 32-bit header field is reduced `% 2^32`;
* a negative result of `Write` is a status code (an `int32`), so the
  conversion `(status_t)written` keeps its value;
* a C++ `throw` is an `Except` error that carries the thrown status and the
  state of the output target at the moment of the throw.
-/

namespace RTFTranslator

/-! ## Machine integers, status codes -/

/-- A byte of text or of a header (`char`, `uint8`). -/
abbrev Byte := Nat

/-- The type `status_t` (an `int32`). -/
abbrev status_t := Int

/-- Two's-complement reduction of an integer to the `int32` range. -/
def wrap_int32 (x : Int) : Int := (x + 2147483648) % 4294967296 - 2147483648

/-- Conversion of an `int32` to `uint32` (the argument of `write_unicode_char`). -/
def to_uint32 (x : Int) : Nat := (x % 4294967296).toNat

/-- Modelled from the spec: the status codes of `Errors.h`, which is not among
the sources; the values are those of the Haiku headers. -/
def B_OK : status_t := 0

/-- Modelled from the spec: `B_GENERAL_ERROR_BASE` of `Errors.h` (`INT_MIN`). -/
def B_GENERAL_ERROR_BASE : status_t := -2147483648

/-- Modelled from the spec: `B_NO_MEMORY` of `Errors.h`. -/
def B_NO_MEMORY : status_t := B_GENERAL_ERROR_BASE

/-- Modelled from the spec: `B_IO_ERROR` of `Errors.h`, the status of a short
write. -/
def B_IO_ERROR : status_t := B_GENERAL_ERROR_BASE + 1

/-- Modelled from the spec: `B_ERROR` of `Errors.h`. -/
def B_ERROR : status_t := -1

/-- Modelled from the spec: `B_NO_TRANSLATOR` of `Errors.h`
(`B_TRANSLATION_ERROR_BASE`), the "not this format" signal. -/
def B_NO_TRANSLATOR : status_t := B_GENERAL_ERROR_BASE + 0x4800

/-! ## The output target -/

/-- Modelled from the spec: the output sink (a `BDataIO` in the source, whose
class is not among the sources). `data` holds the bytes the sink has accepted
so far. `replies` scripts the return values of the coming `Write` calls, one
per call; once the script is used up every call accepts its whole buffer. -/
structure Sink where
  data : List Byte
  replies : List Int
  deriving DecidableEq, Repr

/-- A sink on which every write succeeds, holding no byte yet. -/
def Sink.reliable : Sink := { data := [], replies := [] }

/-- Modelled from the spec: `BDataIO::Write(buffer, length)`: returns the
scripted reply (a negative status, or the number of bytes taken) and the sink
afterwards; without a scripted reply the whole buffer is taken. -/
def Sink.Write (k : Sink) (buffer : List Byte) : Int × Sink :=
  match k.replies with
  | [] => (buffer.length, { k with data := k.data ++ buffer })
  | r :: rest => (r, { data := k.data ++ buffer.take r.toNat, replies := rest })

/-- What a `throw (status_t)...` carries: the status, and the target as the
throw leaves it. -/
abbrev Thrown := status_t × Sink

/-- The write-and-check sequence that `write_text` and `next_line` share:
`written = target->Write(text, length)`, then `throw (status_t)written` when
`written < B_OK` and `throw B_IO_ERROR` when `written != length`. -/
def write_checked (k : Sink) (text : List Byte) : Except Thrown Sink :=
  let r := k.Write text
  if r.1 < B_OK then .error (r.1, r.2)
  else if r.1 ≠ (text.length : Int) then .error (B_IO_ERROR, r.2)
  else .ok r.2

/-! ## The conversion context -/

/-- The struct `conversion_context`. -/
structure conversion_context where
  section_ : Int
  page : Int
  start_page : Int
  first_line_indent : Int
  new_line : Bool
  deriving DecidableEq, Repr

/-- The method `conversion_context::Reset`, which the constructor runs. -/
def conversion_context.Reset : conversion_context :=
  { section_ := 1, page := 1, start_page := 1, first_line_indent := 0, new_line := true }

/-- The loop `for (i = 0; i < prefix; i++) write_text(context, " ", 1, target)`
of `write_text`: when it runs `context.new_line` is already false, so each inner
call writes exactly the one space through the same write-and-check sequence. -/
def write_indent : Nat → Sink → Except Thrown Sink
  | 0, k => .ok k
  | n + 1, k =>
    match write_checked k [32] with
    | .error e => .error e
    | .ok k1 => write_indent n k1

/-- The function `write_text(context, text, length, target)`: returns the
number of bytes accounted for (indent included), the context and the target
afterwards. The indent count `prefix` is the `size_t` value of
`first_line_indent`, which the indent commands keep within 0..8. -/
def write_text (context : conversion_context) (text : List Byte) (target : Option Sink) :
    Except Thrown (Nat × conversion_context × Option Sink) :=
  let indent : Nat := if context.new_line then context.first_line_indent.toNat else 0
  let context1 : conversion_context :=
    if context.new_line then { context with new_line := false } else context
  match target with
  | none => .ok (indent + text.length, context1, none)
  | some k =>
    match write_indent indent k with
    | .error e => .error e
    | .ok k1 =>
      match write_checked k1 text with
      | .error e => .error e
      | .ok k2 => .ok (indent + text.length, context1, some k2)

/-- The function `next_line(context, prefix, target)`. -/
def next_line (context : conversion_context) (pfx : List Byte) (target : Option Sink) :
    Except Thrown (Nat × conversion_context × Option Sink) :=
  let context1 : conversion_context := { context with new_line := true }
  match target with
  | none => .ok (pfx.length, context1, none)
  | some k =>
    match write_checked k pfx with
    | .error e => .error e
    | .ok k1 => .ok (pfx.length, context1, some k1)

/-- The bytes `write_unicode_char` stores into `bytes[]` for the code point
`c`, each reduced to a `char`. Above 0x10ffff no branch stores anything and
`length` stays 1: the single byte written is the uninitialised `bytes[0]`,
given here by `garbage`. -/
def unicode_bytes (garbage : Byte) (c : Nat) : List Byte :=
  if c < 0x80 then [c % 256]
  else if c < 0x800 then
    [(0xc0 ||| (c >>> 6)) % 256, (0x80 ||| (c &&& 0x3f)) % 256]
  else if c < 0x10000 then
    [(0xe0 ||| (c >>> 12)) % 256, (0x80 ||| ((c >>> 6) &&& 0x3f)) % 256,
      (0x80 ||| (c &&& 0x3f)) % 256]
  else if c ≤ 0x10ffff then
    [(0xf0 ||| (c >>> 18)) % 256, (0x80 ||| ((c >>> 12) &&& 0x3f)) % 256,
      (0x80 ||| ((c >>> 6) &&& 0x3f)) % 256, (0x80 ||| (c &&& 0x3f)) % 256]
  else [garbage]

/-- The function `write_unicode_char(context, c, target)`. -/
def write_unicode_char (garbage : Byte) (context : conversion_context) (c : Nat)
    (target : Option Sink) : Except Thrown (Nat × conversion_context × Option Sink) :=
  write_text context (unicode_bytes garbage c) target

/-! ## The document tree -/

/-- Modelled from the spec: the destination tag of a group
(`RTF::group_destination`, declared in `RTF.h`, which is not among the
sources). -/
inductive Destination where
  | TEXT_DESTINATION
  | COMMENT_DESTINATION
  | OTHER_DESTINATION
  deriving DecidableEq, Repr

/-- Modelled from the spec: a command node (`RTF::Command`): its name and what
`HasOption()` and `Option()` return. -/
structure Command where
  Name : String
  HasOption : Bool
  Option : Int
  deriving DecidableEq, Repr

/-- Modelled from the spec: a node of the parsed document (`RTF::Element`): a
group with its destination and children, a command, or a text leaf. -/
inductive Element where
  | group (destination : Destination) (elements : List Element)
  | command (command : Command)
  | text (bytes : List Byte)

/-- The bytes of a C string literal. -/
def cstr (s : String) : List Byte := s.toList.map Char.toNat

/-- The text `snprintf(buffer, sizeof(buffer), "%d", n)` leaves in the buffer:
the decimal digits of `n`, with a minus sign when negative. -/
def snprintf_d (n : Int) : List Byte := cstr (toString n)

/-- The function `process_command(context, command, target)`. `garbage` is the
uninitialised byte of `write_unicode_char`. In the branch of `fi` and `cufi`
the sum `Option() + 50` is an `int` sum: it is the sum of the integers for
every option up to 2147483597, and a signed overflow above, where C++ leaves
the behaviour undefined and the value taken here is the two's-complement
one. -/
def process_command (garbage : Byte) (context : conversion_context) (command : Command)
    (target : Option Sink) : Except Thrown (Nat × conversion_context × Option Sink) :=
  let name := command.Name
  if name = "par" ∨ name = "line" then
    next_line context [10] target
  else if name = "sect" then
    next_line { context with section_ := wrap_int32 (context.section_ + 1) } [10] target
  else if name = "page" then
    next_line { context with page := wrap_int32 (context.page + 1) } [10, 10] target
  else if name = "tab" then
    write_text context [9] target
  else if name = "\x27" then
    write_unicode_char garbage context (to_uint32 command.Option) target
  else if name = "pard" then
    .ok (0, { context with first_line_indent := 0 }, target)
  else if name = "fi" ∨ name = "cufi" then
    let indent0 := Int.tdiv (wrap_int32 (command.Option + 50)) 100
    let indent1 := if indent0 < 0 then 0 else indent0
    let indent2 := if indent1 > 8 then 8 else indent1
    .ok (0, { context with first_line_indent := indent2 }, target)
  else if name = "sectnum" then
    write_text context (snprintf_d context.section_) target
  else if name = "pgnstarts" then
    .ok (0, { context with start_page := if command.HasOption then command.Option else 1 },
      target)
  else if name = "pgnrestart" then
    .ok (0, { context with page := context.start_page }, target)
  else if name = "chpgn" then
    write_text context (snprintf_d context.page) target
  else
    .ok (0, context, target)

/-! ## Fonts, colours, runs -/

/-- The struct `rgb_color`; each component is a `uint8`. -/
structure rgb_color where
  red : Nat
  green : Nat
  blue : Nat
  alpha : Nat
  deriving DecidableEq, Repr

/-- The constant `kBlack` of `copy_text_run`. -/
def kBlack : rgb_color := { red := 0, green := 0, blue := 0, alpha := 255 }

/-- Modelled from the spec: a font (`BFont`, whose class is not among the
sources), reduced to what the data model of the spec lists for a run: the
family, the face flags (a `uint16`) and the size in points. The size is a
`float` in the source and an exact rational here. Equality of fonts
(`BFont::operator==`) is equality of these three fields. -/
structure BFont where
  family : String
  face : Nat
  size : ℚ
  deriving DecidableEq

/-- Modelled from the spec: the face flags of `Font.h` (not among the
sources), with the values of the Haiku header. -/
def B_ITALIC_FACE : Nat := 0x0001

/-- Modelled from the spec: the underline flag of `Font.h`. -/
def B_UNDERSCORE_FACE : Nat := 0x0002

/-- Modelled from the spec: the strikeout flag of `Font.h`. -/
def B_STRIKEOUT_FACE : Nat := 0x0010

/-- Modelled from the spec: the bold flag of `Font.h`. -/
def B_BOLD_FACE : Nat := 0x0020

/-- Modelled from the spec: the plain baseline face of `Font.h`. -/
def B_REGULAR_FACE : Nat := 0x0040

/-- Modelled from the spec: `BFont::SetFace(face)`. As the comment in
`set_font_face` records, `SetFace(0)` does not do anything; any other value
becomes the face. -/
def BFont.SetFace (font : BFont) (face : Nat) : BFont :=
  if face = 0 then font else { font with face := face }

/-- Modelled from the spec: `BFont::SetSize(size)`. -/
def BFont.SetSize (font : BFont) (size : ℚ) : BFont := { font with size := size }

/-- Modelled from the spec: `BFont::SetFamilyAndFace(family, face)`. -/
def BFont.SetFamilyAndFace (font : BFont) (family : String) (face : Nat) : BFont :=
  { font with family := family, face := face }

/-- The value `set_font_face(font, face, on)` passes to `SetFace`, as a function
of the current face `font.Face()`; `current & ~face` on `uint16` operands is the
conjunction with the 16-bit complement. -/
def set_font_face_value (current face : Nat) (on_ : Bool) : Nat :=
  if current = B_REGULAR_FACE ∧ on_ = true then face
  else if (current &&& (0xffff ^^^ face)) = 0 ∧ on_ = false then B_REGULAR_FACE
  else if on_ = true then current ||| face
  else current &&& (0xffff ^^^ face)

/-- The function `set_font_face(font, face, on)`. -/
def set_font_face (font : BFont) (face : Nat) (on_ : Bool) : BFont :=
  font.SetFace (set_font_face_value font.face face on_)

/-- The struct `text_run` of `TextView.h`: the starting offset of the run, its
font and its colour. -/
structure text_run where
  offset : Nat
  font : BFont
  color : rgb_color
  deriving DecidableEq

/-- The function `text_runs_are_equal(a, b)` on two possibly null runs. -/
def text_runs_are_equal (a b : Option text_run) : Bool :=
  match a, b with
  | none, none => true
  | none, some _ => false
  | some _, none => false
  | some x, some y => x.offset = y.offset ∧ x.color = y.color ∧ x.font = y.font

/-- What the converter takes from its surroundings: the colour table and font
table lookups of the parsed document (`Start().Color(index)`,
`Start().FindGroup("fonttbl")` with `FindDefinition`), the fonts of the
application kit, and the content of an uninitialised stack byte.

`fonttbl` is `none` when `FindGroup("fonttbl")` returns `NULL`; otherwise it
lists, for index 0, 1, ... while `FindDefinition("f", index)` is not `NULL`,
the option of that definition and whether `FindDefinition("fmodern", index)`
is not `NULL`. `new_font` is the font a default-constructed `BFont` holds. -/
structure Env where
  Color : Int → rgb_color
  fonttbl : Option (List (Int × Bool))
  new_font : BFont
  be_plain_font : BFont
  be_fixed_font : BFont
  garbage : Byte

/-- The function `copy_text_run(run)`; allocation is taken to succeed. -/
def copy_text_run (env : Env) (run : Option text_run) : text_run :=
  match run with
  | some r => { offset := r.offset, font := r.font, color := r.color }
  | none => { offset := 0, font := env.new_font, color := kBlack }

/-! ## The class `TextOutput` -/

/-- The data members of `TextOutput`. The pointer `fCurrentRun` points into
`fRuns` and is kept as the index of the run it points to. The group stack
(`Stack<text_run *>`, whose header `Stack.h` is not among the sources) is a
list with the top first; it owns copies, `none` standing for a pushed `NULL`.
(`fApplication` plays no part in the conversion.) -/
structure TextOutput where
  fTarget : Option Sink
  fOffset : Nat
  fContext : conversion_context
  fGroupStack : List (Option text_run)
  fProcessRuns : Bool
  fRuns : List text_run
  fCurrentRun : Option Nat

/-- The constructor `TextOutput(start, stream, processRuns)`. -/
def TextOutput.new (stream : Option Sink) (processRuns : Bool) : TextOutput :=
  { fTarget := stream, fOffset := 0, fContext := conversion_context.Reset,
    fGroupStack := [], fProcessRuns := processRuns, fRuns := [], fCurrentRun := none }

/-- The method `TextOutput::Length`. -/
def TextOutput.Length (s : TextOutput) : Nat := s.fOffset

/-- The run `fCurrentRun` points to, `none` for `NULL`. -/
def TextOutput.current (s : TextOutput) : Option text_run :=
  match s.fCurrentRun with
  | none => none
  | some i => s.fRuns[i]?

/-- An assignment through `fCurrentRun`: the run it points to is replaced by
`f` of it, in place. -/
def TextOutput.assign (s : TextOutput) (f : text_run → text_run) : TextOutput :=
  match s.fCurrentRun with
  | none => s
  | some i =>
    match s.fRuns[i]? with
    | none => s
    | some r => { s with fRuns := s.fRuns.set i (f r) }

/-- The method `TextOutput::PrepareTextRun(run)`. -/
def TextOutput.PrepareTextRun (env : Env) (s : TextOutput) (run : Option text_run) :
    TextOutput :=
  let add : TextOutput :=
    let newRun : text_run := { copy_text_run env run with offset := s.fOffset }
    { s with fRuns := s.fRuns ++ [newRun], fCurrentRun := some s.fRuns.length }
  match run with
  | none => add
  | some r => if s.fOffset = r.offset then s else add

/-- Modelled from the spec: what `onGroupEnter` tells the walker
(`Worker::Skip()` was called or not). -/
inductive Directive where
  | Descend
  | Skip
  deriving DecidableEq, Repr

/-- The method `TextOutput::Group(group)`, as a function of the destination of
the group. -/
def TextOutput.Group (env : Env) (s : TextOutput) (destination : Destination) :
    Directive × TextOutput :=
  if destination ≠ Destination.TEXT_DESTINATION then (Directive.Skip, s)
  else if s.fProcessRuns = false then (Directive.Descend, s)
  else
    let run : Option text_run :=
      match s.current with
      | none => none
      | some r => some (copy_text_run env (some r))
    (Directive.Descend, { s with fGroupStack := run :: s.fGroupStack })

/-- The method `TextOutput::GroupEnd(group)`. `Stack::Pop` on an empty stack
leaves `last` at its initial `NULL`. -/
def TextOutput.GroupEnd (s : TextOutput) : TextOutput :=
  if s.fProcessRuns = false then s
  else
    let last : Option text_run := s.fGroupStack.head?.join
    let s1 : TextOutput := { s with fGroupStack := s.fGroupStack.tail }
    if text_runs_are_equal last s1.current = false then
      match s1.current, last with
      | some cur, some l =>
        if cur.offset = s1.fOffset then
          s1.assign (fun r => { r with color := l.color, font := l.font })
        else
          { s1 with fRuns := s1.fRuns ++ [{ l with offset := s1.fOffset }],
                    fCurrentRun := some s1.fRuns.length }
      | none, some l =>
        { s1 with fRuns := s1.fRuns ++ [{ l with offset := s1.fOffset }],
                  fCurrentRun := some s1.fRuns.length }
      | _, none => s1
    else s1

/-- The font selection of the `f` command: the default-constructed font,
replaced by `be_fixed_font` at every font-table definition whose option is the
one of the command and which has a `fmodern` definition. -/
def select_font (env : Env) (fonts : List (Int × Bool)) (option : Int) : BFont :=
  fonts.foldl
    (fun font info => if info.1 ≠ option then font
      else if info.2 = true then env.be_fixed_font else font)
    env.new_font

/-- The statement `fOffset += process_command(fContext, command, fTarget)` of
`TextOutput::Command`. -/
def TextOutput.forward (env : Env) (s : TextOutput) (command : Command) :
    Except Thrown TextOutput :=
  match process_command env.garbage s.fContext command s.fTarget with
  | .error e => .error e
  | .ok r => .ok { s with fOffset := s.fOffset + r.1, fContext := r.2.1, fTarget := r.2.2 }

/-- The method `TextOutput::Command(command)`. In each style branch
`PrepareTextRun(fCurrentRun)` comes first and the assignment through
`fCurrentRun` second. -/
def TextOutput.Command (env : Env) (s : TextOutput) (command : Command) :
    Except Thrown TextOutput :=
  if s.fProcessRuns = false then s.forward env command
  else
    let name := command.Name
    let s1 := s.PrepareTextRun env s.current
    if name = "cf" then
      .ok (s1.assign (fun r => { r with color := env.Color command.Option }))
    else if name = "b" ∨ name = "embo" ∨ name = "impr" then
      .ok (s1.assign (fun r =>
        { r with font := set_font_face r.font B_BOLD_FACE (command.Option != 0) }))
    else if name = "i" then
      .ok (s1.assign (fun r =>
        { r with font := set_font_face r.font B_ITALIC_FACE (command.Option != 0) }))
    else if name = "ul" then
      .ok (s1.assign (fun r =>
        { r with font := set_font_face r.font B_UNDERSCORE_FACE (command.Option != 0) }))
    else if name = "strike" then
      .ok (s1.assign (fun r =>
        { r with font := set_font_face r.font B_STRIKEOUT_FACE (command.Option != 0) }))
    else if name = "fs" then
      .ok (s1.assign (fun r => { r with font := r.font.SetSize ((command.Option : ℚ) / 2) }))
    else if name = "plain" then
      .ok (s1.assign (fun r => { r with font := env.be_plain_font }))
    else if name = "f" then
      match env.fonttbl with
      | none => .ok s
      | some fonts =>
        let font := select_font env fonts command.Option
        .ok (s1.assign (fun r =>
          { r with font := r.font.SetFamilyAndFace font.family r.font.face }))
    else s.forward env command

/-- The method `TextOutput::Text(text)`. -/
def TextOutput.Text (s : TextOutput) (text : List Byte) : Except Thrown TextOutput :=
  match write_text s.fContext text s.fTarget with
  | .error e => .error e
  | .ok r => .ok { s with fOffset := s.fOffset + r.1, fContext := r.2.1, fTarget := r.2.2 }

/-! ## The walker -/

mutual
/-- Modelled from the spec: the traversal `Worker::Dispatch` of `RTF.cpp`,
which is not among the sources, following the walker contract of the spec:
depth-first; the enter callback of a group fires before its children and the
exit callback after them; text and command leaves are visited in document
order; when the enter callback answers `Skip` no descendant is visited and the
exit callback is still invoked. -/
def Worker.Dispatch (env : Env) : Element → TextOutput → Except Thrown TextOutput
  | .group destination elements, s =>
    match TextOutput.Group env s destination with
    | (Directive.Skip, s1) => .ok (TextOutput.GroupEnd s1)
    | (Directive.Descend, s1) =>
      match Worker.DispatchAll env elements s1 with
      | .error e => .error e
      | .ok s2 => .ok (TextOutput.GroupEnd s2)
  | .command command, s => TextOutput.Command env s command
  | .text bytes, s => TextOutput.Text s bytes
/-- Modelled from the spec: the children of a group, dispatched in document
order. -/
def Worker.DispatchAll (env : Env) : List Element → TextOutput → Except Thrown TextOutput
  | [], s => .ok s
  | e :: es, s =>
    match Worker.Dispatch env e s with
    | .error e => .error e
    | .ok s1 => Worker.DispatchAll env es s1
end

/-- Modelled from the spec: `Worker::Work()`, the traversal from the root. -/
def Worker.Work (env : Env) (s : TextOutput) (root : Element) : Except Thrown TextOutput :=
  Worker.Dispatch env root s

/-- One callback invocation of the walker. -/
inductive Visit where
  | GroupEnter (destination : Destination)
  | GroupExit
  | Command (command : Command)
  | Text (bytes : List Byte)

/-- The callback a visit invokes on the converter. -/
def TextOutput.visit (env : Env) (s : TextOutput) : Visit → Except Thrown TextOutput
  | .GroupEnter destination => .ok (TextOutput.Group env s destination).2
  | .GroupExit => .ok (TextOutput.GroupEnd s)
  | .Command command => TextOutput.Command env s command
  | .Text bytes => TextOutput.Text s bytes

/-- The callbacks of a sequence of visits, in order; a throw ends the pass. -/
def TextOutput.run (env : Env) : TextOutput → List Visit → Except Thrown TextOutput
  | s, [] => .ok s
  | s, v :: vs =>
    match TextOutput.visit env s v with
    | .error e => .error e
    | .ok s1 => TextOutput.run env s1 vs

mutual
/-- Modelled from the spec: the sequence of callbacks the walker issues for a
tree when the visitor is `TextOutput`, whose enter callback answers `Skip`
exactly for the groups that are not text destinations: such a group
contributes its enter and its exit and nothing of its content. -/
def Worker.visits : Element → List Visit
  | .group destination elements =>
    if destination ≠ Destination.TEXT_DESTINATION then
      [Visit.GroupEnter destination, Visit.GroupExit]
    else Visit.GroupEnter destination :: (Worker.visitsAll elements ++ [Visit.GroupExit])
  | .command command => [Visit.Command command]
  | .text bytes => [Visit.Text bytes]
/-- Modelled from the spec: the callbacks for the children of a group. -/
def Worker.visitsAll : List Element → List Visit
  | [] => []
  | e :: es => Worker.visits e ++ Worker.visitsAll es
end

/-! ## Reference definitions taken from the specification -/

/-- The standard UTF-8 encoding of a code point up to 0x10FFFF, by the bit
distribution of the Unicode standard: one byte `0xxxxxxx`, two bytes
`110xxxxx 10xxxxxx`, three bytes `1110xxxx 10xxxxxx 10xxxxxx`, four bytes
`11110xxx 10xxxxxx 10xxxxxx 10xxxxxx`. -/
def utf8_standard (c : Nat) : List Byte :=
  if c < 0x80 then [c]
  else if c < 0x800 then [0xC0 + c / 64, 0x80 + c % 64]
  else if c < 0x10000 then [0xE0 + c / 4096, 0x80 + c / 64 % 64, 0x80 + c % 64]
  else [0xF0 + c / 262144, 0x80 + c / 4096 % 64, 0x80 + c / 64 % 64, 0x80 + c % 64]

/-- The number of spaces the next text emission puts first: the first-line
indent when the line-start flag is set, none otherwise. -/
def pending_indent (context : conversion_context) : Nat :=
  if context.new_line then context.first_line_indent.toNat else 0

/-- The names `process_command` recognizes (layout and text-producing
commands). -/
def layout_commands : List String :=
  ["par", "line", "sect", "page", "tab", "\x27", "pard", "fi", "cufi", "sectnum",
    "pgnstarts", "pgnrestart", "chpgn"]

/-- The names `TextOutput::Command` recognizes itself (style commands). -/
def style_commands : List String :=
  ["cf", "b", "embo", "impr", "i", "ul", "strike", "fs", "plain", "f"]

/-- The starting offsets of the run table, in table order. -/
def TextOutput.offsets (s : TextOutput) : List Nat := s.fRuns.map text_run.offset

/-- The invariant of the run table: the offsets increase strictly along the
table, none exceeds the current text offset, and `fCurrentRun` is `NULL` for an
empty table and points to the last entry otherwise. -/
def TextOutput.Ordered (s : TextOutput) : Prop :=
  s.offsets.Pairwise (· < ·) ∧ (∀ o ∈ s.offsets, o ≤ s.fOffset)
    ∧ s.fCurrentRun = if s.offsets = [] then none else some (s.offsets.length - 1)

/-- The claim that no run repeats the style of the run before it: no two
adjacent entries of the run table have the same colour and the same font. -/
def no_redundant_run (runs : List text_run) : Prop :=
  List.Chain' (fun a b : text_run => ¬ (a.color = b.color ∧ a.font = b.font)) runs

/-- An environment for the worked examples: every colour index resolves to
black, the document has no font table, and the application fonts are regular
faces of 12 points. -/
def sample_env : Env :=
  { Color := fun _ => kBlack, fonttbl := none, new_font := ⟨"Noto Sans", B_REGULAR_FACE, 12⟩,
    be_plain_font := ⟨"Noto Sans", B_REGULAR_FACE, 12⟩,
    be_fixed_font := ⟨"Noto Sans Mono", B_REGULAR_FACE, 12⟩, garbage := 0 }

/-- The document `\b X \b Y` in a text group: bold is switched on, and switched
on again after the first character. -/
def bold_twice : Element :=
  .group .TEXT_DESTINATION
    [.command ⟨"b", false, -1⟩, .text [88], .command ⟨"b", false, -1⟩, .text [89]]

/-- The relation between the counting pass (`sc`: no target, no run
processing) and the full pass (`sf`: run processing, a target that accepts
every write) at the same point of the traversal: same offset, same context,
and the target of the full pass holds, after the bytes `base` it held at the
start, exactly as many bytes as the offset says. -/
def in_step (base : List Byte) (sc sf : TextOutput) : Prop :=
  sc.fTarget = none ∧ sc.fProcessRuns = false ∧ sf.fProcessRuns = true
    ∧ sc.fOffset = sf.fOffset ∧ sc.fContext = sf.fContext
    ∧ ∃ text : List Byte, sf.fTarget = some ⟨base ++ text, []⟩ ∧ text.length = sf.fOffset

mutual
/-- Every group of the element, at any depth, is a text destination. -/
def Element.all_text : Element → Bool
  | .group destination elements =>
    decide (destination = Destination.TEXT_DESTINATION) && Element.all_text_list elements
  | .command _ => true
  | .text _ => true
/-- Every group in the list of elements, at any depth, is a text destination. -/
def Element.all_text_list : List Element → Bool
  | [] => true
  | e :: es => Element.all_text e && Element.all_text_list es
end

/-! ## The styled-text container -/

/-- The bytes of a `uint32` in big-endian order, as `swap_data(B_UINT32_TYPE,
..., B_SWAP_HOST_TO_BENDIAN)` leaves them in memory. -/
def be32 (n : Nat) : List Byte :=
  [n / 16777216 % 256, n / 65536 % 256, n / 256 % 256, n % 256]

/-- The `uint32` that four big-endian bytes hold, as
`swap_data(..., B_SWAP_BENDIAN_TO_HOST)` yields it. -/
def from_be32 (bytes : List Byte) : Nat :=
  match bytes with
  | [a, b, c, d] => ((a * 256 + b) * 256 + c) * 256 + d
  | _ => 0

/-- The multi-character constant `'STXT'`. -/
def magic_STXT : Nat := 0x53545854

/-- The multi-character constant `'TEXT'`. -/
def magic_TEXT : Nat := 0x54455854

/-- The multi-character constant `'STYL'`. -/
def magic_STYL : Nat := 0x5354594C

/-- Modelled from the spec: `sizeof(TranslatorStyledTextStreamHeader)`; the
struct (of `TranslatorFormats.h`, not among the sources) has the record header
`magic, header_size, data_size` and `version`, four 32-bit fields. -/
def sizeof_stream_header : Nat := 16

/-- Modelled from the spec: `sizeof(TranslatorStyledTextTextHeader)`: the record
header and `charset`. -/
def sizeof_text_header : Nat := 16

/-- Modelled from the spec: `sizeof(TranslatorStyledTextStyleHeader)`: the record
header, `apply_offset` and `apply_length`. -/
def sizeof_style_header : Nat := 20

/-- Modelled from the spec: the constant `B_UNICODE_UTF8` of `Font.h`. -/
def B_UNICODE_UTF8 : Nat := 0

/-- Modelled from the spec: the run-array codec of the text view
(`BTextView::FlattenRunArray` and `BTextView::UnflattenRunArray`, not among the
sources), taken as given. `UnflattenRunArray` returns `none` for `NULL`. -/
structure RunArrayCodec where
  FlattenRunArray : List text_run → List Byte
  UnflattenRunArray : List Byte → Option (List text_run)

/-- The method `TextOutput::FlattenedRunArray(size)`: no bytes (`NULL`, size 0)
for an empty run table, else the flattened array of the runs in table
order. -/
def TextOutput.FlattenedRunArray (codec : RunArrayCodec) (s : TextOutput) : List Byte :=
  if s.fRuns.length = 0 then [] else codec.FlattenRunArray s.fRuns

/-- The sequence `written = target.Write(data, size); if (written < B_OK)
return written; if (written != size) return B_IO_ERROR;` of `convert_to_stxt`:
the status to return, if any, and the target afterwards. -/
def write_or_return (target : Sink) (data : List Byte) : Option status_t × Sink :=
  let r := target.Write data
  if r.1 < B_OK then (some r.1, r.2)
  else if r.1 ≠ (data.length : Int) then (some B_IO_ERROR, r.2)
  else (none, r.2)

/-- The bytes of the `TranslatorStyledTextStreamHeader` that `convert_to_stxt`
fills in and swaps to big-endian: magic `'STXT'`, its own size, data size 0,
version 100. -/
def stream_header_bytes : List Byte :=
  be32 magic_STXT ++ be32 sizeof_stream_header ++ be32 0 ++ be32 100

/-- The bytes of the `TranslatorStyledTextTextHeader` for a text of `textSize`
bytes (a `size_t` stored into a `uint32` field): magic `'TEXT'`, its own size,
the text size, the character set. -/
def text_header_bytes (textSize : Nat) : List Byte :=
  be32 magic_TEXT ++ be32 sizeof_text_header ++ be32 (textSize % 4294967296)
    ++ be32 B_UNICODE_UTF8

/-- The bytes of the `TranslatorStyledTextStyleHeader`: magic `'STYL'`, its own
size, the size of the flattened run array, apply offset 0, apply length the
text size. -/
def style_header_bytes (flattenedSize textSize : Nat) : List Byte :=
  be32 magic_STYL ++ be32 sizeof_style_header ++ be32 (flattenedSize % 4294967296)
    ++ be32 0 ++ be32 (textSize % 4294967296)

/-- The function `convert_to_stxt(header, target)`: the status it returns and
the target afterwards. `swap_data` on whole headers succeeds. -/
def convert_to_stxt (env : Env) (codec : RunArrayCodec) (header : Element) (target : Sink) :
    status_t × Sink :=
  match Worker.Work env (TextOutput.new none false) header with
  | .error e => (e.1, target)
  | .ok counter =>
    let textSize := counter.Length
    match write_or_return target stream_header_bytes with
    | (some status, target1) => (status, target1)
    | (none, target1) =>
      match write_or_return target1 (text_header_bytes textSize) with
      | (some status, target2) => (status, target2)
      | (none, target2) =>
        match Worker.Work env (TextOutput.new (some target2) true) header with
        | .error e => (e.1, e.2)
        | .ok output =>
          let flattenedRuns := output.FlattenedRunArray codec
          let target3 := output.fTarget.getD target2
          match write_or_return target3
              (style_header_bytes flattenedRuns.length textSize) with
          | (some status, target4) => (status, target4)
          | (none, target4) =>
            match write_or_return target4 flattenedRuns with
            | (some status, target5) => (status, target5)
            | (none, target5) => (B_OK, target5)

/-- Modelled from the spec: the source of the reverse direction (a
`BPositionIO`, not among the sources) as a byte array with a read position. -/
structure Source where
  data : List Byte
  position : Nat
  deriving DecidableEq, Repr

/-- Modelled from the spec: `BPositionIO::Read(buffer, size)` on a byte array:
the next `size` bytes, or as many as are left, and the source advanced past
them. -/
@[irreducible]
def Source.Read (source : Source) (size : Nat) : List Byte × Source :=
  let chunk := (source.data.drop source.position).take size
  (chunk, { source with position := source.position + chunk.length })

/-- The size `READ_BUFFER_SIZE` of the read buffer. -/
def READ_BUFFER_SIZE : Nat := 2048

/-- The C string that starts at the beginning of `memory`: the bytes before the
first NUL. -/
def c_string (memory : List Byte) : List Byte := memory.takeWhile (fun b => b ≠ 0)

/-- The memory after `Read(buffer, n)` has stored `chunk` at its start. -/
def store (memory chunk : List Byte) : List Byte := chunk ++ memory.drop chunk.length

/-- The text-reading loop of `convert_styled_text_to_rtf`. `memory` is the stack
memory from the start of `char buffer[READ_BUFFER_SIZE]` on (the buffer, then
what lies behind it); it is uninitialised when the function starts. Each
iteration appends the C string at `buffer` to `plainText`
(`plainText << buffer`). Every iteration reads at least one byte, so `fuel`
above `data_size` is never used up. Returns the text, `ntotalread`, the source
and the memory. -/
@[irreducible]
def read_text_loop :
    Nat → Nat → Source → List Byte → List Byte → Nat → List Byte × Nat × Source × List Byte
  | 0, _, source, memory, plainText, ntotalread => (plainText, ntotalread, source, memory)
  | fuel + 1, data_size, source, memory, plainText, ntotalread =>
    let nreed := min READ_BUFFER_SIZE (data_size - ntotalread)
    let r := source.Read nreed
    if r.1.length > 0 then
      read_text_loop fuel data_size r.2 (store memory r.1) (plainText ++ c_string (store memory r.1))
        (ntotalread + r.1.length)
    else (plainText, ntotalread, r.2, memory)

/-- What the reading part of `convert_styled_text_to_rtf` hands to the part that
writes the markup: the plain text, and the style section: `none` when no byte
follows the text, else the pointer `UnflattenRunArray` returned (`none` for
`NULL`). -/
structure StyledText where
  plainText : List Byte
  styles : Option (Option (List text_run))

/-- The reading part of `convert_styled_text_to_rtf(source, target)`, from the
`Seek` to the call of `UnflattenRunArray`: the status it returns early, or
what it has read. The stream header is read and not looked at; of the text
header only `data_size` is used. -/
def read_styled_text (codec : RunArrayCodec) (memory : List Byte) (source : Source) :
    Except status_t StyledText :=
  match Source.Read { source with position := 0 } sizeof_stream_header with
  | (stxtheader, source1) =>
    if stxtheader.length ≠ sizeof_stream_header then .error B_ERROR
    else
      match source1.Read sizeof_text_header with
      | (txtheader, source2) =>
        if txtheader.length ≠ sizeof_text_header then .error B_ERROR
        else
          match read_text_loop (from_be32 ((txtheader.drop 8).take 4) + 1)
              (from_be32 ((txtheader.drop 8).take 4)) source2 memory [] 0 with
          | (plainText, ntotalread, source3, _) =>
            if from_be32 ((txtheader.drop 8).take 4) ≠ ntotalread then .error B_NO_TRANSLATOR
            else
              match source3.Read sizeof_style_header with
              | (stylHeader, source4) =>
                if stylHeader.length ≠ sizeof_style_header ∧ stylHeader.length ≠ 0 then
                  .error B_NO_TRANSLATOR
                else if stylHeader.length = sizeof_style_header then
                  if from_be32 (stylHeader.take 4) ≠ magic_STYL
                      ∨ from_be32 ((stylHeader.drop 4).take 4) ≠ sizeof_style_header then
                    .error B_NO_TRANSLATOR
                  else
                    match source4.Read (from_be32 ((stylHeader.drop 8).take 4)) with
                    | (unflattened, _) =>
                      .ok { plainText := plainText,
                            styles := some (codec.UnflattenRunArray unflattened) }
                else .ok { plainText := plainText, styles := none }

/-- The document `A \'00 B`: the letter A, the escape for the code point 0, the
letter B. -/
def nul_document : Element :=
  .group .TEXT_DESTINATION [.text [65], .command ⟨"\x27", true, 0⟩, .text [66]]

/-- The plain text the reading loop assembles when the text section holds
`text`: chunk by chunk of `READ_BUFFER_SIZE` bytes, each chunk is stored at the
start of the memory and the C string found there is appended. -/
def reassembled : Nat → List Byte → List Byte → List Byte
  | 0, _, _ => []
  | fuel + 1, memory, text =>
    if text = [] then []
    else
      c_string (store memory (text.take READ_BUFFER_SIZE))
        ++ reassembled fuel (store memory (text.take READ_BUFFER_SIZE))
            (text.drop READ_BUFFER_SIZE)

/-- The container `convert_to_stxt` writes for a text and a flattened run
array: stream header, text header, text, style header, flattened runs. -/
def container (text flattenedRuns : List Byte) : List Byte :=
  stream_header_bytes ++ text_header_bytes text.length ++ text
    ++ style_header_bytes flattenedRuns.length text.length ++ flattenedRuns

/-- A document that is one text group holding one text leaf. -/
def text_document (text : List Byte) : Element :=
  .group .TEXT_DESTINATION [.text text]

/-- A text of 2049 bytes without a NUL: 2048 letters A and one letter B. -/
def long_text : List Byte := List.replicate 2048 65 ++ [66]

/-- The number a string of decimal digits stands for, most significant digit
first. -/
def decimal_value (digits : List Byte) : Nat :=
  digits.foldl (fun acc d => 10 * acc + (d - 48)) 0

/-- The bytes are the decimal string of the integer `n`: one or more ASCII
digits whose value is `n`, or, for a negative `n`, a minus sign followed by one
or more digits whose value is `-n`. -/
def is_decimal_of (bytes : List Byte) (n : Int) : Prop :=
  if 0 ≤ n then
    bytes ≠ [] ∧ (∀ b ∈ bytes, 48 ≤ b ∧ b ≤ 57) ∧ (decimal_value bytes : Int) = n
  else
    ∃ digits : List Byte, bytes = 45 :: digits ∧ digits ≠ []
      ∧ (∀ b ∈ digits, 48 ≤ b ∧ b ≤ 57) ∧ (decimal_value digits : Int) = -n

/-- Scenario B of the specification with the bold command `\b<option>`: a text
group holding the bold command and the text `"X"`, followed outside that group
by the text `"Y"`, all inside the root group of the document. -/
def scenario_B (command : Command) : Element :=
  .group .TEXT_DESTINATION
    [.group .TEXT_DESTINATION [.command command, .text [88]], .text [89]]

/-- Scenario B behind a `plain` command: `{\plain{\b X}Y}`, so that a run
is active when the inner group is entered. -/
def scenario_B_after_plain : Element :=
  .group .TEXT_DESTINATION
    [.command ⟨"plain", false, -1⟩,
      .group .TEXT_DESTINATION [.command ⟨"b", false, -1⟩, .text [88]], .text [89]]

/-- Scenario A of the specification as a sequence of callbacks: the root group
is entered, then the command `par`, the text `"Hi"`, the command `par`, and the
root group is left. -/
def scenario_A : List Visit :=
  [.GroupEnter .TEXT_DESTINATION, .Command ⟨"par", false, -1⟩, .Text [72, 105],
    .Command ⟨"par", false, -1⟩, .GroupExit]

/-- Scenario A of the specification as a document tree. -/
def scenario_A_document : Element :=
  .group .TEXT_DESTINATION
    [.command ⟨"par", false, -1⟩, .text [72, 105], .command ⟨"par", false, -1⟩]

/-- No run exists yet: the run table is empty, `fCurrentRun` is `NULL` and the
group stack holds `NULL` markers only. -/
def TextOutput.Unstyled (s : TextOutput) : Prop :=
  s.fRuns = [] ∧ s.fCurrentRun = none ∧ ∀ x ∈ s.fGroupStack, x = none

/-- Text has been written and no run starts at offset 0. -/
def TextOutput.Started (s : TextOutput) : Prop :=
  0 < s.fOffset ∧ ∀ o ∈ s.offsets, 0 < o

/-- The document `{\b0 X}`: bold is switched off, then one character follows. -/
def bold_off_first : Element :=
  .group .TEXT_DESTINATION [.command ⟨"b", true, 0⟩, .text [88]]

/-- A stand-in for the run-array codec in the worked examples: a run array is
flattened to its count alone, as four bytes. -/
def sample_codec : RunArrayCodec :=
  { FlattenRunArray := fun runs => be32 runs.length,
    UnflattenRunArray := fun _ => none }

/-- The reference for failing fast: the buffers are written in order through
the write-and-check sequence, and the first write that fails ends the
sequence with its status, leaving the target as that write left it. -/
def write_all : List (List Byte) → Sink → Except Thrown Sink
  | [], k => .ok k
  | buffer :: buffers, k =>
    match write_checked k buffer with
    | .error e => .error e
    | .ok k1 => write_all buffers k1

/-- The converter with its target replaced by the sink `k`. -/
def TextOutput.retarget (s : TextOutput) (k : Sink) : TextOutput :=
  { s with fTarget := some k }

/-- The function `convert_styled_text_to_rtf(source, target)`: the status it
returns and the target afterwards. The reading part returns early with its
status, before anything is written; otherwise the markup text `rtfFile` is
built from what was read, written to the target with one `Write` whose result
is not looked at, and `B_OK` is returned. The building of the markup text is
the parameter `markup`. -/
def convert_styled_text_to_rtf (codec : RunArrayCodec) (markup : StyledText → List Byte)
    (memory : List Byte) (source : Source) (target : Sink) : status_t × Sink :=
  match read_styled_text codec memory source with
  | .error status => (status, target)
  | .ok styled => (B_OK, (target.Write (markup styled)).2)

/-- A styled-text stream whose two headers hold zeros for the magic and for the
header size: a stream header of 16 zero bytes, a text header announcing 2
bytes of text with magic 0 and header size 0, and the text `Hi`. -/
def zero_magic_stream : List Byte :=
  (be32 0 ++ be32 0 ++ be32 0 ++ be32 0) ++ (be32 0 ++ be32 0 ++ be32 2 ++ be32 0) ++ [72, 105]

/-- The four style flags of the face commands: bold, italic, underline,
strikeout. -/
def style_flags : List Nat :=
  [B_BOLD_FACE, B_ITALIC_FACE, B_UNDERSCORE_FACE, B_STRIKEOUT_FACE]

/-- The faces of claim C29: exactly the regular face, or a non-empty
combination of the four style flags (a non-zero value within the mask
`0x33`). -/
def valid_faces : List Nat :=
  B_REGULAR_FACE :: (List.range 0x34).filter (fun c => c ≠ 0 ∧ c &&& 0x33 = c)

/-! ## Tracker: `StringToScalar` (`src/kits/tracker/Utilities.cpp`) -/

/-- The size constants `kKBSize`, `kMBSize`, `kGBSize` that `StringToScalar`
multiplies with; they are declared in `Utilities.h`, which is not among the
sources, and are taken as given. -/
structure SizeUnits where
  kKBSize : Int
  kMBSize : Int
  kGBSize : Int

/-- The values the size constants have in the Tracker headers: 2^10, 2^20 and
2^30. -/
def tracker_units : SizeUnits :=
  { kKBSize := 1024, kMBSize := 1048576, kGBSize := 1073741824 }

/-- A value reduced to the range of an `int64`, as the product `val *= size`
is. -/
def wrap_int64 (x : Int) : Int :=
  (x + 9223372036854775808) % 18446744073709551616 - 9223372036854775808

/-- Modelled from the spec: `strstr(haystack, needle) != NULL` of the C
library: the needle occurs in the haystack. -/
def strstr : List Byte → List Byte → Bool
  | [], needle => needle.isEmpty
  | b :: rest, needle => needle.isPrefixOf (b :: rest) || strstr rest needle

/-- Modelled from the spec: the white space `strtoll` skips (`isspace` in the
C locale). -/
def isspace (b : Byte) : Bool := b = 32 || (9 ≤ b && b ≤ 13)

/-- The digits at the start of the text, read as a decimal number on top of
`acc`. -/
def strtoll_digits : List Byte → Nat → Nat
  | [], acc => acc
  | b :: rest, acc =>
    if 48 ≤ b ∧ b ≤ 57 then strtoll_digits rest (acc * 10 + (b - 48)) else acc

/-- Modelled from the spec: `strtoll(text, &end, 10)` of the C library: white
space is skipped, a sign is taken, the decimal digits that follow are the
value (0 when there is none), and a value outside the range of `long long` is
replaced by the nearest end of the range. -/
def strtoll (text : List Byte) : Int :=
  match text.dropWhile isspace with
  | 45 :: rest => max (-(strtoll_digits rest 0 : Int)) (-9223372036854775808)
  | 43 :: rest => min (strtoll_digits rest 0 : Int) 9223372036854775807
  | rest => min (strtoll_digits rest 0 : Int) 9223372036854775807

/-- The function `StringToScalar(text)`. -/
def StringToScalar (units : SizeUnits) (text : List Byte) : Int :=
  if strstr text (cstr "k") || strstr text (cstr "K") then
    wrap_int64 (strtoll text * units.kKBSize)
  else if strstr text (cstr "mb") || strstr text (cstr "MB") then
    wrap_int64 (strtoll text * units.kMBSize)
  else if strstr text (cstr "gb") || strstr text (cstr "GB") then
    wrap_int64 (strtoll text * units.kGBSize)
  else if strstr text (cstr "byte") || strstr text (cstr "BYTE") then
    wrap_int64 (strtoll text * units.kGBSize)
  else
    strtoll text

/-! ## The markup text of `convert_styled_text_to_rtf` -/

/-- Modelled from the spec: `BString::CharacterEscape(setOfCharsToEscape,
escapeWith)` (the class `BString` is not among the sources): the escape
character is put before every byte of the string that is in the set. -/
def CharacterEscape (setOfCharsToEscape : List Byte) (escapeWith : Byte) :
    List Byte → List Byte
  | [] => []
  | b :: rest =>
    if b ∈ setOfCharsToEscape then
      escapeWith :: b :: CharacterEscape setOfCharsToEscape escapeWith rest
    else b :: CharacterEscape setOfCharsToEscape escapeWith rest

/-- The scan of `ReplaceAll`; `skip` counts the bytes still to pass over of an
occurrence that has been replaced. -/
def ReplaceAll_scan (replaceThis withThis : List Byte) : Nat → List Byte → List Byte
  | _, [] => []
  | skip + 1, _ :: rest => ReplaceAll_scan replaceThis withThis skip rest
  | 0, b :: rest =>
    if replaceThis ≠ [] ∧ replaceThis.isPrefixOf (b :: rest) = true then
      withThis ++ ReplaceAll_scan replaceThis withThis (replaceThis.length - 1) rest
    else b :: ReplaceAll_scan replaceThis withThis 0 rest

/-- Modelled from the spec: `BString::ReplaceAll(replaceThis, withThis)`: every
occurrence of `replaceThis`, found from left to right without overlap, is
replaced by `withThis`. -/
def ReplaceAll (replaceThis withThis string : List Byte) : List Byte :=
  ReplaceAll_scan replaceThis withThis 0 string

/-- Modelled from the spec: `BString::CopyInto(into, fromOffset, length)`: the
`length` bytes of the string from `fromOffset` on, as far as the string
reaches. The embedding covers offsets within the string and lengths that are
not negative. -/
def CopyInto (string : List Byte) (fromOffset length : Nat) : List Byte :=
  (string.drop fromOffset).take length

/-- Modelled from the spec: `std::set<T, Compare>::insert(x)`, the set being
held as the list of its elements in iteration order, which is ascending order
of `less`: an element equivalent to `x` keeps `x` out. -/
def set_insert {α : Type} (less : α → α → Bool) (x : α) : List α → List α
  | [] => [x]
  | y :: ys =>
    if less x y then x :: y :: ys
    else if less y x then y :: set_insert less x ys
    else y :: ys

/-- Modelled from the spec: `std::distance(set.begin(), set.find(x))`: the
position of the element equivalent to `x`, and the size of the set when there
is none (`find` returns `end()`). -/
def set_find {α : Type} (less : α → α → Bool) (x : α) : List α → Nat
  | [] => 0
  | y :: ys => if less x y = false ∧ less y x = false then 0 else set_find less x ys + 1

/-- The `uint32` that `color_compare` reads from the four bytes `red, green,
blue, alpha` of an `rgb_color`, on a host of the given byte order. -/
def color_uint32 (big_endian : Bool) (c : rgb_color) : Nat :=
  if big_endian then ((c.red * 256 + c.green) * 256 + c.blue) * 256 + c.alpha
  else ((c.alpha * 256 + c.blue) * 256 + c.green) * 256 + c.red

/-- The comparison `color_compare::operator()`. -/
def color_compare (big_endian : Bool) (left right : rgb_color) : Bool :=
  decide (color_uint32 big_endian left < color_uint32 big_endian right)

/-- Modelled from the spec: `BString::operator<`, which compares with `strcmp`:
byte by byte, a proper prefix first. -/
def BString_less (a b : List Byte) : Bool := decide (a < b)

/-- The bytes of a string in UTF-8. -/
def utf8_bytes (s : String) : List Byte := s.toList.flatMap (fun c => utf8_standard c.toNat)

/-- What `GetFamilyAndStyle(&out, NULL)` followed by `BString(out)` yields for
a font: the bytes of its family name. -/
def family_of (font : BFont) : List Byte := utf8_bytes font.family

/-- The conversion `static_cast<int>(x)` of a size: the fraction is dropped
(truncation toward zero). -/
def static_cast_int (x : ℚ) : Int := Int.tdiv x.num x.den

/-- The set `colorTable` after the collecting loop. -/
def collect_colors (big_endian : Bool) (runs : List text_run) : List rgb_color :=
  runs.foldl (fun table run => set_insert (color_compare big_endian) run.color table) []

/-- The set `fontTable` after the collecting loop. -/
def collect_fonts (runs : List text_run) : List (List Byte) :=
  runs.foldl (fun table run => set_insert BString_less (family_of run.font) table) []

/-- The loop that writes the font table: one entry `{\f<count> <family>;}` for
each element of the set, `count` going up from its start value. -/
def font_table_loop : Nat → List (List Byte) → List Byte
  | _, [] => []
  | count, family :: rest =>
    cstr "\x7b\\f" ++ snprintf_d count ++ cstr " " ++ family ++ cstr ";\x7d"
      ++ font_table_loop (count + 1) rest

/-- The loop that writes the colour table: one entry
`\red<r>\green<g>\blue<b>;` for each element of the set. -/
def color_table_loop : List rgb_color → List Byte
  | [] => []
  | c :: rest =>
    cstr "\\red" ++ snprintf_d c.red ++ cstr "\\green" ++ snprintf_d c.green
      ++ cstr "\\blue" ++ snprintf_d c.blue ++ cstr ";" ++ color_table_loop rest

/-- The length of the span of run `i`: `runs[i + 1].offset - runs[i].offset`
when `i < count - 1`, that is when there is a run `i + 1`, and
`plainText.Length() - runs[i].offset` for the last run. The embedding covers
run tables whose offsets do not decrease and lie within the text, for which
these `int` differences are not negative. -/
def span_length (plainText : List Byte) (runs : List text_run) (i : Nat) (run : text_run) :
    Nat :=
  match runs[i + 1]? with
  | some next => next.offset - run.offset
  | none => plainText.length - run.offset

/-- One iteration of the loop over the runs: what is appended to `rtfFile` for
run `i`. -/
def run_markup (big_endian : Bool) (plainText : List Byte) (runs : List text_run)
    (fontTable : List (List Byte)) (colorTable : List rgb_color) (i : Nat) (run : text_run) :
    List Byte :=
  let fontIndex := set_find BString_less (family_of run.font) fontTable
  let colorIndex := set_find (color_compare big_endian) run.color colorTable
  let fontFace := run.font.face
  let segment := CopyInto plainText run.offset (span_length plainText runs i run)
  let segment1 := CharacterEscape (cstr "\\\x7b\x7d") 92 segment
  let segment2 := ReplaceAll (cstr "\n") (cstr "\\line") segment1
  cstr "\\pard\\plain\\f" ++ snprintf_d fontIndex ++ cstr "\\cf" ++ snprintf_d colorIndex
    ++ (if fontFace &&& B_ITALIC_FACE ≠ 0 then cstr "\\i" else [])
    ++ (if fontFace &&& B_UNDERSCORE_FACE ≠ 0 then cstr "\\ul" else [])
    ++ (if fontFace &&& B_BOLD_FACE ≠ 0 then cstr "\\b" else [])
    ++ (if fontFace &&& B_STRIKEOUT_FACE ≠ 0 then cstr "\\strike" else [])
    ++ cstr "\\fs" ++ snprintf_d (static_cast_int (run.font.size * 2))
    ++ cstr " " ++ segment2

/-- The loop `for (int i = 0; i < styles->count; i++)` over the runs, from
index `i` on, `fuel` iterations at most. -/
def runs_loop (big_endian : Bool) (plainText : List Byte) (runs : List text_run)
    (fontTable : List (List Byte)) (colorTable : List rgb_color) : Nat → Nat → List Byte
  | 0, _ => []
  | fuel + 1, i =>
    match runs[i]? with
    | none => []
    | some run =>
      run_markup big_endian plainText runs fontTable colorTable i run
        ++ runs_loop big_endian plainText runs fontTable colorTable fuel (i + 1)

/-- The text `rtfFile` that `convert_styled_text_to_rtf` builds from the plain
text and the run array (`none` when the stream has no style section). -/
def rtfFile (big_endian : Bool) (plainText : List Byte) (styles : Option (List text_run)) :
    List Byte :=
  match styles with
  | some runs =>
    let colorTable := collect_colors big_endian runs
    let fontTable := collect_fonts runs
    cstr "\x7b\\rtf1\\ansi" ++ cstr "\x7b\\fonttbl" ++ font_table_loop 0 fontTable
      ++ cstr "\x7d\x7b\\colortbl" ++ color_table_loop colorTable ++ cstr "\x7d"
      ++ runs_loop big_endian plainText runs fontTable colorTable runs.length 0
      ++ cstr "\x7d"
  | none =>
    cstr "\x7b\\rtf1\\ansi" ++ cstr "\x7b\\fonttbl\\f0 Noto Sans;\x7d\\f0\\pard " ++ plainText
      ++ cstr "\x7d"

/-- The markup text for what the reading part returned. Where
`UnflattenRunArray` returned `NULL` the source dereferences it; the embedding
does not cover that case and gives no markup for it. -/
def rtf_markup (big_endian : Bool) (styled : StyledText) : List Byte :=
  match styled.styles with
  | none => rtfFile big_endian styled.plainText none
  | some (some runs) => rtfFile big_endian styled.plainText (some runs)
  | some none => []

/-- What the escaping of a span makes of one byte: a backslash before a
backslash and before a brace, the token `\\line` for a newline, the byte itself
otherwise. -/
def escaped_byte (b : Byte) : List Byte :=
  if b = 92 ∨ b = 123 ∨ b = 125 then [92, b]
  else if b = 10 then cstr "\\line"
  else [b]

/-- The text `A`, newline, `B`. -/
def text_A_newline_B : List Byte := [65, 10, 66]

/-- A run table of one baseline run: offset 0, the default font with the
regular face, black. -/
def baseline_runs : List text_run := [⟨0, ⟨"Noto Sans", B_REGULAR_FACE, 12⟩, kBlack⟩]

/-- A text header that announces 5 bytes of text. -/
def text_header_of_5 : List Byte := text_header_bytes 5

/-- Twenty zero bytes: a chunk of the size of a style header whose magic is not
`'STYL'` and whose header size is not the size of the struct. -/
def zero_style_header : List Byte := List.replicate 20 0

/-- The segments the run loop of `convert_styled_text_to_rtf` copies out of the
plain text with `CopyInto`, one per run, before they are escaped. -/
def emitted_spans (plainText : List Byte) (runs : List text_run) : List (List Byte) :=
  runs.enum.map (fun p => CopyInto plainText p.2.offset (span_length plainText runs p.1 p.2))

/-- The end of the span of run `i` as the specification words it: the offset of
the next run, or the length of the text for the last run. -/
def next_offset (plainText : List Byte) (runs : List text_run) (i : Nat) : Nat :=
  match runs[i + 1]? with
  | some next => next.offset
  | none => plainText.length

/-- The escaping the specification words for a text without style section:
every backslash, `\x7b` and `\x7d` is preceded by a backslash and nothing else
is altered. -/
def backslash_escaped (text : List Byte) : List Byte :=
  text.flatMap (fun b => if b = 92 ∨ b = 123 ∨ b = 125 then [92, b] else [b])

/-- A styled-text stream without style section whose text is the single byte
`\x7b`. -/
def brace_stream : List Byte := stream_header_bytes ++ text_header_bytes 1 ++ [123]

/-- A styled-text stream without style section whose text is `Hi`. -/
def hi_stream : List Byte := stream_header_bytes ++ text_header_bytes 2 ++ [72, 105]

/-- A styled-text stream with the text `Hi` whose style header declares a run
array of 100 bytes, of which only 3 are in the stream. -/
def short_runs_stream : List Byte :=
  stream_header_bytes ++ text_header_bytes 2 ++ [72, 105]
    ++ (style_header_bytes 100 2 ++ [1, 2, 3])

/-- The text `XY`. -/
def text_XY : List Byte := [88, 89]

/-- A run table of one bold run that starts at offset 1. -/
def bold_from_1 : List text_run := [⟨1, ⟨"Noto Sans", B_BOLD_FACE, 12⟩, kBlack⟩]

/-- The document `\x7bX\b Y\x7d`: one character, then bold is switched on, then
another character. -/
def text_then_bold : Element :=
  .group .TEXT_DESTINATION [.text [88], .command ⟨"b", false, -1⟩, .text [89]]

/-- The face commands of one run as the specification words them: italic,
underline, bold, strikeout, in this order, each only when its flag is in the
face. -/
def face_commands (face : Nat) : List Byte :=
  (if face &&& B_ITALIC_FACE ≠ 0 then cstr "\\i" else [])
    ++ (if face &&& B_UNDERSCORE_FACE ≠ 0 then cstr "\\ul" else [])
    ++ (if face &&& B_BOLD_FACE ≠ 0 then cstr "\\b" else [])
    ++ (if face &&& B_STRIKEOUT_FACE ≠ 0 then cstr "\\strike" else [])

/-- The markup of one run as the specification words it: the style reset, the
font index, the colour index, the face commands, the size command with the
size times 2 as an integer, then a space and the escaped span. -/
def run_entry (fontIndex colorIndex : Nat) (font : BFont) (span : List Byte) : List Byte :=
  cstr "\\pard\\plain" ++ (cstr "\\f" ++ snprintf_d fontIndex)
    ++ (cstr "\\cf" ++ snprintf_d colorIndex) ++ face_commands font.face
    ++ (cstr "\\fs" ++ snprintf_d (static_cast_int (font.size * 2)))
    ++ (cstr " " ++ span.flatMap escaped_byte)

/-- The components of a colour are bytes (`uint8` in `rgb_color`). -/
def rgb_color.is_bytes (c : rgb_color) : Prop :=
  c.red < 256 ∧ c.green < 256 ∧ c.blue < 256 ∧ c.alpha < 256

/-- A run table of three runs in two families and two colours, neither in
ascending order. -/
def sample_runs : List text_run :=
  [⟨0, ⟨"Noto Sans", B_REGULAR_FACE, 12⟩, ⟨255, 0, 0, 255⟩⟩,
    ⟨1, ⟨"Arial", B_BOLD_FACE, 10⟩, kBlack⟩,
    ⟨2, ⟨"Noto Sans", B_REGULAR_FACE, 12⟩, kBlack⟩]

/-! ## Properties -/

/-! ### Writing to a sink that accepts everything -/

theorem write_checked_reliable (data text : List Byte) :
    write_checked ⟨data, []⟩ text = .ok ⟨data ++ text, []⟩ := by
  simp [write_checked, Sink.Write, B_OK]

theorem write_indent_reliable (n : Nat) (data : List Byte) :
    write_indent n ⟨data, []⟩ = .ok ⟨data ++ List.replicate n 32, []⟩ := by
  induction n generalizing data with
  | zero => simp [write_indent]
  | succ n ih =>
    simp only [write_indent, write_checked_reliable, ih]
    simp [List.replicate_succ]

theorem write_text_reliable (context : conversion_context) (text data : List Byte) :
    write_text context text (some ⟨data, []⟩)
      = .ok (pending_indent context + text.length, { context with new_line := false },
          some ⟨data ++ (List.replicate (pending_indent context) 32 ++ text), []⟩) := by
  unfold write_text pending_indent
  cases h : context.new_line <;>
    simp [write_indent_reliable, write_checked_reliable, write_indent, ← h]

theorem write_text_counting (context : conversion_context) (text : List Byte) :
    write_text context text none
      = .ok (pending_indent context + text.length, { context with new_line := false },
          none) := by
  unfold write_text pending_indent
  cases h : context.new_line <;> simp [← h]

theorem next_line_reliable (context : conversion_context) (pfx data : List Byte) :
    next_line context pfx (some ⟨data, []⟩)
      = .ok (pfx.length, { context with new_line := true }, some ⟨data ++ pfx, []⟩) := by
  simp [next_line, write_checked_reliable]

/-! ### The Unicode escape -/

theorem or_c0 (x : Nat) (hx : x < 32) : (0xc0 ||| x) % 256 = 0xc0 + x := by
  interval_cases x <;> rfl

theorem or_e0 (x : Nat) (hx : x < 16) : (0xe0 ||| x) % 256 = 0xe0 + x := by
  interval_cases x <;> rfl

theorem or_f0 (x : Nat) (hx : x < 8) : (0xf0 ||| x) % 256 = 0xf0 + x := by
  interval_cases x <;> rfl

theorem or_80 (x : Nat) (hx : x < 64) : (0x80 ||| x) % 256 = 0x80 + x := by
  interval_cases x <;> rfl

theorem and_3f (x : Nat) : x &&& 0x3f = x % 64 := Nat.and_pow_two_sub_one_eq_mod x 6

/-- The bytes `write_unicode_char` assembles with shifts and masks are the
standard UTF-8 encoding, for every code point up to 0x10FFFF. -/
theorem unicode_bytes_eq (garbage : Byte) (c : Nat) (hc : c ≤ 0x10ffff) :
    unicode_bytes garbage c = utf8_standard c := by
  unfold unicode_bytes utf8_standard
  simp only [and_3f, Nat.shiftRight_eq_div_pow]
  split_ifs with h1 h2 h3
  · simp; omega
  · rw [or_c0 _ (by omega), or_80 _ (by omega)]
  · rw [or_e0 _ (by omega), or_80 _ (by omega), or_80 _ (by omega)]
  · rw [or_f0 _ (by omega), or_80 _ (by omega), or_80 _ (by omega), or_80 _ (by omega)]

theorem utf8_standard_length (c : Nat) :
    (utf8_standard c).length
      = if c < 0x80 then 1 else if c < 0x800 then 2 else if c < 0x10000 then 3 else 4 := by
  unfold utf8_standard
  split_ifs <;> rfl

theorem to_uint32_natCast (c : Nat) (hc : c ≤ 0x10ffff) : to_uint32 (c : Int) = c := by
  unfold to_uint32
  omega

theorem uint8_and_toNat (a b : UInt8) : (a &&& b).toNat = a.toNat &&& b.toNat := by
  show (a.toBitVec &&& b.toBitVec).toNat = _
  simp [UInt8.toNat]

theorem uint8_or_toNat (a b : UInt8) : (a ||| b).toNat = a.toNat ||| b.toNat := by
  show (a.toBitVec ||| b.toBitVec).toNat = _
  simp [UInt8.toNat]

theorem uint32_toUInt8_toNat (a : UInt32) : a.toUInt8.toNat = a.toNat % 256 := by
  show (BitVec.ofNat 8 a.toNat).toNat = _
  simp

theorem uint32_shr6 (a : UInt32) : (a >>> 6).toNat = a.toNat >>> 6 := by
  show (a.toBitVec >>> (UInt32.mod 6 32).toBitVec).toNat = _
  have : (UInt32.mod 6 32).toBitVec.toNat = 6 := by decide
  simp [UInt32.toNat, this]

theorem uint32_shr12 (a : UInt32) : (a >>> 12).toNat = a.toNat >>> 12 := by
  show (a.toBitVec >>> (UInt32.mod 12 32).toBitVec).toNat = _
  have : (UInt32.mod 12 32).toBitVec.toNat = 12 := by decide
  simp [UInt32.toNat, this]

theorem uint32_shr18 (a : UInt32) : (a >>> 18).toNat = a.toNat >>> 18 := by
  show (a.toBitVec >>> (UInt32.mod 18 32).toBitVec).toNat = _
  have : (UInt32.mod 18 32).toBitVec.toNat = 18 := by decide
  simp [UInt32.toNat, this]

theorem and_or_mask (x m lead : Nat) (hm : m = 63 ∨ m = 31 ∨ m = 15 ∨ m = 7)
    (hlead : lead = 256 - 2 * (m + 1) ∨ (m = 63 ∧ lead = 128)) :
    ((x % 256) &&& m) ||| lead = lead + x % (m + 1) := by
  have h1 : (x % 256) &&& m = x % (m + 1) := by
    rcases hm with h | h | h | h <;> subst h
    · rw [show (63 : Nat) = 2 ^ 6 - 1 from rfl, Nat.and_pow_two_sub_one_eq_mod]; omega
    · rw [show (31 : Nat) = 2 ^ 5 - 1 from rfl, Nat.and_pow_two_sub_one_eq_mod]; omega
    · rw [show (15 : Nat) = 2 ^ 4 - 1 from rfl, Nat.and_pow_two_sub_one_eq_mod]; omega
    · rw [show (7 : Nat) = 2 ^ 3 - 1 from rfl, Nat.and_pow_two_sub_one_eq_mod]; omega
  rw [h1]
  have hx : x % (m + 1) < m + 1 := Nat.mod_lt _ (by omega)
  generalize x % (m + 1) = y at hx
  rcases hm with h | h | h | h <;> subst h
  · rcases hlead with h | ⟨_, h⟩ <;> subst h <;> interval_cases y <;> rfl
  · rcases hlead with h | ⟨h', _⟩
    · subst h; interval_cases y <;> rfl
    · omega
  · rcases hlead with h | ⟨h', _⟩
    · subst h; interval_cases y <;> rfl
    · omega
  · rcases hlead with h | ⟨h', _⟩
    · subst h; interval_cases y <;> rfl
    · omega

/-- The reference encoding `utf8_standard` agrees with the UTF-8 encoder of the
Lean core library on every Unicode scalar value. -/
theorem utf8_standard_eq_core (ch : Char) :
    (String.utf8EncodeChar ch).map UInt8.toNat = utf8_standard ch.toNat := by
  have hv : ch.val.toNat < 0x110000 := by
    rcases ch.valid with h | ⟨_, h⟩
    · exact lt_trans h (by decide)
    · exact h
  unfold String.utf8EncodeChar utf8_standard
  simp only [Char.toNat]
  have c1 : (ch.val ≤ 127) ↔ ch.val.toNat < 128 := by
    rw [UInt32.le_def]; show ch.val.toNat ≤ 127 ↔ _; omega
  have c2 : (ch.val ≤ 2047) ↔ ch.val.toNat < 2048 := by
    rw [UInt32.le_def]; show ch.val.toNat ≤ 2047 ↔ _; omega
  have c3 : (ch.val ≤ 65535) ↔ ch.val.toNat < 65536 := by
    rw [UInt32.le_def]; show ch.val.toNat ≤ 65535 ↔ _; omega
  simp only [c1, c2, c3]
  generalize ch.val = v at hv
  have k8 : (128 : UInt8).toNat = 128 := rfl
  have k192 : (192 : UInt8).toNat = 192 := rfl
  have k224 : (224 : UInt8).toNat = 224 := rfl
  have k240 : (240 : UInt8).toNat = 240 := rfl
  have k63 : (63 : UInt8).toNat = 63 := rfl
  have k31 : (31 : UInt8).toNat = 31 := rfl
  have k15 : (15 : UInt8).toNat = 15 := rfl
  have k7 : (7 : UInt8).toNat = 7 := rfl
  split_ifs with h1 h2 h3
  · simp only [List.map, uint32_toUInt8_toNat]
    congr 1; omega
  · simp only [List.map, uint8_or_toNat, uint8_and_toNat, uint32_toUInt8_toNat, uint32_shr6,
      k8, k192, k63, k31, Nat.shiftRight_eq_div_pow]
    rw [and_or_mask _ 31 192 (by simp) (by simp), and_or_mask _ 63 128 (by simp) (by simp)]
    congr 2
    · omega
  · simp only [List.map, uint8_or_toNat, uint8_and_toNat, uint32_toUInt8_toNat, uint32_shr6,
      uint32_shr12, k8, k224, k63, k15, Nat.shiftRight_eq_div_pow]
    rw [and_or_mask _ 15 224 (by simp) (by simp), and_or_mask _ 63 128 (by simp) (by simp),
      and_or_mask _ 63 128 (by simp) (by simp)]
    congr 2
    · omega
  · simp only [List.map, uint8_or_toNat, uint8_and_toNat, uint32_toUInt8_toNat, uint32_shr6,
      uint32_shr12, uint32_shr18, k8, k240, k63, k7, Nat.shiftRight_eq_div_pow]
    rw [and_or_mask _ 7 240 (by simp) (by simp), and_or_mask _ 63 128 (by simp) (by simp),
      and_or_mask _ 63 128 (by simp) (by simp), and_or_mask _ 63 128 (by simp) (by simp)]
    congr 2
    · omega

/-- C9. For every code point `c ≤ 0x10FFFF` the Unicode-escape command with
argument `c`, writing to a sink that accepts every write, emits the pending
line-start indent (spaces) followed by exactly the standard UTF-8 encoding of
`c`, which has 1, 2, 3 or 4 bytes according to `c < 0x80`, `c < 0x800`,
`c < 0x10000` or above; for `c = 0xE9` these are the bytes `0xC3 0xA9`; and
when `c` is a Unicode scalar value (a `Char`) the bytes are those of the
UTF-8 encoder of the Lean core library. -/
theorem unicode_escape_emits_utf8 (garbage : Byte) (context : conversion_context)
    (hasOption : Bool) (c : Nat) (data : List Byte) (hc : c ≤ 0x10ffff) :
    process_command garbage context ⟨"\x27", hasOption, (c : Int)⟩ (some ⟨data, []⟩)
        = .ok (pending_indent context + (utf8_standard c).length,
            { context with new_line := false },
            some ⟨data ++ (List.replicate (pending_indent context) 32 ++ utf8_standard c), []⟩)
      ∧ (utf8_standard c).length
        = (if c < 0x80 then 1 else if c < 0x800 then 2 else if c < 0x10000 then 3 else 4)
      ∧ utf8_standard 0xe9 = [0xc3, 0xa9]
      ∧ ∀ ch : Char, ch.toNat = c →
          utf8_standard c = (String.utf8EncodeChar ch).map UInt8.toNat := by
  refine ⟨?_, utf8_standard_length c, by decide, ?_⟩
  · have h : process_command garbage context ⟨"\x27", hasOption, (c : Int)⟩ (some ⟨data, []⟩)
        = write_text context (unicode_bytes garbage (to_uint32 (c : Int)))
            (some ⟨data, []⟩) := by
      simp +decide [process_command, write_unicode_char]
    rw [h, to_uint32_natCast c hc, unicode_bytes_eq garbage c hc, write_text_reliable]
  · intro ch hch
    rw [← hch, utf8_standard_eq_core]

/-- Witness of C9 at the code point 0xE9 on the fresh context: no indent is
pending (the indent is 0) and the two bytes 0xC3 0xA9 reach the sink. -/
theorem unicode_escape_emits_utf8_witness :
    process_command 0 conversion_context.Reset ⟨"\x27", true, 233⟩ (some ⟨[], []⟩)
      = .ok (2, { conversion_context.Reset with new_line := false },
          some ⟨[195, 169], []⟩) := by
  have h := (unicode_escape_emits_utf8 0 conversion_context.Reset true 233 [] (by decide)).1
  simpa [pending_indent, conversion_context.Reset, utf8_standard] using h

/-! ### The indent-set command -/

theorem process_command_unrecognized (garbage : Byte) (context : conversion_context)
    (command : Command) (target : Option Sink) (h : command.Name ∉ layout_commands) :
    process_command garbage context command target = .ok (0, context, target) := by
  simp only [layout_commands, List.mem_cons, List.mem_singleton, List.not_mem_nil, or_false,
    not_or] at h
  obtain ⟨h1, h2, h3, h4, h5, h6, h7, h8, h9, h10, h11, h12, h13⟩ := h
  simp [process_command, h1, h2, h3, h4, h5, h6, h7, h8, h9, h10, h11, h12, h13]

/-- C8. A command whose name is neither a layout command nor a style command
is a no-op in both `processRuns` configurations: `process_command` returns 0
bytes and leaves the context and the target as they were, and
`TextOutput::Command` returns without a throw in exactly the state it was
called in (offset, context, target, run table, active run and group stack). -/
theorem unknown_command_is_noop (env : Env) (s : TextOutput) (command : Command)
    (h : command.Name ∉ layout_commands ++ style_commands) :
    process_command env.garbage s.fContext command s.fTarget
        = .ok (0, s.fContext, s.fTarget)
      ∧ TextOutput.Command env s command = .ok s := by
  rw [List.mem_append, not_or] at h
  have hp := process_command_unrecognized env.garbage s.fContext command s.fTarget h.1
  refine ⟨hp, ?_⟩
  have hs := h.2
  simp only [style_commands, List.mem_cons, List.mem_singleton, List.not_mem_nil, or_false,
    not_or] at hs
  obtain ⟨h1, h2, h3, h4, h5, h6, h7, h8, h9, h10⟩ := hs
  simp [TextOutput.Command, TextOutput.forward, hp, h1, h2, h3, h4, h5, h6, h7, h8, h9, h10]

/-- Witness of C8: the command `ansi` is not recognized and leaves a converter
that tracks runs and writes to a sink unchanged. -/
theorem unknown_command_is_noop_witness :
    TextOutput.Command ⟨fun _ => kBlack, none, ⟨"", 64, 12⟩, ⟨"", 64, 12⟩, ⟨"", 64, 12⟩, 0⟩
        (TextOutput.new (some Sink.reliable) true) ⟨"ansi", false, 0⟩
      = .ok (TextOutput.new (some Sink.reliable) true) :=
  (unknown_command_is_noop _ _ ⟨"ansi", false, 0⟩ (by decide)).2

/-! ### The run-table invariant -/


theorem offsets_eq_nil (s : TextOutput) : s.offsets = [] ↔ s.fRuns = [] := by
  simp [TextOutput.offsets]

theorem offsets_length (s : TextOutput) : s.offsets.length = s.fRuns.length := by
  simp [TextOutput.offsets]

theorem Ordered.current_eq (s : TextOutput) (h : s.Ordered) : s.current = s.fRuns.getLast? := by
  obtain ⟨_, _, h3⟩ := h
  unfold TextOutput.current
  rw [h3]
  by_cases he : s.fRuns = []
  · simp [TextOutput.offsets, he]
  · have : ¬ s.offsets = [] := by rwa [offsets_eq_nil]
    simp only [this, if_false, offsets_length]
    exact (List.getLast?_eq_getElem? _).symm

theorem Ordered.congr (s t : TextOutput) (h : s.Ordered) (ho : t.offsets = s.offsets)
    (hle : s.fOffset ≤ t.fOffset) (hc : t.fCurrentRun = s.fCurrentRun) : t.Ordered := by
  obtain ⟨h1, h2, h3⟩ := h
  refine ⟨by rw [ho]; exact h1, ?_, by rw [ho, hc]; exact h3⟩
  intro o hmem
  rw [ho] at hmem
  exact le_trans (h2 o hmem) hle

theorem assign_cases (s : TextOutput) (f : text_run → text_run) :
    s.assign f = s ∨ ∃ i r, s.fRuns[i]? = some r ∧ s.fCurrentRun = some i
      ∧ s.assign f = { s with fRuns := s.fRuns.set i (f r) } := by
  cases hc : s.fCurrentRun with
  | none => left; simp only [TextOutput.assign, hc]
  | some i =>
    cases hr : s.fRuns[i]? with
    | none => left; simp only [TextOutput.assign, hc, hr]
    | some r => right; exact ⟨i, r, hr, rfl, by simp only [TextOutput.assign, hc, hr]⟩

theorem set_offsets (l : List text_run) (i : Nat) (r x : text_run) (hr : l[i]? = some r)
    (hx : x.offset = r.offset) : (l.set i x).map text_run.offset = l.map text_run.offset := by
  apply List.ext_getElem?
  intro j
  rw [List.map_set, List.getElem?_set]
  by_cases hij : i = j
  · subst hij
    have : i < l.length := by
      by_contra hlt
      rw [List.getElem?_eq_none (by omega)] at hr
      cases hr
    obtain ⟨_, hget⟩ := List.getElem?_eq_some.1 hr
    simp [this, hx, hget]
  · simp [hij]

theorem assign_offsets (s : TextOutput) (f : text_run → text_run)
    (hf : ∀ r, (f r).offset = r.offset) : (s.assign f).offsets = s.offsets := by
  rcases assign_cases s f with h | ⟨i, r, hr, _, h⟩
  · rw [h]
  · rw [h]
    exact set_offsets s.fRuns i r (f r) hr (hf r)

theorem assign_frame (s : TextOutput) (f : text_run → text_run) :
    (s.assign f).fOffset = s.fOffset ∧ (s.assign f).fContext = s.fContext
      ∧ (s.assign f).fTarget = s.fTarget ∧ (s.assign f).fCurrentRun = s.fCurrentRun
      ∧ (s.assign f).fGroupStack = s.fGroupStack ∧ (s.assign f).fProcessRuns = s.fProcessRuns
      ∧ (s.assign f).fRuns.length = s.fRuns.length := by
  rcases assign_cases s f with h | ⟨i, r, _, hc, h⟩
  · rw [h]; simp
  · rw [h]; simp

theorem Ordered.assign (s : TextOutput) (f : text_run → text_run)
    (hf : ∀ r, (f r).offset = r.offset) (h : s.Ordered) : (s.assign f).Ordered :=
  Ordered.congr s _ h (assign_offsets s f hf) (le_of_eq (assign_frame s f).1.symm)
    (assign_frame s f).2.2.2.1

theorem Ordered.below (s : TextOutput) (h : s.Ordered)
    (hne : ∀ r, s.current = some r → r.offset ≠ s.fOffset) : ∀ o ∈ s.offsets, o < s.fOffset := by
  have hcur := Ordered.current_eq s h
  obtain ⟨h1, h2, _⟩ := h
  rcases List.eq_nil_or_concat s.fRuns with he | ⟨L, b, he⟩
  · intro o ho
    simp [TextOutput.offsets, he] at ho
  · rw [List.concat_eq_append] at he
    have hb : s.current = some b := by rw [hcur, he]; simp
    have hbne := hne b hb
    have hoff : s.offsets = L.map text_run.offset ++ [b.offset] := by
      simp [TextOutput.offsets, he]
    rw [hoff] at h1 h2 ⊢
    have hble : b.offset ≤ s.fOffset := h2 _ (by simp)
    have hblt : b.offset < s.fOffset := lt_of_le_of_ne hble hbne
    rw [List.pairwise_append] at h1
    intro o ho
    rw [List.mem_append] at ho
    rcases ho with ho | ho
    · exact lt_trans (h1.2.2 o ho b.offset (by simp)) hblt
    · simp at ho
      rw [ho]; exact hblt

theorem Ordered.push (s : TextOutput) (r : text_run) (h : s.Ordered)
    (hlt : ∀ o ∈ s.offsets, o < s.fOffset) (hr : r.offset = s.fOffset) :
    TextOutput.Ordered { s with fRuns := s.fRuns ++ [r], fCurrentRun := some s.fRuns.length } := by
  obtain ⟨h1, h2, _⟩ := h
  have hoff : TextOutput.offsets
      { s with fRuns := s.fRuns ++ [r], fCurrentRun := some s.fRuns.length }
        = s.offsets ++ [s.fOffset] := by
    simp [TextOutput.offsets, hr]
  refine ⟨?_, ?_, ?_⟩
  · rw [hoff, List.pairwise_append]
    refine ⟨h1, by simp, ?_⟩
    intro a ha b hb
    simp at hb
    rw [hb]; exact hlt a ha
  · rw [hoff]
    intro o ho
    rw [List.mem_append] at ho
    rcases ho with ho | ho
    · exact h2 o ho
    · simp at ho
      simp [ho]
  · rw [hoff]
    simp [offsets_length]

theorem Ordered.current_none (s : TextOutput) (h : s.Ordered) (hc : s.current = none) :
    s.fRuns = [] := by
  rw [Ordered.current_eq s h] at hc
  simpa using hc

theorem Ordered.prepare (env : Env) (s : TextOutput) (h : s.Ordered) :
    (s.PrepareTextRun env s.current).Ordered := by
  unfold TextOutput.PrepareTextRun
  cases hc : s.current with
  | none =>
    apply Ordered.push s _ h _ rfl
    intro o ho
    have := Ordered.current_none s h hc
    simp [TextOutput.offsets, this] at ho
  | some r =>
    by_cases heq : s.fOffset = r.offset
    · simp [heq, h]
    · simp only [heq, if_false]
      apply Ordered.push s _ h _ rfl
      apply Ordered.below s h
      intro r' hr'
      rw [hc] at hr'
      cases hr'
      exact fun e => heq e.symm

/-! ### The walker as a sequence of callbacks -/


theorem run_append (env : Env) (s : TextOutput) (xs ys : List Visit) :
    TextOutput.run env s (xs ++ ys)
      = match TextOutput.run env s xs with
        | .error e => .error e
        | .ok s1 => TextOutput.run env s1 ys := by
  induction xs generalizing s with
  | nil => simp [TextOutput.run]
  | cons x xs ih =>
    simp only [List.cons_append, TextOutput.run]
    cases TextOutput.visit env s x with
    | error e => rfl
    | ok s1 => exact ih s1

theorem Group_directive (env : Env) (s : TextOutput) (d : Destination) :
    (TextOutput.Group env s d).1
      = if d ≠ Destination.TEXT_DESTINATION then Directive.Skip else Directive.Descend := by
  unfold TextOutput.Group
  split_ifs <;> rfl

mutual
theorem Dispatch_eq_run (env : Env) : ∀ (e : Element) (s : TextOutput),
    Worker.Dispatch env e s = TextOutput.run env s (Worker.visits e)
  | .group d es, s => by
    have hd := Group_directive env s d
    rw [Worker.Dispatch, Worker.visits]
    by_cases h : d ≠ Destination.TEXT_DESTINATION
    · rw [if_pos h] at hd ⊢
      cases hg : TextOutput.Group env s d with
      | mk dir s1 =>
        rw [hg] at hd
        simp only at hd
        subst hd
        simp [TextOutput.run, TextOutput.visit, hg]
    · rw [if_neg h] at hd ⊢
      cases hg : TextOutput.Group env s d with
      | mk dir s1 =>
        rw [hg] at hd
        simp only at hd
        subst hd
        simp only [TextOutput.run, TextOutput.visit, hg, run_append,
          DispatchAll_eq_run env es s1]
  | .command c, s => by
    rw [Worker.Dispatch, Worker.visits]
    simp only [TextOutput.run, TextOutput.visit]
    cases TextOutput.Command env s c <;> rfl
  | .text t, s => by
    rw [Worker.Dispatch, Worker.visits]
    simp only [TextOutput.run, TextOutput.visit]
    cases TextOutput.Text s t <;> rfl
theorem DispatchAll_eq_run (env : Env) : ∀ (es : List Element) (s : TextOutput),
    Worker.DispatchAll env es s = TextOutput.run env s (Worker.visitsAll es)
  | [], s => by simp [Worker.DispatchAll, Worker.visitsAll, TextOutput.run]
  | e :: es, s => by
    rw [Worker.DispatchAll, Worker.visitsAll, run_append, Dispatch_eq_run env e s]
    cases TextOutput.run env s (Worker.visits e) with
    | error e => rfl
    | ok s1 => exact DispatchAll_eq_run env es s1
end

theorem Work_eq_run (env : Env) (s : TextOutput) (root : Element) :
    Worker.Work env s root = TextOutput.run env s (Worker.visits root) :=
  Dispatch_eq_run env root s

/-! ### Every callback keeps the run table ordered -/


theorem Command_counting (env : Env) (s : TextOutput) (command : Command)
    (hp : s.fProcessRuns = false) : TextOutput.Command env s command = s.forward env command := by
  simp [TextOutput.Command, hp]

theorem Command_forward (env : Env) (s : TextOutput) (command : Command)
    (hn : command.Name ∉ style_commands) :
    TextOutput.Command env s command = s.forward env command := by
  simp only [style_commands, List.mem_cons, List.mem_singleton, List.not_mem_nil, or_false,
    not_or] at hn
  obtain ⟨h1, h2, h3, h4, h5, h6, h7, h8, h9, h10⟩ := hn
  simp [TextOutput.Command, h1, h2, h3, h4, h5, h6, h7, h8, h9, h10]

theorem Command_style (env : Env) (s : TextOutput) (command : Command)
    (hp : s.fProcessRuns = true) (hn : command.Name ∈ style_commands) :
    (command.Name = "f" ∧ env.fonttbl = none ∧ TextOutput.Command env s command = .ok s)
      ∨ ∃ f : text_run → text_run, (∀ r, (f r).offset = r.offset)
          ∧ TextOutput.Command env s command
            = .ok ((s.PrepareTextRun env s.current).assign f) := by
  unfold TextOutput.Command
  rw [if_neg (by simp [hp])]
  simp only []
  split_ifs with h1 h2 h3 h4 h5 h6 h7 h8
  · right; refine ⟨_, ?_, rfl⟩; intro r; rfl
  · right; refine ⟨_, ?_, rfl⟩; intro r; rfl
  · right; refine ⟨_, ?_, rfl⟩; intro r; rfl
  · right; refine ⟨_, ?_, rfl⟩; intro r; rfl
  · right; refine ⟨_, ?_, rfl⟩; intro r; rfl
  · right; refine ⟨_, ?_, rfl⟩; intro r; rfl
  · right; refine ⟨_, ?_, rfl⟩; intro r; rfl
  · cases hf : env.fonttbl with
    | none => exact Or.inl ⟨h8, rfl, rfl⟩
    | some fonts => right; refine ⟨_, ?_, rfl⟩; intro r; rfl
  · exfalso
    simp only [style_commands, List.mem_cons, List.mem_singleton, List.not_mem_nil,
      or_false] at hn
    tauto

theorem forward_frame (env : Env) (s t : TextOutput) (command : Command)
    (h : s.forward env command = .ok t) :
    t.fRuns = s.fRuns ∧ t.fCurrentRun = s.fCurrentRun ∧ t.fGroupStack = s.fGroupStack
      ∧ t.fProcessRuns = s.fProcessRuns ∧ s.fOffset ≤ t.fOffset := by
  unfold TextOutput.forward at h
  cases hpc : process_command env.garbage s.fContext command s.fTarget with
  | error e => rw [hpc] at h; cases h
  | ok r =>
    rw [hpc] at h
    simp only [Except.ok.injEq] at h
    subst h
    simp

theorem Text_frame (s t : TextOutput) (text : List Byte) (h : s.Text text = .ok t) :
    t.fRuns = s.fRuns ∧ t.fCurrentRun = s.fCurrentRun ∧ t.fGroupStack = s.fGroupStack
      ∧ t.fProcessRuns = s.fProcessRuns ∧ s.fOffset ≤ t.fOffset := by
  unfold TextOutput.Text at h
  cases hpc : write_text s.fContext text s.fTarget with
  | error e => rw [hpc] at h; cases h
  | ok r =>
    rw [hpc] at h
    simp only [Except.ok.injEq] at h
    subst h
    simp

theorem Ordered.of_frame (s t : TextOutput) (h : s.Ordered) (hr : t.fRuns = s.fRuns)
    (hc : t.fCurrentRun = s.fCurrentRun) (hle : s.fOffset ≤ t.fOffset) : t.Ordered :=
  Ordered.congr s t h (by simp [TextOutput.offsets, hr]) hle hc

theorem Ordered.Command (env : Env) (s t : TextOutput) (command : Command) (h : s.Ordered)
    (hc : TextOutput.Command env s command = .ok t) : t.Ordered := by
  by_cases hn : command.Name ∈ style_commands
  · cases hp : s.fProcessRuns with
    | false =>
      rw [Command_counting env s command hp] at hc
      obtain ⟨h1, h2, _, _, h5⟩ := forward_frame env s t command hc
      exact Ordered.of_frame s t h h1 h2 h5
    | true =>
      rcases Command_style env s command hp hn with ⟨_, _, he⟩ | ⟨f, hf, he⟩
      · rw [he] at hc
        simp only [Except.ok.injEq] at hc
        rw [← hc]; exact h
      · rw [he] at hc
        simp only [Except.ok.injEq] at hc
        rw [← hc]
        exact Ordered.assign _ f hf (Ordered.prepare env s h)
  · rw [Command_forward env s command hn] at hc
    obtain ⟨h1, h2, _, _, h5⟩ := forward_frame env s t command hc
    exact Ordered.of_frame s t h h1 h2 h5

theorem Ordered.Group (env : Env) (s : TextOutput) (d : Destination) (h : s.Ordered) :
    (TextOutput.Group env s d).2.Ordered := by
  unfold TextOutput.Group
  split_ifs
  · exact h
  · exact h
  · exact Ordered.of_frame s _ h rfl rfl (le_refl _)

theorem Ordered.GroupEnd (s : TextOutput) (h : s.Ordered) : s.GroupEnd.Ordered := by
  unfold TextOutput.GroupEnd
  by_cases hp : s.fProcessRuns = false
  · rw [if_pos hp]; exact h
  · rw [if_neg hp]
    have h1 : TextOutput.Ordered { s with fGroupStack := s.fGroupStack.tail } :=
      Ordered.of_frame s _ h rfl rfl (le_refl _)
    generalize ({ s with fGroupStack := s.fGroupStack.tail } : TextOutput) = s1 at h1
    generalize s.fGroupStack.head?.join = last
    simp only []
    split_ifs with heq
    · cases hc : s1.current with
      | none =>
        cases last with
        | none => exact h1
        | some l =>
          simp only []
          apply Ordered.push s1 _ h1 _ rfl
          intro o ho
          have := Ordered.current_none s1 h1 hc
          simp [TextOutput.offsets, this] at ho
      | some cur =>
        cases last with
        | none => exact h1
        | some l =>
          simp only []
          split_ifs with ho
          · exact Ordered.assign s1 _ (fun _ => rfl) h1
          · apply Ordered.push s1 _ h1 _ rfl
            apply Ordered.below s1 h1
            intro r' hr'
            rw [hc] at hr'
            cases hr'
            exact ho
    · exact h1

theorem Ordered.visit (env : Env) (s t : TextOutput) (v : Visit) (h : s.Ordered)
    (hv : TextOutput.visit env s v = .ok t) : t.Ordered := by
  cases v with
  | GroupEnter d =>
    simp only [TextOutput.visit, Except.ok.injEq] at hv
    rw [← hv]; exact Ordered.Group env s d h
  | GroupExit =>
    simp only [TextOutput.visit, Except.ok.injEq] at hv
    rw [← hv]; exact Ordered.GroupEnd s h
  | Command c => exact Ordered.Command env s t c h hv
  | Text b =>
    obtain ⟨h1, h2, _, _, h5⟩ := Text_frame s t b hv
    exact Ordered.of_frame s t h h1 h2 h5

theorem Ordered.run (env : Env) (vs : List Visit) (s t : TextOutput) (h : s.Ordered)
    (hr : TextOutput.run env s vs = .ok t) : t.Ordered := by
  induction vs generalizing s with
  | nil =>
    simp only [TextOutput.run, Except.ok.injEq] at hr
    rw [← hr]; exact h
  | cons v vs ih =>
    simp only [TextOutput.run] at hr
    cases hv : TextOutput.visit env s v with
    | error e => rw [hv] at hr; cases hr
    | ok s1 =>
      rw [hv] at hr
      exact ih s1 (Ordered.visit env s s1 v h hv) hr

theorem Ordered.new (target : Option Sink) (processRuns : Bool) :
    (TextOutput.new target processRuns).Ordered := by
  simp [TextOutput.Ordered, TextOutput.new, TextOutput.offsets]

/-! ### The run-table claims -/

/-- C3. The forward pass with `processRuns = true` is the run of the walker's
callbacks, and after every step of it (after each prefix of the callback
sequence that did not throw) the offsets of the run table increase strictly
from each entry to every later one, and every offset is at most the current
text offset. -/
theorem run_table_offsets_increase (env : Env) (target : Option Sink) (root : Element)
    (n : Nat) (s : TextOutput)
    (h : TextOutput.run env (TextOutput.new target true) ((Worker.visits root).take n) = .ok s) :
    Worker.Work env (TextOutput.new target true) root
        = TextOutput.run env (TextOutput.new target true) (Worker.visits root)
      ∧ List.Pairwise (fun a b : text_run => a.offset < b.offset) s.fRuns
      ∧ ∀ r ∈ s.fRuns, r.offset ≤ s.fOffset := by
  have ho := Ordered.run env _ _ s (Ordered.new target true) h
  refine ⟨Work_eq_run env _ root, ?_, ?_⟩
  · have := ho.1
    rwa [TextOutput.offsets, List.pairwise_map] at this
  · intro r hr
    exact ho.2.1 r.offset (List.mem_map_of_mem _ hr)

/-- Witness of C3: after the fourth callback of the document `\b X \b Y` (group
enter, bold, text, bold) the run table holds the offsets 0 and 1. -/
theorem run_table_offsets_increase_witness :
    ∃ s, TextOutput.run sample_env (TextOutput.new (some Sink.reliable) true)
          ((Worker.visits bold_twice).take 4) = .ok s
      ∧ s.fRuns.map text_run.offset = [0, 1]
      ∧ List.Pairwise (fun a b : text_run => a.offset < b.offset) s.fRuns :=
  ⟨_, rfl, rfl,
    (run_table_offsets_increase sample_env (some Sink.reliable) bold_twice 4 _ rfl).2.1⟩

/-- C4, counterexample. The forward pass over `\b X \b Y` ends with a run
table of two entries, at offsets 0 and 1, that have the same colour and the
same font: the second bold command clones the active run at the new offset and
leaves its face as it was. -/
theorem repeated_style_run :
    ∃ s a b, Worker.Work sample_env (TextOutput.new (some Sink.reliable) true) bold_twice = .ok s
      ∧ s.fRuns = [a, b] ∧ a.color = b.color ∧ a.font = b.font
      ∧ ¬ no_redundant_run s.fRuns :=
  ⟨_, _, _, rfl, rfl, rfl, rfl, by
    intro h
    have h2 := List.chain'_cons.1 h
    exact h2.1 ⟨rfl, rfl⟩⟩

/-- C4, as amended. In the run table the forward pass produces, no two
adjacent runs are identical in all their fields (offset, colour, font):
adjacent runs always differ in their offset. -/
theorem adjacent_runs_differ (env : Env) (target : Option Sink) (root : Element)
    (s : TextOutput) (h : Worker.Work env (TextOutput.new target true) root = .ok s) :
    List.Chain' (fun a b : text_run => a.offset < b.offset ∧ a ≠ b) s.fRuns := by
  rw [Work_eq_run] at h
  have ho := (Ordered.run env _ _ s (Ordered.new target true) h).1
  rw [TextOutput.offsets, List.pairwise_map] at ho
  apply List.Pairwise.chain'
  apply ho.imp
  intro a b hab
  refine ⟨hab, ?_⟩
  intro he
  rw [he] at hab
  exact lt_irrefl _ hab

/-- Witness of C4 as amended, on the document `\b X \b Y`. -/
theorem adjacent_runs_differ_witness :
    ∃ s, Worker.Work sample_env (TextOutput.new (some Sink.reliable) true) bold_twice = .ok s
      ∧ List.Chain' (fun a b : text_run => a.offset < b.offset ∧ a ≠ b) s.fRuns :=
  ⟨_, rfl, adjacent_runs_differ sample_env (some Sink.reliable) bold_twice _ rfl⟩

/-! ### Style commands -/

theorem next_line_counting (context : conversion_context) (pfx : List Byte) :
    next_line context pfx none = .ok (pfx.length, { context with new_line := true }, none) := by
  simp [next_line]

/-- The three shapes of `process_command`: a line break through `next_line`,
a text emission through `write_text`, or a pure change of the context; which
one, and with what arguments, does not depend on the target. -/
theorem process_command_shape (garbage : Byte) (context : conversion_context)
    (command : Command) :
    (∃ context1 pfx, ∀ target,
        process_command garbage context command target = next_line context1 pfx target)
      ∨ (∃ text, ∀ target,
        process_command garbage context command target = write_text context text target)
      ∨ (∃ context1, ∀ target,
        process_command garbage context command target = .ok (0, context1, target)) := by
  unfold process_command
  simp only [write_unicode_char]
  by_cases h0 : command.Name = "par" ∨ command.Name = "line"
  · simp only [if_pos h0]
    exact Or.inl ⟨_, _, fun _ => rfl⟩
  simp only [if_neg h0]
  by_cases h1 : command.Name = "sect"
  · simp only [if_pos h1]
    exact Or.inl ⟨_, _, fun _ => rfl⟩
  simp only [if_neg h1]
  by_cases h2 : command.Name = "page"
  · simp only [if_pos h2]
    exact Or.inl ⟨_, _, fun _ => rfl⟩
  simp only [if_neg h2]
  by_cases h3 : command.Name = "tab"
  · simp only [if_pos h3]
    exact Or.inr (Or.inl ⟨_, fun _ => rfl⟩)
  simp only [if_neg h3]
  by_cases h4 : command.Name = "\x27"
  · simp only [if_pos h4]
    exact Or.inr (Or.inl ⟨_, fun _ => rfl⟩)
  simp only [if_neg h4]
  by_cases h5 : command.Name = "pard"
  · simp only [if_pos h5]
    exact Or.inr (Or.inr ⟨_, fun _ => rfl⟩)
  simp only [if_neg h5]
  by_cases h6 : command.Name = "fi" ∨ command.Name = "cufi"
  · simp only [if_pos h6]
    exact Or.inr (Or.inr ⟨_, fun _ => rfl⟩)
  simp only [if_neg h6]
  by_cases h7 : command.Name = "sectnum"
  · simp only [if_pos h7]
    exact Or.inr (Or.inl ⟨_, fun _ => rfl⟩)
  simp only [if_neg h7]
  by_cases h8 : command.Name = "pgnstarts"
  · simp only [if_pos h8]
    exact Or.inr (Or.inr ⟨_, fun _ => rfl⟩)
  simp only [if_neg h8]
  by_cases h9 : command.Name = "pgnrestart"
  · simp only [if_pos h9]
    exact Or.inr (Or.inr ⟨_, fun _ => rfl⟩)
  simp only [if_neg h9]
  by_cases h10 : command.Name = "chpgn"
  · simp only [if_pos h10]
    exact Or.inr (Or.inl ⟨_, fun _ => rfl⟩)
  simp only [if_neg h10]
  exact Or.inr (Or.inr ⟨_, fun _ => rfl⟩)

/-- On a target that accepts every write `process_command` returns the count
and the context of the counting mode, and the target takes exactly that many
bytes. -/
theorem process_command_parallel (garbage : Byte) (context : conversion_context)
    (command : Command) (data : List Byte) :
    ∃ (n : Nat) (context1 : conversion_context) (bytes : List Byte),
      process_command garbage context command none = .ok (n, context1, none)
        ∧ process_command garbage context command (some ⟨data, []⟩)
            = .ok (n, context1, some ⟨data ++ bytes, []⟩)
        ∧ bytes.length = n := by
  rcases process_command_shape garbage context command with
    ⟨c1, pfx, h⟩ | ⟨text, h⟩ | ⟨c1, h⟩
  · rw [h, h]
    exact ⟨_, _, _, next_line_counting _ _, next_line_reliable _ _ _, rfl⟩
  · rw [h, h]
    exact ⟨_, _, _, write_text_counting _ _, write_text_reliable _ _ _, by simp⟩
  · rw [h, h]
    exact ⟨0, _, [], rfl, by simp, rfl⟩

theorem style_not_layout (name : String) (h : name ∈ style_commands) :
    name ∉ layout_commands := by
  simp only [style_commands, List.mem_cons, List.mem_singleton, List.not_mem_nil,
    or_false] at h
  rcases h with h | h | h | h | h | h | h | h | h | h <;> subst h <;> decide

theorem forward_unrecognized (env : Env) (s : TextOutput) (command : Command)
    (h : command.Name ∉ layout_commands) : s.forward env command = .ok s := by
  simp [TextOutput.forward, process_command_unrecognized env.garbage s.fContext command
    s.fTarget h]

theorem prepare_frame (env : Env) (s : TextOutput) (run : Option text_run) :
    (s.PrepareTextRun env run).fOffset = s.fOffset
      ∧ (s.PrepareTextRun env run).fContext = s.fContext
      ∧ (s.PrepareTextRun env run).fTarget = s.fTarget
      ∧ (s.PrepareTextRun env run).fGroupStack = s.fGroupStack
      ∧ (s.PrepareTextRun env run).fProcessRuns = s.fProcessRuns := by
  unfold TextOutput.PrepareTextRun
  cases run with
  | none => simp
  | some r => by_cases h : s.fOffset = r.offset <;> simp [h]

theorem Group_frame (env : Env) (s : TextOutput) (d : Destination) :
    (TextOutput.Group env s d).2.fOffset = s.fOffset
      ∧ (TextOutput.Group env s d).2.fContext = s.fContext
      ∧ (TextOutput.Group env s d).2.fTarget = s.fTarget
      ∧ (TextOutput.Group env s d).2.fProcessRuns = s.fProcessRuns := by
  unfold TextOutput.Group
  split_ifs <;> simp

theorem GroupEnd_frame (s : TextOutput) :
    s.GroupEnd.fOffset = s.fOffset ∧ s.GroupEnd.fContext = s.fContext
      ∧ s.GroupEnd.fTarget = s.fTarget ∧ s.GroupEnd.fProcessRuns = s.fProcessRuns := by
  unfold TextOutput.GroupEnd
  by_cases hp : s.fProcessRuns = false
  · rw [if_pos hp]; simp
  · rw [if_neg hp]
    generalize s.fGroupStack.head?.join = last
    simp only []
    split_ifs with heq
    · cases hc : TextOutput.current { s with fGroupStack := s.fGroupStack.tail } with
      | none =>
        cases last with
        | none => simp
        | some l => simp
      | some cur =>
        cases last with
        | none => simp
        | some l =>
          simp only []
          split_ifs with ho
          · have := assign_frame { s with fGroupStack := s.fGroupStack.tail }
              (fun r => { r with color := l.color, font := l.font })
            simp only [this, and_self]
          · simp
    · simp

theorem Command_style_frame (env : Env) (s t : TextOutput) (command : Command)
    (hp : s.fProcessRuns = true) (hn : command.Name ∈ style_commands)
    (h : TextOutput.Command env s command = .ok t) :
    t.fOffset = s.fOffset ∧ t.fContext = s.fContext ∧ t.fTarget = s.fTarget
      ∧ t.fGroupStack = s.fGroupStack ∧ t.fProcessRuns = s.fProcessRuns := by
  rcases Command_style env s command hp hn with ⟨_, _, he⟩ | ⟨f, _, he⟩
  · rw [he] at h
    simp only [Except.ok.injEq] at h
    subst h
    simp
  · rw [he] at h
    simp only [Except.ok.injEq] at h
    subst h
    have h1 := assign_frame (s.PrepareTextRun env s.current) f
    have h2 := prepare_frame env s s.current
    simp only [h1, h2, and_self]

theorem Command_total_style (env : Env) (s : TextOutput) (command : Command)
    (hp : s.fProcessRuns = true) (hn : command.Name ∈ style_commands) :
    ∃ t, TextOutput.Command env s command = .ok t := by
  rcases Command_style env s command hp hn with ⟨_, _, he⟩ | ⟨f, _, he⟩
  · exact ⟨_, he⟩
  · exact ⟨_, he⟩

theorem in_step_visit (env : Env) (base : List Byte) (sc sf : TextOutput) (v : Visit)
    (h : in_step base sc sf) :
    ∃ sc1 sf1, TextOutput.visit env sc v = .ok sc1 ∧ TextOutput.visit env sf v = .ok sf1
      ∧ in_step base sc1 sf1 := by
  obtain ⟨h1, h2, h3, h4, h5, text, h6, h7⟩ := h
  cases v with
  | GroupEnter d =>
    refine ⟨_, _, rfl, rfl, ?_⟩
    obtain ⟨a1, a2, a3, a4⟩ := Group_frame env sc d
    obtain ⟨b1, b2, b3, b4⟩ := Group_frame env sf d
    exact ⟨by rw [a3, h1], by rw [a4, h2], by rw [b4, h3], by rw [a1, b1, h4],
      by rw [a2, b2, h5], text, by rw [b3, h6], by rw [b1, h7]⟩
  | GroupExit =>
    refine ⟨_, _, rfl, rfl, ?_⟩
    obtain ⟨a1, a2, a3, a4⟩ := GroupEnd_frame sc
    obtain ⟨b1, b2, b3, b4⟩ := GroupEnd_frame sf
    exact ⟨by rw [a3, h1], by rw [a4, h2], by rw [b4, h3], by rw [a1, b1, h4],
      by rw [a2, b2, h5], text, by rw [b3, h6], by rw [b1, h7]⟩
  | Command c =>
    simp only [TextOutput.visit]
    by_cases hn : c.Name ∈ style_commands
    · obtain ⟨t, ht⟩ := Command_total_style env sf c h3 hn
      obtain ⟨b1, b2, b3, _, b5⟩ := Command_style_frame env sf t c h3 hn ht
      refine ⟨sc, t, ?_, ht, ?_⟩
      · rw [Command_counting env sc c h2]
        exact forward_unrecognized env sc c (style_not_layout _ hn)
      · exact ⟨h1, h2, by rw [b5, h3], by rw [b1, h4], by rw [b2, h5], text,
          by rw [b3, h6], by rw [b1, h7]⟩
    · rw [Command_counting env sc c h2, Command_forward env sf c hn]
      obtain ⟨n, context1, bytes, p1, p2, p3⟩ :=
        process_command_parallel env.garbage sf.fContext c (base ++ text)
      have e1 : sc.forward env c
          = .ok { sc with fOffset := sc.fOffset + n, fContext := context1, fTarget := none } := by
        simp only [TextOutput.forward, h1, h5, p1]
      have e2 : sf.forward env c
          = .ok { sf with fOffset := sf.fOffset + n, fContext := context1,
                          fTarget := some ⟨base ++ text ++ bytes, []⟩ } := by
        simp only [TextOutput.forward, h6, p2]
      exact ⟨_, _, e1, e2, rfl, h2, h3, by simp [h4], rfl, text ++ bytes,
        by simp [List.append_assoc], by simp [h7, p3]⟩
  | Text b =>
    have e1 : sc.Text b
        = .ok { sc with fOffset := sc.fOffset + (pending_indent sf.fContext + b.length),
                        fContext := { sf.fContext with new_line := false },
                        fTarget := none } := by
      simp only [TextOutput.Text, h1, h5, write_text_counting]
    have e2 : sf.Text b
        = .ok { sf with fOffset := sf.fOffset + (pending_indent sf.fContext + b.length),
                        fContext := { sf.fContext with new_line := false },
                        fTarget := some ⟨base ++ text
                          ++ (List.replicate (pending_indent sf.fContext) 32 ++ b), []⟩ } := by
      simp only [TextOutput.Text, h6, write_text_reliable]
    exact ⟨_, _, e1, e2, rfl, h2, h3, by simp [h4], rfl,
      text ++ (List.replicate (pending_indent sf.fContext) 32 ++ b),
      by simp [List.append_assoc], by simp [h7]⟩

theorem in_step_run (env : Env) (base : List Byte) (vs : List Visit) (sc sf : TextOutput)
    (h : in_step base sc sf) :
    ∃ sc1 sf1, TextOutput.run env sc vs = .ok sc1 ∧ TextOutput.run env sf vs = .ok sf1
      ∧ in_step base sc1 sf1 := by
  induction vs generalizing sc sf with
  | nil => exact ⟨sc, sf, rfl, rfl, h⟩
  | cons v vs ih =>
    obtain ⟨sc1, sf1, hc, hf, hstep⟩ := in_step_visit env base sc sf v h
    obtain ⟨sc2, sf2, hc2, hf2, hstep2⟩ := ih sc1 sf1 hstep
    exact ⟨sc2, sf2, by simp only [TextOutput.run, hc, hc2], by
      simp only [TextOutput.run, hf, hf2], hstep2⟩

/-- C1. For every document tree both passes return, and the length the
counting pass reports (no target, `processRuns = false`) equals the number of
bytes the full pass (`processRuns = true`, on a target that is empty at the
start and accepts every write) has written to its target, which is also the
final offset of the full pass. -/
theorem counting_pass_length (env : Env) (root : Element) :
    ∃ (sc sf : TextOutput) (data : List Byte),
      Worker.Work env (TextOutput.new none false) root = .ok sc
        ∧ Worker.Work env (TextOutput.new (some Sink.reliable) true) root = .ok sf
        ∧ sf.fTarget = some ⟨data, []⟩
        ∧ sc.Length = data.length ∧ data.length = sf.Length := by
  have h0 : in_step [] (TextOutput.new none false)
      (TextOutput.new (some Sink.reliable) true) :=
    ⟨rfl, rfl, rfl, rfl, rfl, [], rfl, rfl⟩
  obtain ⟨sc, sf, hc, hf, h1, h2, h3, h4, h5, data, h6, h7⟩ :=
    in_step_run env [] (Worker.visits root) _ _ h0
  refine ⟨sc, sf, data, ?_, ?_, by simpa using h6, ?_, h7⟩
  · rw [Work_eq_run]; exact hc
  · rw [Work_eq_run]; exact hf
  · simp only [TextOutput.Length]; omega

/-! ### Groups -/

theorem GroupEnd_stack (s : TextOutput) (hp : s.fProcessRuns = true) :
    s.GroupEnd.fGroupStack = s.fGroupStack.tail := by
  unfold TextOutput.GroupEnd
  rw [if_neg (by simp [hp])]
  generalize s.fGroupStack.head?.join = last
  simp only []
  split_ifs with heq
  · cases hc : TextOutput.current { s with fGroupStack := s.fGroupStack.tail } with
    | none =>
      cases last with
      | none => simp
      | some l => simp
    | some cur =>
      cases last with
      | none => simp
      | some l =>
        simp only []
        split_ifs with ho
        · exact (assign_frame _ _).2.2.2.2.1
        · simp
  · simp

theorem Group_text (env : Env) (s : TextOutput) (hp : s.fProcessRuns = true) :
    TextOutput.Group env s Destination.TEXT_DESTINATION
      = (Directive.Descend, { s with fGroupStack := s.current :: s.fGroupStack }) := by
  unfold TextOutput.Group
  simp only [ne_eq, not_true_eq_false, if_false, hp, Bool.true_eq_false]
  cases s.current <;> simp [copy_text_run]

theorem Command_stack (env : Env) (s t : TextOutput) (command : Command)
    (hp : s.fProcessRuns = true) (h : TextOutput.Command env s command = .ok t) :
    t.fGroupStack = s.fGroupStack ∧ t.fProcessRuns = true := by
  by_cases hn : command.Name ∈ style_commands
  · obtain ⟨_, _, _, h4, h5⟩ := Command_style_frame env s t command hp hn h
    exact ⟨h4, by rw [h5, hp]⟩
  · rw [Command_forward env s command hn] at h
    obtain ⟨_, _, h3, h4, _⟩ := forward_frame env s t command h
    exact ⟨h3, by rw [h4, hp]⟩

mutual
theorem Dispatch_balanced (env : Env) : ∀ (e : Element) (s t : TextOutput),
    e.all_text = true → s.fProcessRuns = true → Worker.Dispatch env e s = .ok t →
      t.fGroupStack = s.fGroupStack ∧ t.fProcessRuns = true
  | .group d es, s, t, ha, hp, h => by
    simp only [Element.all_text, Bool.and_eq_true, decide_eq_true_eq] at ha
    obtain ⟨hd, hes⟩ := ha
    subst hd
    rw [Worker.Dispatch, Group_text env s hp] at h
    simp only at h
    cases hr : Worker.DispatchAll env es { s with fGroupStack := s.current :: s.fGroupStack } with
    | error e => rw [hr] at h; cases h
    | ok s2 =>
      rw [hr] at h
      simp only [Except.ok.injEq] at h
      obtain ⟨b1, b2⟩ := DispatchAll_balanced env es
        { s with fGroupStack := s.current :: s.fGroupStack } s2 hes hp hr
      subst h
      obtain ⟨_, _, _, c4⟩ := GroupEnd_frame s2
      exact ⟨by rw [GroupEnd_stack s2 b2, b1]; rfl, by rw [c4, b2]⟩
  | .command c, s, t, _, hp, h => by
    rw [Worker.Dispatch] at h
    exact Command_stack env s t c hp h
  | .text b, s, t, _, hp, h => by
    rw [Worker.Dispatch] at h
    obtain ⟨_, _, h3, h4, _⟩ := Text_frame s t b h
    exact ⟨h3, by rw [h4, hp]⟩
theorem DispatchAll_balanced (env : Env) : ∀ (es : List Element) (s t : TextOutput),
    Element.all_text_list es = true → s.fProcessRuns = true →
      Worker.DispatchAll env es s = .ok t →
      t.fGroupStack = s.fGroupStack ∧ t.fProcessRuns = true
  | [], s, t, _, hp, h => by
    simp only [Worker.DispatchAll, Except.ok.injEq] at h
    subst h
    exact ⟨rfl, hp⟩
  | e :: es, s, t, ha, hp, h => by
    simp only [Element.all_text_list, Bool.and_eq_true] at ha
    rw [Worker.DispatchAll] at h
    cases hr : Worker.Dispatch env e s with
    | error x => rw [hr] at h; cases h
    | ok s1 =>
      rw [hr] at h
      simp only at h
      obtain ⟨b1, b2⟩ := Dispatch_balanced env e s s1 ha.1 hp hr
      obtain ⟨c1, c2⟩ := DispatchAll_balanced env es s1 t ha.2 b2 h
      exact ⟨by rw [c1, b1], c2⟩
end

theorem Ordered.DispatchAll (env : Env) (es : List Element) (s t : TextOutput) (h : s.Ordered)
    (hr : Worker.DispatchAll env es s = .ok t) : t.Ordered := by
  rw [DispatchAll_eq_run] at hr
  exact Ordered.run env _ s t h hr

theorem write_or_return_reliable (data bytes : List Byte) :
    write_or_return ⟨data, []⟩ bytes = (none, ⟨data ++ bytes, []⟩) := by
  simp [write_or_return, Sink.Write, B_OK]

/-- The counting pass, which has no target, returns for every document. -/
theorem counting_pass_total (env : Env) (root : Element) :
    ∃ sc : TextOutput, Worker.Work env (TextOutput.new none false) root = .ok sc := by
  have h0 : in_step [] (TextOutput.new none false)
      (TextOutput.new (some Sink.reliable) true) :=
    ⟨rfl, rfl, rfl, rfl, rfl, [], rfl, rfl⟩
  obtain ⟨sc, _, hc, _⟩ := in_step_run env [] (Worker.visits root) _ _ h0
  exact ⟨sc, by rw [Work_eq_run]; exact hc⟩

theorem Source.Read_at (data pre rest : List Byte) (size : Nat) (hd : data = pre ++ rest) :
    Source.Read ⟨data, pre.length⟩ size
      = (rest.take size, ⟨data, pre.length + (rest.take size).length⟩) := by
  subst hd
  simp [Source.Read]

theorem read_text_loop_spec (fuel : Nat) : ∀ (data pre text post memory plainText : List Byte)
    (n : Nat), data = pre ++ text ++ post → text.length < fuel →
    ∃ m, read_text_loop fuel (n + text.length) ⟨data, pre.length⟩ memory plainText n
      = (plainText ++ reassembled fuel memory text, n + text.length,
          ⟨data, pre.length + text.length⟩, m) := by
  induction fuel with
  | zero => intro _ _ _ _ _ _ _ _ h; omega
  | succ fuel ih =>
    intro data pre text post memory plainText n hd hlen
    have hread := Source.Read_at data pre (text ++ post)
      (min READ_BUFFER_SIZE (n + text.length - n)) (by rw [hd, List.append_assoc])
    have htake : (text ++ post).take (min READ_BUFFER_SIZE (n + text.length - n))
        = text.take READ_BUFFER_SIZE := by
      rw [Nat.add_sub_cancel_left, List.take_append_of_le_length (Nat.min_le_right _ _)]
      rw [← List.take_take, List.take_length]
    rw [htake] at hread
    by_cases ht : text = []
    · subst ht
      refine ⟨memory, ?_⟩
      simp only [read_text_loop, hread, reassembled]
      simp
    · have hpos : (text.take READ_BUFFER_SIZE).length > 0 := by
        have : 0 < text.length := List.length_pos.2 ht
        simp [READ_BUFFER_SIZE]; omega
      have hd2 : data = (pre ++ text.take READ_BUFFER_SIZE) ++ text.drop READ_BUFFER_SIZE
          ++ post := by
        rw [hd]
        simp only [List.append_assoc]
        rw [← List.append_assoc (text.take READ_BUFFER_SIZE), List.take_append_drop]
      have hsplit : (text.take READ_BUFFER_SIZE).length + (text.drop READ_BUFFER_SIZE).length
          = text.length := by
        rw [← List.length_append, List.take_append_drop]
      have hlen2 : (text.drop READ_BUFFER_SIZE).length < fuel := by omega
      obtain ⟨m, hm⟩ := ih data (pre ++ text.take READ_BUFFER_SIZE) (text.drop READ_BUFFER_SIZE)
        post (store memory (text.take READ_BUFFER_SIZE))
        (plainText ++ c_string (store memory (text.take READ_BUFFER_SIZE)))
        (n + (text.take READ_BUFFER_SIZE).length) hd2 hlen2
      refine ⟨m, ?_⟩
      have e1 : n + (text.take READ_BUFFER_SIZE).length + (text.drop READ_BUFFER_SIZE).length
          = n + text.length := by omega
      have e2 : (pre ++ text.take READ_BUFFER_SIZE).length
          = pre.length + (text.take READ_BUFFER_SIZE).length := List.length_append _ _
      have e3 : (pre ++ text.take READ_BUFFER_SIZE).length + (text.drop READ_BUFFER_SIZE).length
          = pre.length + text.length := by omega
      rw [e1, e3, e2] at hm
      simp only [read_text_loop, hread, hpos, if_true, hm, reassembled, ht, if_false,
        List.append_assoc]

theorem be32_length (n : Nat) : (be32 n).length = 4 := rfl

theorem from_be32_be32 (n : Nat) (h : n < 4294967296) : from_be32 (be32 n) = n := by
  simp only [be32, from_be32]
  omega

theorem Source.Read_exact (data pre chunk post : List Byte) (position size : Nat)
    (hd : data = pre ++ chunk ++ post) (hp : position = pre.length) (hs : size = chunk.length) :
    Source.Read ⟨data, position⟩ size = (chunk, ⟨data, position + size⟩) := by
  subst hp hs
  rw [Source.Read_at data pre (chunk ++ post) chunk.length (by rw [hd, List.append_assoc])]
  simp

/-- Reading back a container written for `text` and `flattenedRuns` (both
shorter than 2^32 bytes): the reading part of `convert_styled_text_to_rtf`
returns no error status, hands the flattened runs to `UnflattenRunArray`, and
its plain text is what the reading loop reassembles from `text` through its
buffer. -/
theorem read_styled_text_container (codec : RunArrayCodec) (memory text flat : List Byte)
    (ht : text.length < 4294967296) (hf : flat.length < 4294967296) :
    read_styled_text codec memory ⟨container text flat, 0⟩
      = .ok ⟨reassembled (text.length + 1) memory text,
          some (codec.UnflattenRunArray flat)⟩ := by
  have l1 : stream_header_bytes.length = sizeof_stream_header := rfl
  have l2 : (text_header_bytes text.length).length = sizeof_text_header := rfl
  have l3 : (style_header_bytes flat.length text.length).length = sizeof_style_header := rfl
  have h1 : Source.Read ⟨container text flat, 0⟩ sizeof_stream_header
      = (stream_header_bytes, ⟨container text flat, 0 + sizeof_stream_header⟩) :=
    Source.Read_exact (container text flat) [] stream_header_bytes
      (text_header_bytes text.length ++ text ++ style_header_bytes flat.length text.length
        ++ flat) 0 sizeof_stream_header (by simp [container, List.append_assoc]) rfl rfl
  have h2 : Source.Read ⟨container text flat, 0 + sizeof_stream_header⟩ sizeof_text_header
      = (text_header_bytes text.length,
          ⟨container text flat, 0 + sizeof_stream_header + sizeof_text_header⟩) :=
    Source.Read_exact (container text flat) stream_header_bytes
      (text_header_bytes text.length)
      (text ++ style_header_bytes flat.length text.length ++ flat)
      _ sizeof_text_header (by simp [container, List.append_assoc]) (by simp [l1]) rfl
  have hsize : from_be32 (((text_header_bytes text.length).drop 8).take 4) = text.length := by
    have : ((text_header_bytes text.length).drop 8).take 4
        = be32 (text.length % 4294967296) := by
      simp [text_header_bytes, be32]
    rw [this, Nat.mod_eq_of_lt ht, from_be32_be32 _ ht]
  have h3 : ∃ m, read_text_loop (text.length + 1) text.length
      ⟨container text flat, 0 + sizeof_stream_header + sizeof_text_header⟩ memory [] 0
      = (reassembled (text.length + 1) memory text, text.length,
          ⟨container text flat, 0 + sizeof_stream_header + sizeof_text_header + text.length⟩,
          m) := by
    obtain ⟨m, h3⟩ := read_text_loop_spec (text.length + 1) (container text flat)
      (stream_header_bytes ++ text_header_bytes text.length) text
      (style_header_bytes flat.length text.length ++ flat) memory [] 0
      (by simp [container, List.append_assoc]) (Nat.lt_succ_self _)
    refine ⟨m, ?_⟩
    have hp : (stream_header_bytes ++ text_header_bytes text.length).length
        = 0 + sizeof_stream_header + sizeof_text_header := by
      rw [List.length_append, l1, l2, Nat.zero_add]
    rw [hp] at h3
    simpa using h3
  obtain ⟨m, h3⟩ := h3
  have h4 : Source.Read
      ⟨container text flat, 0 + sizeof_stream_header + sizeof_text_header + text.length⟩
      sizeof_style_header
      = (style_header_bytes flat.length text.length,
          ⟨container text flat, 0 + sizeof_stream_header + sizeof_text_header + text.length
            + sizeof_style_header⟩) :=
    Source.Read_exact (container text flat)
      (stream_header_bytes ++ text_header_bytes text.length ++ text)
      (style_header_bytes flat.length text.length) flat _ sizeof_style_header
      (by simp [container, List.append_assoc])
      (by simp only [List.length_append, l1, l2, Nat.zero_add]) rfl
  have hmagic : from_be32 ((style_header_bytes flat.length text.length).take 4) = magic_STYL := by
    have : (style_header_bytes flat.length text.length).take 4 = be32 magic_STYL := by
      simp [style_header_bytes, be32]
    rw [this]; rfl
  have hhsize : from_be32 (((style_header_bytes flat.length text.length).drop 4).take 4)
      = sizeof_style_header := by
    have : ((style_header_bytes flat.length text.length).drop 4).take 4
        = be32 sizeof_style_header := by
      simp [style_header_bytes, be32]
    rw [this]; rfl
  have hdsize : from_be32 (((style_header_bytes flat.length text.length).drop 8).take 4)
      = flat.length := by
    have : ((style_header_bytes flat.length text.length).drop 8).take 4
        = be32 (flat.length % 4294967296) := by
      simp [style_header_bytes, be32]
    rw [this, Nat.mod_eq_of_lt hf, from_be32_be32 _ hf]
  have h5 : Source.Read
      ⟨container text flat, 0 + sizeof_stream_header + sizeof_text_header + text.length
        + sizeof_style_header⟩ flat.length
      = (flat, ⟨container text flat, 0 + sizeof_stream_header + sizeof_text_header
          + text.length + sizeof_style_header + flat.length⟩) :=
    Source.Read_exact (container text flat)
      (stream_header_bytes ++ text_header_bytes text.length ++ text
        ++ style_header_bytes flat.length text.length)
      flat [] _ flat.length (by simp [container, List.append_assoc])
      (by simp only [List.length_append, l1, l2, l3, Nat.zero_add]) rfl
  unfold read_styled_text
  simp only [h1, l1, ne_eq, not_true_eq_false, if_false, h2, l2, hsize, h3, h4, l3,
    false_and, if_true, hmagic, hhsize, or_self, hdsize, h5]

theorem nul_document_counting :
    Worker.Work sample_env (TextOutput.new none false) nul_document
      = .ok ⟨none, 3, ⟨1, 1, 1, 0, false⟩, [], false, [], none⟩ := by
  rfl

theorem nul_document_full (data : List Byte) :
    Worker.Work sample_env (TextOutput.new (some ⟨data, []⟩) true) nul_document
      = .ok ⟨some ⟨data ++ [65, 0, 66], []⟩, 3, ⟨1, 1, 1, 0, false⟩, [], true, [], none⟩ := by
  simp [Work_eq_run, Worker.visits, Worker.visitsAll, nul_document, TextOutput.run,
    TextOutput.visit, TextOutput.Group, TextOutput.new, TextOutput.current, TextOutput.Text,
    write_text_reliable, pending_indent, conversion_context.Reset, TextOutput.Command,
    TextOutput.forward, process_command, write_unicode_char, unicode_bytes, to_uint32,
    TextOutput.GroupEnd, text_runs_are_equal]

theorem c_string_append (a rest : List Byte) (ha : ∀ b ∈ a, b ≠ 0) :
    c_string (a ++ rest) = a ++ c_string rest := by
  induction a with
  | nil => rfl
  | cons x xs ih =>
    have hx : x ≠ 0 := ha x (List.mem_cons_self _ _)
    have hxs : ∀ b ∈ xs, b ≠ 0 := fun b hb => ha b (List.mem_cons_of_mem _ hb)
    have := ih hxs
    simp only [c_string, ne_eq, decide_not] at this ⊢
    simp [List.takeWhile_cons, hx, this]

theorem c_string_nul (rest : List Byte) : c_string (0 :: rest) = [] := by
  simp [c_string]

/-- A text with a NUL byte that fits the read buffer is cut at its first NUL
by the reading loop, whatever the memory holds. -/
theorem reassembled_nul (fuel : Nat) (memory a b : List Byte) (ha : ∀ x ∈ a, x ≠ 0)
    (hlen : (a ++ 0 :: b).length ≤ READ_BUFFER_SIZE) :
    reassembled (fuel + 2) memory (a ++ 0 :: b) = a := by
  have ht : (a ++ 0 :: b).take READ_BUFFER_SIZE = a ++ 0 :: b := List.take_of_length_le hlen
  have hd : (a ++ 0 :: b).drop READ_BUFFER_SIZE = [] := List.drop_of_length_le hlen
  have hne : a ++ 0 :: b ≠ [] := by simp
  rw [reassembled, if_neg hne, ht, hd, reassembled, if_pos rfl, store, List.append_assoc,
    c_string_append _ _ ha]
  simp [c_string_nul]

/-- A text without NUL bytes that is longer than the read buffer and shorter
than two of them is read back longer than it is, whatever the memory holds:
the first chunk fills the buffer, and after the second chunk the C string at the
buffer still runs through the stale rest of the first chunk. -/
theorem reassembled_long (fuel : Nat) (memory a b : List Byte)
    (ha : a.length = READ_BUFFER_SIZE) (hb : 0 < b.length) (hb2 : b.length < READ_BUFFER_SIZE)
    (hna : ∀ x ∈ a, x ≠ 0) (hnb : ∀ x ∈ b, x ≠ 0) :
    (a ++ b).length < (reassembled (fuel + 3) memory (a ++ b)).length
      ∧ reassembled (fuel + 3) memory (a ++ b) ≠ a ++ b := by
  have hbne : b ≠ [] := List.length_pos.1 hb
  have hne : a ++ b ≠ [] := by
    intro h
    exact hbne (List.append_eq_nil.1 h).2
  have ht : (a ++ b).take READ_BUFFER_SIZE = a := by
    rw [← ha]; exact List.take_left _ _
  have hd : (a ++ b).drop READ_BUFFER_SIZE = b := by
    rw [← ha]; exact List.drop_left _ _
  have ht2 : b.take READ_BUFFER_SIZE = b := List.take_of_length_le (le_of_lt hb2)
  have hd2 : b.drop READ_BUFFER_SIZE = [] := List.drop_of_length_le (le_of_lt hb2)
  have hs1 : store memory a = a ++ memory.drop a.length := rfl
  have hs2 : store (a ++ memory.drop a.length) b
      = b ++ (a.drop b.length ++ memory.drop a.length) := by
    simp only [store]
    rw [List.drop_append_of_le_length (by omega)]
  have hnd : ∀ x ∈ a.drop b.length, x ≠ 0 := fun x hx => hna x (List.mem_of_mem_drop hx)
  have key : reassembled (fuel + 3) memory (a ++ b)
      = a ++ c_string (memory.drop a.length)
        ++ (b ++ (a.drop b.length ++ c_string (memory.drop a.length))) := by
    rw [reassembled, if_neg hne, ht, hd, hs1, c_string_append _ _ hna, reassembled,
      if_neg hbne, ht2, hd2, hs2, c_string_append _ _ hnb, c_string_append _ _ hnd,
      reassembled, if_pos rfl, List.append_nil]
  have hlen : (a ++ b).length < (reassembled (fuel + 3) memory (a ++ b)).length := by
    rw [key]
    simp only [List.length_append, List.length_drop]
    omega
  refine ⟨hlen, ?_⟩
  intro h
  rw [h] at hlen
  exact lt_irrefl _ hlen

/-- For the document `A \'00 B` the forward pass
produces the three text bytes 65, 0, 66 and an empty run table, and
`convert_to_stxt` writes the container for them: the 55 bytes listed (stream
header, text header with data size 3, the text, style header with data size 0
and apply length 3). Reading this container back, whatever the stack memory
holds and whatever the run-array codec, `convert_styled_text_to_rtf` ends up
with the plain text `A` alone: `plainText << buffer` appends the buffer as a
C string, which ends at the first NUL. -/
theorem nul_text_read_back_cut (codec : RunArrayCodec) (memory : List Byte) :
    convert_to_stxt sample_env codec nul_document Sink.reliable
        = (B_OK, ⟨container [65, 0, 66] [], []⟩)
      ∧ container [65, 0, 66] []
        = [83, 84, 88, 84, 0, 0, 0, 16, 0, 0, 0, 0, 0, 0, 0, 100,
            84, 69, 88, 84, 0, 0, 0, 16, 0, 0, 0, 3, 0, 0, 0, 0,
            65, 0, 66,
            83, 84, 89, 76, 0, 0, 0, 20, 0, 0, 0, 0, 0, 0, 0, 0, 0, 0, 0, 3]
      ∧ read_styled_text codec memory ⟨container [65, 0, 66] [], 0⟩
        = .ok ⟨[65], some (codec.UnflattenRunArray [])⟩ := by
  refine ⟨?_, by decide, ?_⟩
  · simp only [convert_to_stxt, nul_document_counting, Sink.reliable, write_or_return_reliable,
      nul_document_full, TextOutput.Length, TextOutput.FlattenedRunArray, Option.getD_some]
    simp [container]
  · rw [read_styled_text_container codec memory [65, 0, 66] [] (by decide) (by decide)]
    have := reassembled_nul 2 memory [65] [66] (by decide) (by decide)
    simp only [List.singleton_append, List.length_cons, List.length_nil] at this ⊢
    rw [this]

theorem text_document_counting (text : List Byte) :
    Worker.Work sample_env (TextOutput.new none false) (text_document text)
      = .ok ⟨none, text.length, ⟨1, 1, 1, 0, false⟩, [], false, [], none⟩ := by
  simp [Work_eq_run, Worker.visits, Worker.visitsAll, text_document, TextOutput.run,
    TextOutput.visit, TextOutput.Group, TextOutput.new, TextOutput.Text,
    write_text_counting, pending_indent, conversion_context.Reset, TextOutput.GroupEnd]

theorem text_document_full (data text : List Byte) :
    Worker.Work sample_env (TextOutput.new (some ⟨data, []⟩) true) (text_document text)
      = .ok ⟨some ⟨data ++ text, []⟩, text.length, ⟨1, 1, 1, 0, false⟩, [], true, [], none⟩ := by
  simp [Work_eq_run, Worker.visits, Worker.visitsAll, text_document, TextOutput.run,
    TextOutput.visit, TextOutput.Group, TextOutput.new, TextOutput.current, TextOutput.Text,
    write_text_reliable, pending_indent, conversion_context.Reset, TextOutput.GroupEnd,
    text_runs_are_equal]

/-- For a document that is a single text leaf, `convert_to_stxt` on a target
that accepts every write produces the container of that text with no runs. -/
theorem text_document_container (codec : RunArrayCodec) (text : List Byte) :
    convert_to_stxt sample_env codec (text_document text) Sink.reliable
      = (B_OK, ⟨container text [], []⟩) := by
  simp only [convert_to_stxt, text_document_counting, Sink.reliable, write_or_return_reliable,
    text_document_full, TextOutput.Length, TextOutput.FlattenedRunArray, Option.getD_some]
  simp [container]

/-- The container written for the text of 2048 letters A and one letter B is
read back without an error status, with a plain text that is longer than the
text written, whatever the stack memory holds and whatever the run-array
codec. -/
theorem long_text_read_back_longer (codec : RunArrayCodec) (memory : List Byte) :
    convert_to_stxt sample_env codec (text_document long_text) Sink.reliable
        = (B_OK, ⟨container long_text [], []⟩)
      ∧ ∃ r, read_styled_text codec memory ⟨container long_text [], 0⟩ = .ok r
          ∧ long_text.length < r.plainText.length ∧ r.plainText ≠ long_text := by
  refine ⟨text_document_container codec long_text, ?_⟩
  have hl : long_text.length = 2049 := by
    rw [long_text, List.length_append, List.length_replicate]
    rfl
  rw [read_styled_text_container codec memory long_text [] (by rw [hl]; decide) (by decide)]
  have h := reassembled_long 2047 memory (List.replicate 2048 65) [66]
    (List.length_replicate _ _) (Nat.zero_lt_one) (by decide)
    (fun x hx => by rw [List.eq_of_mem_replicate hx]; decide)
    (fun x hx => by rw [List.mem_singleton.1 hx]; decide)
  have e : long_text.length + 1 = 2047 + 3 := by rw [hl]
  rw [e]
  exact ⟨_, rfl, h.1, h.2⟩

/-- Every command keeps the first-line indent within 0..8, the range in which
`write_text` uses it as the count of indent spaces. -/
theorem process_command_indent_range (garbage : Byte) (context context1 : conversion_context)
    (command : Command) (target target1 : Option Sink) (n : Nat)
    (h0 : 0 ≤ context.first_line_indent ∧ context.first_line_indent ≤ 8)
    (h : process_command garbage context command target = .ok (n, context1, target1)) :
    0 ≤ context1.first_line_indent ∧ context1.first_line_indent ≤ 8 := by
  have hwt : ∀ (c : conversion_context) (text : List Byte) (r : Nat × conversion_context × Option Sink),
      write_text c text target = .ok r → r.2.1.first_line_indent = c.first_line_indent := by
    intro c text r hr
    unfold write_text at hr
    cases target with
    | none =>
      simp only [Except.ok.injEq] at hr
      subst hr
      cases c.new_line <;> rfl
    | some k =>
      simp only at hr
      cases h1 : write_indent (if c.new_line = true then c.first_line_indent.toNat else 0) k with
      | error e => rw [h1] at hr; cases hr
      | ok k1 =>
        rw [h1] at hr
        simp only at hr
        cases h2 : write_checked k1 text with
        | error e => rw [h2] at hr; cases hr
        | ok k2 =>
          rw [h2] at hr
          simp only [Except.ok.injEq] at hr
          subst hr
          cases c.new_line <;> rfl
  have hnl : ∀ (c : conversion_context) (pfx : List Byte) (r : Nat × conversion_context × Option Sink),
      next_line c pfx target = .ok r → r.2.1.first_line_indent = c.first_line_indent := by
    intro c pfx r hr
    unfold next_line at hr
    cases target with
    | none =>
      simp only [Except.ok.injEq] at hr
      subst hr
      rfl
    | some k =>
      simp only at hr
      cases h1 : write_checked k pfx with
      | error e => rw [h1] at hr; cases hr
      | ok k1 =>
        rw [h1] at hr
        simp only [Except.ok.injEq] at hr
        subst hr
        rfl
  unfold process_command at h
  simp only [write_unicode_char] at h
  by_cases c0 : command.Name = "par" ∨ command.Name = "line"
  · simp only [if_pos c0] at h
    have := hnl _ _ _ h
    simp only at this
    rw [this]; exact h0
  simp only [if_neg c0] at h
  by_cases c1 : command.Name = "sect"
  · simp only [if_pos c1] at h
    have := hnl _ _ _ h
    simp only at this
    rw [this]; exact h0
  simp only [if_neg c1] at h
  by_cases c2 : command.Name = "page"
  · simp only [if_pos c2] at h
    have := hnl _ _ _ h
    simp only at this
    rw [this]; exact h0
  simp only [if_neg c2] at h
  by_cases c3 : command.Name = "tab"
  · simp only [if_pos c3] at h
    have := hwt _ _ _ h
    simp only at this
    rw [this]; exact h0
  simp only [if_neg c3] at h
  by_cases c4 : command.Name = "\x27"
  · simp only [if_pos c4] at h
    have := hwt _ _ _ h
    simp only at this
    rw [this]; exact h0
  simp only [if_neg c4] at h
  by_cases c5 : command.Name = "pard"
  · simp only [if_pos c5] at h
    simp only [Except.ok.injEq, Prod.mk.injEq] at h
    obtain ⟨_, h2, _⟩ := h
    subst h2
    simp
  simp only [if_neg c5] at h
  by_cases c6 : command.Name = "fi" ∨ command.Name = "cufi"
  · simp only [if_pos c6] at h
    simp only [Except.ok.injEq, Prod.mk.injEq] at h
    obtain ⟨_, h2, _⟩ := h
    subst h2
    simp only []
    constructor <;> split_ifs <;> omega
  simp only [if_neg c6] at h
  by_cases c7 : command.Name = "sectnum"
  · simp only [if_pos c7] at h
    have := hwt _ _ _ h
    simp only at this
    rw [this]; exact h0
  simp only [if_neg c7] at h
  by_cases c8 : command.Name = "pgnstarts"
  · simp only [if_pos c8] at h
    simp only [Except.ok.injEq, Prod.mk.injEq] at h
    obtain ⟨_, h2, _⟩ := h
    subst h2
    exact h0
  simp only [if_neg c8] at h
  by_cases c9 : command.Name = "pgnrestart"
  · simp only [if_pos c9] at h
    simp only [Except.ok.injEq, Prod.mk.injEq] at h
    obtain ⟨_, h2, _⟩ := h
    subst h2
    exact h0
  simp only [if_neg c9] at h
  by_cases c10 : command.Name = "chpgn"
  · simp only [if_pos c10] at h
    have := hwt _ _ _ h
    simp only at this
    rw [this]; exact h0
  simp only [if_neg c10] at h
  simp only [Except.ok.injEq, Prod.mk.injEq] at h
  obtain ⟨_, h2, _⟩ := h
  subst h2
  exact h0

/-- C2, at two failing inputs. (1) The text `A`, NUL, `B` with no runs, which
`convert_to_stxt` writes for the document `A \'00 B`: read back, the plain text
is `A` alone. (2) The text of 2048 letters A and one letter B with no runs,
which `convert_to_stxt` writes for the document holding that text: read back,
the plain text is longer than the text written. Both whatever the stack memory
holds and whatever the run-array codec; in both cases the reader returns no
error status. -/
theorem round_trip_loses_text (codec : RunArrayCodec) (memory : List Byte) :
    (convert_to_stxt sample_env codec nul_document Sink.reliable
        = (B_OK, ⟨container [65, 0, 66] [], []⟩)
      ∧ read_styled_text codec memory ⟨container [65, 0, 66] [], 0⟩
        = .ok ⟨[65], some (codec.UnflattenRunArray [])⟩)
    ∧ (convert_to_stxt sample_env codec (text_document long_text) Sink.reliable
        = (B_OK, ⟨container long_text [], []⟩)
      ∧ ∃ r, read_styled_text codec memory ⟨container long_text [], 0⟩ = .ok r
          ∧ long_text.length < r.plainText.length ∧ r.plainText ≠ long_text) :=
  ⟨⟨(nul_text_read_back_cut codec memory).1, (nul_text_read_back_cut codec memory).2.2⟩,
    long_text_read_back_longer codec memory⟩

/-! ### Face flags -/

/-- Setting a flag and clearing it again, on 16-bit faces: the flag goes in with
the disjunction and out with the conjunction with the complement. -/
theorem or_and_compl (c f : Nat) (hc : c < 65536) (hf : f < 65536) (h : c &&& f = 0) :
    (c ||| f) &&& (0xffff ^^^ f) = c := by
  apply Nat.eq_of_testBit_eq
  intro i
  have hcf : (c &&& f).testBit i = false := by rw [h]; simp
  rw [Nat.testBit_and] at hcf
  have hm : (0xffff : Nat).testBit i = decide (i < 16) :=
    Nat.testBit_two_pow_sub_one 16 i
  rw [Nat.testBit_and, Nat.testBit_or, Nat.testBit_xor, hm]
  by_cases hi : i < 16
  · simp only [hi, decide_True]
    cases hci : c.testBit i <;> cases hfi : f.testBit i <;> simp_all
  · have h16 : (65536 : Nat) ≤ 2 ^ i := by
      have : (2 : Nat) ^ 16 ≤ 2 ^ i := Nat.pow_le_pow_right (by decide) (by omega)
      simpa using this
    have hci : c.testBit i = false := Nat.testBit_lt_two_pow (by omega)
    have hfi : f.testBit i = false := Nat.testBit_lt_two_pow (by omega)
    simp [hci, hfi, hi]

theorem or_eq_zero_left (c f : Nat) (e : c ||| f = 0) : c = 0 := by
  apply Nat.eq_of_testBit_eq
  intro i
  have h : (c ||| f).testBit i = false := by rw [e]; simp
  rw [Nat.testBit_or] at h
  simp only [Nat.zero_testBit]
  cases hc : c.testBit i <;> simp_all

theorem and_compl_self (f : Nat) (hf : f < 65536) : f &&& (0xffff ^^^ f) = 0 := by
  have := or_and_compl 0 f (by decide) hf (by simp)
  simpa using this

theorem set_font_face_value_on_off (c f : Nat) (hc : c < 65536) (hf : f < 65536)
    (hf0 : f ≠ 0) (hc0 : c ≠ 0) (h : c &&& f = 0) :
    set_font_face_value c f true ≠ 0 ∧
      set_font_face_value (set_font_face_value c f true) f false = c := by
  by_cases hr : c = B_REGULAR_FACE
  · have h1 : set_font_face_value c f true = f := by simp [set_font_face_value, hr]
    rw [h1]
    refine ⟨hf0, ?_⟩
    have hfr : f ≠ B_REGULAR_FACE := by
      intro e
      rw [hr, e] at h
      simp [B_REGULAR_FACE] at h
    simp [set_font_face_value, and_compl_self f hf, hr, hfr]
  · have h1 : set_font_face_value c f true = c ||| f := by simp [set_font_face_value, hr]
    rw [h1]
    have hne : c ||| f ≠ 0 := by
      intro e
      exact hc0 (or_eq_zero_left c f e)
    refine ⟨hne, ?_⟩
    simp [set_font_face_value, or_and_compl c f hc hf h, hc0]

/-- C11: for each of the face flags bold, italic, underline and strikeout and
every font whose face is a non-zero 16-bit value without that flag (the plain
baseline, or any set of other flags), switching the flag on and then off
returns exactly the original font; starting from the baseline face the
intermediate face is exactly the single flag, and the final face is exactly the
baseline. -/
theorem face_toggle_round_trip (font : BFont) (f : Nat)
    (hf : f ∈ [B_BOLD_FACE, B_ITALIC_FACE, B_UNDERSCORE_FACE, B_STRIKEOUT_FACE])
    (h16 : font.face < 65536) (h0 : font.face ≠ 0) (hnot : font.face &&& f = 0) :
    set_font_face (set_font_face font f true) f false = font
      ∧ (font.face = B_REGULAR_FACE →
          (set_font_face font f true).face = f
            ∧ (set_font_face (set_font_face font f true) f false).face = B_REGULAR_FACE) := by
  have hf16 : f < 65536 ∧ f ≠ 0 := by
    simp only [List.mem_cons, List.mem_singleton, List.not_mem_nil, or_false] at hf
    rcases hf with e | e | e | e <;> subst e <;> decide
  obtain ⟨hv0, hv⟩ := set_font_face_value_on_off font.face f h16 hf16.1 hf16.2 h0 hnot
  have hon : set_font_face font f true
      = { font with face := set_font_face_value font.face f true } := by
    simp [set_font_face, BFont.SetFace, hv0]
  have hoff : set_font_face (set_font_face font f true) f false = font := by
    rw [hon]
    simp only [set_font_face, hv, BFont.SetFace, if_neg h0]
  refine ⟨hoff, fun hr => ?_⟩
  rw [hoff, hon]
  exact ⟨by simp [set_font_face_value, hr], hr⟩

theorem face_toggle_round_trip_witness :
    set_font_face (set_font_face ⟨"Noto Sans", B_REGULAR_FACE, 12⟩ B_BOLD_FACE true)
        B_BOLD_FACE false = ⟨"Noto Sans", B_REGULAR_FACE, 12⟩
      ∧ set_font_face (set_font_face ⟨"Noto Sans", B_ITALIC_FACE ||| B_UNDERSCORE_FACE, 12⟩
          B_BOLD_FACE true) B_BOLD_FACE false
        = ⟨"Noto Sans", B_ITALIC_FACE ||| B_UNDERSCORE_FACE, 12⟩ :=
  ⟨(face_toggle_round_trip ⟨"Noto Sans", B_REGULAR_FACE, 12⟩ B_BOLD_FACE (by decide)
      (by decide) (by decide) (by decide)).1,
    (face_toggle_round_trip ⟨"Noto Sans", B_ITALIC_FACE ||| B_UNDERSCORE_FACE, 12⟩ B_BOLD_FACE
      (by decide) (by decide) (by decide) (by decide)).1⟩

/-! ### Text leaves and the line-start flag -/

/-- Whatever the target answers, a `write_text` that returns leaves the context
with the line-start flag cleared and nothing else changed. -/
theorem write_text_context (context : conversion_context) (text : List Byte)
    (target : Option Sink) (r : Nat × conversion_context × Option Sink)
    (h : write_text context text target = .ok r) :
    r.2.1 = { context with new_line := false } := by
  unfold write_text at h
  have hc : (if context.new_line = true then { context with new_line := false } else context)
      = { context with new_line := false } := by
    cases hn : context.new_line
    · simp [← hn]
    · simp
  rw [hc] at h
  cases target with
  | none =>
    simp only [Except.ok.injEq] at h
    rw [← h]
  | some k =>
    simp only [] at h
    split at h
    · cases h
    · split at h
      · cases h
      · simp only [Except.ok.injEq] at h
        rw [← h]

/-- The breaks: the commands after which the line-start flag is set. -/
theorem process_command_new_line (garbage : Byte) (context : conversion_context)
    (command : Command) (target : Option Sink) (r : Nat × conversion_context × Option Sink)
    (h : process_command garbage context command target = .ok r)
    (h0 : context.new_line = false) (h1 : r.2.1.new_line = true) :
    command.Name ∈ ["par", "line", "sect", "page"] := by
  unfold process_command at h
  simp only [write_unicode_char] at h
  by_cases c0 : command.Name = "par" ∨ command.Name = "line"
  · rcases c0 with c0 | c0 <;> simp [c0]
  simp only [if_neg c0] at h
  by_cases c1 : command.Name = "sect"
  · simp [c1]
  simp only [if_neg c1] at h
  by_cases c2 : command.Name = "page"
  · simp [c2]
  simp only [if_neg c2] at h
  exfalso
  by_cases c3 : command.Name = "tab"
  · simp only [if_pos c3] at h
    rw [write_text_context _ _ _ _ h] at h1
    cases h1
  simp only [if_neg c3] at h
  by_cases c4 : command.Name = "\x27"
  · simp only [if_pos c4] at h
    rw [write_text_context _ _ _ _ h] at h1
    cases h1
  simp only [if_neg c4] at h
  by_cases c5 : command.Name = "pard"
  · simp only [if_pos c5, Except.ok.injEq] at h
    rw [← h] at h1
    simp [h0] at h1
  simp only [if_neg c5] at h
  by_cases c6 : command.Name = "fi" ∨ command.Name = "cufi"
  · simp only [if_pos c6, Except.ok.injEq] at h
    rw [← h] at h1
    simp [h0] at h1
  simp only [if_neg c6] at h
  by_cases c7 : command.Name = "sectnum"
  · simp only [if_pos c7] at h
    rw [write_text_context _ _ _ _ h] at h1
    cases h1
  simp only [if_neg c7] at h
  by_cases c8 : command.Name = "pgnstarts"
  · simp only [if_pos c8, Except.ok.injEq] at h
    rw [← h] at h1
    simp [h0] at h1
  simp only [if_neg c8] at h
  by_cases c9 : command.Name = "pgnrestart"
  · simp only [if_pos c9, Except.ok.injEq] at h
    rw [← h] at h1
    simp [h0] at h1
  simp only [if_neg c9] at h
  by_cases c10 : command.Name = "chpgn"
  · simp only [if_pos c10] at h
    rw [write_text_context _ _ _ _ h] at h1
    cases h1
  simp only [if_neg c10, Except.ok.injEq] at h
  rw [← h] at h1
  simp [h0] at h1

theorem forward_new_line (env : Env) (s t : TextOutput) (command : Command)
    (h : s.forward env command = .ok t)
    (h0 : s.fContext.new_line = false) (h1 : t.fContext.new_line = true) :
    command.Name ∈ ["par", "line", "sect", "page"] := by
  unfold TextOutput.forward at h
  cases hpc : process_command env.garbage s.fContext command s.fTarget with
  | error e => rw [hpc] at h; cases h
  | ok r =>
    rw [hpc] at h
    simp only [Except.ok.injEq] at h
    subst h
    exact process_command_new_line _ _ _ _ _ hpc h0 h1

/-- A callback after which the line-start flag is set although it was clear
before is one of the four break commands. -/
theorem visit_new_line (env : Env) (s t : TextOutput) (v : Visit)
    (h : s.visit env v = .ok t)
    (h0 : s.fContext.new_line = false) (h1 : t.fContext.new_line = true) :
    ∃ command, v = Visit.Command command
      ∧ command.Name ∈ ["par", "line", "sect", "page"] := by
  cases v with
  | GroupEnter d =>
    simp only [TextOutput.visit, Except.ok.injEq] at h
    rw [← h, (Group_frame env s d).2.1, h0] at h1
    cases h1
  | GroupExit =>
    simp only [TextOutput.visit, Except.ok.injEq] at h
    rw [← h, (GroupEnd_frame s).2.1, h0] at h1
    cases h1
  | Text bytes =>
    simp only [TextOutput.visit] at h
    unfold TextOutput.Text at h
    cases hw : write_text s.fContext bytes s.fTarget with
    | error e => rw [hw] at h; cases h
    | ok r =>
      rw [hw] at h
      simp only [Except.ok.injEq] at h
      subst h
      simp only [write_text_context _ _ _ _ hw] at h1
      cases h1
  | Command command =>
    refine ⟨command, rfl, ?_⟩
    simp only [TextOutput.visit] at h
    by_cases hp : s.fProcessRuns = false
    · rw [Command_counting env s command hp] at h
      exact forward_new_line env s t command h h0 h1
    · by_cases hn : command.Name ∈ style_commands
      · have hf := Command_style_frame env s t command (by simpa using hp) hn h
        rw [hf.2.1, h0] at h1
        cases h1
      · rw [Command_forward env s command hn] at h
        exact forward_new_line env s t command h h0 h1

/-- C12: a text leaf with bytes `t`, on a target that accepts every write and
with a first-line indent of `n`: when the line-start flag is set the target
receives exactly `n` spaces followed by `t` and the offset advances by
`n + |t|`; when it is not set the target receives exactly `t` and the offset
advances by `|t|`; in both cases the flag is clear afterwards and the indent
value, like every other field of the context, is unchanged. And a callback
that sets the flag again is a paragraph, line, section or page break. -/
theorem text_leaf_emission (env : Env) (s : TextOutput) (t data : List Byte) (n : Nat)
    (ht : s.fTarget = some ⟨data, []⟩) (hn : s.fContext.first_line_indent = (n : Int)) :
    (∃ s1, s.Text t = .ok s1
        ∧ s1.fTarget = some ⟨data ++
            ((if s.fContext.new_line = true then List.replicate n 32 else []) ++ t), []⟩
        ∧ s1.fOffset = s.fOffset + (if s.fContext.new_line = true then n else 0) + t.length
        ∧ s1.fContext = { s.fContext with new_line := false }
        ∧ s1.fRuns = s.fRuns ∧ s1.fCurrentRun = s.fCurrentRun
        ∧ s1.fGroupStack = s.fGroupStack ∧ s1.fProcessRuns = s.fProcessRuns)
      ∧ ∀ (u u1 : TextOutput) (v : Visit), u.visit env v = .ok u1 →
          u.fContext.new_line = false → u1.fContext.new_line = true →
          ∃ command, v = Visit.Command command
            ∧ command.Name ∈ ["par", "line", "sect", "page"] := by
  refine ⟨?_, fun u u1 v h h0 h1 => visit_new_line env u u1 v h h0 h1⟩
  have hp : pending_indent s.fContext = if s.fContext.new_line = true then n else 0 := by
    simp [pending_indent, hn]
  have hr : List.replicate (pending_indent s.fContext) 32
      = if s.fContext.new_line = true then List.replicate n 32 else [] := by
    rw [hp]
    split_ifs <;> simp
  refine ⟨_, by rw [TextOutput.Text, ht, write_text_reliable], ?_⟩
  rw [hp] at hr
  simp only [hr, hp, true_and, and_self, Nat.add_assoc]

theorem text_leaf_emission_witness :
    (∃ s1, TextOutput.Text { TextOutput.new (some ⟨[], []⟩) true with
          fContext := { conversion_context.Reset with first_line_indent := 2 } } [72, 105]
          = .ok s1
        ∧ s1.fTarget = some ⟨[32, 32, 72, 105], []⟩ ∧ s1.fOffset = 4
        ∧ s1.fContext.new_line = false ∧ s1.fContext.first_line_indent = 2) := by
  obtain ⟨⟨s1, h1, h2, h3, h4, _⟩, _⟩ := text_leaf_emission sample_env
    { TextOutput.new (some ⟨[], []⟩) true with
      fContext := { conversion_context.Reset with first_line_indent := 2 } } [72, 105] [] 2
    rfl rfl
  refine ⟨s1, h1, ?_, ?_, ?_, ?_⟩
  · rw [h2]; rfl
  · rw [h3]; rfl
  · rw [h4]
  · rw [h4]

/-! ### Breaks and document variables -/

theorem wrap_int32_succ (x : Int) (h0 : -2147483648 ≤ x) (h1 : x < 2147483647) :
    wrap_int32 (x + 1) = x + 1 := by
  unfold wrap_int32
  omega

theorem process_command_page (garbage : Byte) (context : conversion_context)
    (command : Command) (target : Option Sink) (h : command.Name = "page") :
    process_command garbage context command target
      = next_line { context with page := wrap_int32 (context.page + 1) } [10, 10] target := by
  simp [process_command, h]

theorem process_command_sect (garbage : Byte) (context : conversion_context)
    (command : Command) (target : Option Sink) (h : command.Name = "sect") :
    process_command garbage context command target
      = next_line { context with section_ := wrap_int32 (context.section_ + 1) } [10]
          target := by
  simp [process_command, h]

/-- C13, the claim as stated fails: the commands `\pgnstarts2147483647` and
`\pgnrestart` bring the page counter to the largest `int32`; in that context a
page break does not leave the counter one higher: the incremented counter
wraps to the smallest `int32`. -/
theorem page_break_at_int32_max :
    ∃ s : TextOutput,
      TextOutput.run sample_env (TextOutput.new (some Sink.reliable) true)
          [.Command ⟨"pgnstarts", true, 2147483647⟩, .Command ⟨"pgnrestart", false, 0⟩]
        = .ok s
      ∧ s.fContext.page = 2147483647
      ∧ ∃ context1 : conversion_context,
          process_command 0 s.fContext ⟨"page", false, 0⟩ s.fTarget
            = .ok (2, context1, some ⟨[10, 10], []⟩)
          ∧ context1.page = -2147483648 ∧ context1.page ≠ s.fContext.page + 1 :=
  ⟨_, rfl, rfl, _, rfl, by decide, by decide⟩

/-- C13, amended: in every conversion context whose page counter is an `int32`
below the largest one, the page-break command raises the page counter by
exactly 1, emits exactly the two bytes `"\n\n"` (no indent padding, whatever
the pending indent) and sets the line-start flag, changing no other field of
the context; likewise the section-break command with the section counter and
the one byte `"\n"`. The counting mode returns the same count and context. -/
theorem break_commands_step (garbage : Byte) (context : conversion_context)
    (command : Command) (data : List Byte) :
    (command.Name = "page" → -2147483648 ≤ context.page → context.page < 2147483647 →
        process_command garbage context command (some ⟨data, []⟩)
          = .ok (2, { context with page := context.page + 1, new_line := true },
              some ⟨data ++ [10, 10], []⟩)
        ∧ process_command garbage context command none
          = .ok (2, { context with page := context.page + 1, new_line := true }, none))
      ∧ (command.Name = "sect" → -2147483648 ≤ context.section_ →
        context.section_ < 2147483647 →
        process_command garbage context command (some ⟨data, []⟩)
          = .ok (1, { context with section_ := context.section_ + 1, new_line := true },
              some ⟨data ++ [10], []⟩)
        ∧ process_command garbage context command none
          = .ok (1, { context with section_ := context.section_ + 1, new_line := true },
              none)) := by
  constructor
  · intro h h0 h1
    simp only [process_command_page _ _ _ _ h, next_line_reliable, next_line_counting,
      wrap_int32_succ _ h0 h1]
    exact ⟨rfl, rfl⟩
  · intro h h0 h1
    simp only [process_command_sect _ _ _ _ h, next_line_reliable, next_line_counting,
      wrap_int32_succ _ h0 h1]
    exact ⟨rfl, rfl⟩

theorem break_commands_step_witness :
    process_command 0 ⟨3, 7, 1, 4, true⟩ ⟨"page", false, 0⟩ (some ⟨[65], []⟩)
        = .ok (2, ⟨3, 8, 1, 4, true⟩, some ⟨[65, 10, 10], []⟩)
      ∧ process_command 0 ⟨3, 7, 1, 4, false⟩ ⟨"sect", false, 0⟩ (some ⟨[65], []⟩)
        = .ok (1, ⟨4, 7, 1, 4, true⟩, some ⟨[65, 10], []⟩) :=
  ⟨((break_commands_step 0 ⟨3, 7, 1, 4, true⟩ ⟨"page", false, 0⟩ [65]).1 rfl (by decide)
      (by decide)).1,
    ((break_commands_step 0 ⟨3, 7, 1, 4, false⟩ ⟨"sect", false, 0⟩ [65]).2 rfl (by decide)
      (by decide)).1⟩

/-! ### Decimal strings -/

theorem digitChar_toNat (k : Nat) (h : k < 10) : (Nat.digitChar k).toNat = 48 + k := by
  interval_cases k <;> rfl

theorem decimal_value_append (l : List Byte) (d : Byte) :
    decimal_value (l ++ [d]) = 10 * decimal_value l + (d - 48) := by
  simp [decimal_value, List.foldl_append]

theorem toDigitsCore_decimal : ∀ (fuel n : Nat) (ds : List Char), n < fuel →
    ∃ l : List Char, Nat.toDigitsCore 10 fuel n ds = l ++ ds ∧ l ≠ []
      ∧ (∀ b ∈ l.map Char.toNat, 48 ≤ b ∧ b ≤ 57)
      ∧ decimal_value (l.map Char.toNat) = n := by
  intro fuel
  induction fuel with
  | zero => intro n ds h; omega
  | succ fuel ih =>
    intro n ds h
    have hd := digitChar_toNat (n % 10) (Nat.mod_lt _ (by decide))
    unfold Nat.toDigitsCore
    simp only []
    by_cases h0 : n / 10 = 0
    · rw [if_pos h0]
      refine ⟨[Nat.digitChar (n % 10)], rfl, by simp, ?_, ?_⟩
      · intro b hb
        simp only [List.map_cons, List.map_nil, List.mem_singleton] at hb
        omega
      · simp only [List.map_cons, List.map_nil, decimal_value, List.foldl_cons,
          List.foldl_nil, hd]
        omega
    · rw [if_neg h0]
      obtain ⟨l, h1, _, h3, h4⟩ := ih (n / 10) (Nat.digitChar (n % 10) :: ds) (by omega)
      refine ⟨l ++ [Nat.digitChar (n % 10)], by simp [h1], by simp, ?_, ?_⟩
      · intro b hb
        simp only [List.map_append, List.map_cons, List.map_nil, List.mem_append,
          List.mem_singleton] at hb
        rcases hb with hb | hb
        · exact h3 b hb
        · omega
      · rw [List.map_append, List.map_cons, List.map_nil, decimal_value_append, h4, hd]
        omega

theorem cstr_repr (n : Nat) :
    ∃ l : List Byte, cstr (toString n) = l ∧ l ≠ [] ∧ (∀ b ∈ l, 48 ≤ b ∧ b ≤ 57)
      ∧ decimal_value l = n := by
  obtain ⟨l, h1, h2, h3, h4⟩ := toDigitsCore_decimal (n + 1) n [] (by omega)
  refine ⟨l.map Char.toNat, ?_, by simpa using h2, h3, h4⟩
  show cstr (Nat.repr n) = _
  simp only [cstr, Nat.repr, Nat.toDigits, h1, List.append_nil, List.asString]
  rfl

/-- What `snprintf` prints for `%d` is the decimal string of its argument. -/
theorem snprintf_d_is_decimal (n : Int) : is_decimal_of (snprintf_d n) n := by
  unfold is_decimal_of snprintf_d
  cases n with
  | ofNat m =>
    obtain ⟨l, h1, h2, h3, h4⟩ := cstr_repr m
    rw [if_pos (by simp)]
    have e : cstr (toString (Int.ofNat m)) = l := h1
    rw [e]
    exact ⟨h2, h3, by simp [h4]⟩
  | negSucc m =>
    obtain ⟨l, h1, h2, h3, h4⟩ := cstr_repr (m + 1)
    rw [if_neg (by simp [Int.negSucc_lt_zero])]
    refine ⟨l, ?_, h2, h3, ?_⟩
    · show cstr ("-" ++ toString (m + 1)) = _
      rw [← h1]
      simp [cstr]
    · rw [h4, Int.neg_negSucc]

/-- C14: in every conversion context, `sectnum` emits (behind the pending
indent, as every text emission) the decimal string of the section counter and
`chpgn` that of the page counter, a minus sign first when the counter is
negative, and neither changes a counter; `pgnstarts` sets the restart base to
its argument, or to 1 when it has none, and `pgnrestart` sets the page counter
to the restart base; both return 0 and leave the target as it is. -/
theorem document_variables (garbage : Byte) (context : conversion_context)
    (command : Command) :
    (command.Name = "sectnum" →
        (∀ data, process_command garbage context command (some ⟨data, []⟩)
          = .ok (pending_indent context + (snprintf_d context.section_).length,
              { context with new_line := false },
              some ⟨data ++ (List.replicate (pending_indent context) 32
                ++ snprintf_d context.section_), []⟩))
        ∧ is_decimal_of (snprintf_d context.section_) context.section_)
      ∧ (command.Name = "chpgn" →
        (∀ data, process_command garbage context command (some ⟨data, []⟩)
          = .ok (pending_indent context + (snprintf_d context.page).length,
              { context with new_line := false },
              some ⟨data ++ (List.replicate (pending_indent context) 32
                ++ snprintf_d context.page), []⟩))
        ∧ is_decimal_of (snprintf_d context.page) context.page)
      ∧ (command.Name = "pgnstarts" →
        ∀ target, process_command garbage context command target
          = .ok (0, { context with
              start_page := if command.HasOption = true then command.Option else 1 },
              target))
      ∧ (command.Name = "pgnrestart" →
        ∀ target, process_command garbage context command target
          = .ok (0, { context with page := context.start_page }, target)) := by
  refine ⟨fun h => ⟨fun data => ?_, snprintf_d_is_decimal _⟩,
    fun h => ⟨fun data => ?_, snprintf_d_is_decimal _⟩, fun h target => ?_,
    fun h target => ?_⟩
  · rw [← write_text_reliable]
    simp [process_command, h]
  · rw [← write_text_reliable]
    simp [process_command, h]
  · simp [process_command, h]
  · simp [process_command, h]

theorem document_variables_witness :
    process_command 0 ⟨-12, 7, 1, 2, true⟩ ⟨"sectnum", false, 0⟩ (some ⟨[65], []⟩)
        = .ok (5, ⟨-12, 7, 1, 2, false⟩, some ⟨[65, 32, 32, 45, 49, 50], []⟩)
      ∧ process_command 0 ⟨-12, 7, 1, 2, false⟩ ⟨"chpgn", false, 0⟩ (some ⟨[65], []⟩)
        = .ok (1, ⟨-12, 7, 1, 2, false⟩, some ⟨[65, 55], []⟩)
      ∧ process_command 0 ⟨-12, 7, 1, 2, false⟩ ⟨"pgnstarts", true, -3⟩ none
        = .ok (0, ⟨-12, 7, -3, 2, false⟩, none)
      ∧ process_command 0 ⟨-12, 7, 1, 2, false⟩ ⟨"pgnstarts", false, 0⟩ none
        = .ok (0, ⟨-12, 7, 1, 2, false⟩, none)
      ∧ process_command 0 ⟨-12, 7, -3, 2, false⟩ ⟨"pgnrestart", false, 0⟩ none
        = .ok (0, ⟨-12, -3, -3, 2, false⟩, none) :=
  ⟨((document_variables 0 ⟨-12, 7, 1, 2, true⟩ ⟨"sectnum", false, 0⟩).1 rfl).1 [65],
    ((document_variables 0 ⟨-12, 7, 1, 2, false⟩ ⟨"chpgn", false, 0⟩).2.1 rfl).1 [65],
    (document_variables 0 ⟨-12, 7, 1, 2, false⟩ ⟨"pgnstarts", true, -3⟩).2.2.1 rfl none,
    (document_variables 0 ⟨-12, 7, 1, 2, false⟩ ⟨"pgnstarts", false, 0⟩).2.2.1 rfl none,
    (document_variables 0 ⟨-12, 7, -3, 2, false⟩ ⟨"pgnrestart", false, 0⟩).2.2.2 rfl none⟩

/-! ### The end-to-end scenarios -/

/-- C15: for the document `{{\b X}Y}` the full pass writes `"XY"` and leaves a
run table of one entry, the bold run at offset 0, which is still the active
run behind the group: no run was active when the inner group was entered, the
group stack holds `NULL` for it, and its exit restores nothing, so `Y` is bold
and the run at offset 1 with the baseline face, which the claim lists, is not
there. When a run is active at the entry of the group, as in
`{\plain{\b X}Y}`, the exit of the group does restore the style: the run table
is the bold run at offset 0 and the regular run at offset 1. -/
theorem scenario_B_single_run :
    (∃ s : TextOutput,
      Worker.Work sample_env (TextOutput.new (some Sink.reliable) true)
          (scenario_B ⟨"b", false, -1⟩) = .ok s
      ∧ s.fTarget = some ⟨[88, 89], []⟩
      ∧ s.fRuns = [⟨0, ⟨"Noto Sans", B_BOLD_FACE, 12⟩, kBlack⟩]
      ∧ s.current = some ⟨0, ⟨"Noto Sans", B_BOLD_FACE, 12⟩, kBlack⟩
      ∧ s.fRuns.length = 1 ∧ s.fRuns.length ≠ 2)
      ∧ (∃ t : TextOutput,
        Worker.Work sample_env (TextOutput.new (some Sink.reliable) true)
            scenario_B_after_plain = .ok t
        ∧ t.fTarget = some ⟨[88, 89], []⟩
        ∧ t.fRuns = [⟨0, ⟨"Noto Sans", B_BOLD_FACE, 12⟩, kBlack⟩,
            ⟨1, ⟨"Noto Sans", B_REGULAR_FACE, 12⟩, kBlack⟩]) :=
  ⟨⟨_, rfl, rfl, rfl, rfl, rfl, by decide⟩, ⟨_, rfl, rfl, rfl⟩⟩

/-- Scenario B in every environment whose default font is regular, with every
bold-on command (`b` with an option other than 0) and every content of the
target before: the full pass appends `"XY"` and leaves a run table of exactly
one entry, the run at offset 0, black, in the default font with the bold face;
that run is still the active one behind the group. -/
theorem scenario_B_runs (env : Env) (hasOption : Bool) (option : Int) (data : List Byte)
    (hb : option ≠ 0) (hr : env.new_font.face = B_REGULAR_FACE) :
    ∃ s : TextOutput,
      Worker.Work env (TextOutput.new (some ⟨data, []⟩) true)
          (scenario_B ⟨"b", hasOption, option⟩) = .ok s
      ∧ s.fTarget = some ⟨data ++ [88, 89], []⟩ ∧ s.fOffset = 2
      ∧ s.fRuns = [⟨0, { env.new_font with face := B_BOLD_FACE }, kBlack⟩]
      ∧ s.fCurrentRun = some 0 := by
  have hf : set_font_face env.new_font B_BOLD_FACE (option != 0)
      = { env.new_font with face := B_BOLD_FACE } := by
    simp [set_font_face, set_font_face_value, BFont.SetFace, hr, hb, B_BOLD_FACE]
  have hw : Worker.Work env (TextOutput.new (some ⟨data, []⟩) true)
      (scenario_B ⟨"b", hasOption, option⟩)
      = .ok { fTarget := some ⟨data ++ [88, 89], []⟩, fOffset := 2,
              fContext := { conversion_context.Reset with new_line := false },
              fGroupStack := [], fProcessRuns := true,
              fRuns := [⟨0, { env.new_font with face := B_BOLD_FACE }, kBlack⟩],
              fCurrentRun := some 0 } := by
    simp [Worker.Work, Worker.Dispatch, Worker.DispatchAll, scenario_B, TextOutput.Group,
      TextOutput.GroupEnd, TextOutput.Command, TextOutput.Text, TextOutput.new,
      TextOutput.current, TextOutput.PrepareTextRun, TextOutput.assign, copy_text_run,
      write_text_reliable, pending_indent, conversion_context.Reset, text_runs_are_equal, hf]
  exact ⟨_, hw, rfl, rfl, rfl, rfl⟩

theorem scenario_B_runs_witness :
    ∃ s : TextOutput,
      Worker.Work sample_env (TextOutput.new (some ⟨[], []⟩) true)
          (scenario_B ⟨"b", false, -1⟩) = .ok s
      ∧ s.fTarget = some ⟨[] ++ [88, 89], []⟩ ∧ s.fOffset = 2
      ∧ s.fRuns = [⟨0, { sample_env.new_font with face := B_BOLD_FACE }, kBlack⟩]
      ∧ s.fCurrentRun = some 0 :=
  scenario_B_runs sample_env false (-1) [] (by decide) rfl

/-- C16, the claim as stated fails: for the document `\par Hi \par` the full
pass writes the four bytes newline, `H`, `i`, newline, not the three bytes
`"Hi\n"`: each of the two `par` commands emits its newline. -/
theorem scenario_A_leading_newline :
    ∃ s : TextOutput,
      Worker.Work sample_env (TextOutput.new (some Sink.reliable) true) scenario_A_document
        = .ok s
      ∧ s.fTarget = some ⟨[10, 72, 105, 10], []⟩
      ∧ s.fTarget ≠ some ⟨[72, 105, 10], []⟩ :=
  ⟨_, rfl, rfl, by decide⟩

/-- C16, amended: for the document made of the command `par`, then the text
`"Hi"`, then the command `par`, the full pass produces the plain text
`"\nHi\n"` (newline, H, i, newline; 4 bytes), an empty run table, and after
every callback of the pass the first-line indent is 0 and the run table is
empty. -/
theorem scenario_A_output (env : Env) :
    Worker.visits scenario_A_document = scenario_A
      ∧ (∃ s : TextOutput,
          Worker.Work env (TextOutput.new (some Sink.reliable) true) scenario_A_document
            = .ok s
          ∧ s.fTarget = some ⟨[10, 72, 105, 10], []⟩ ∧ s.fOffset = 4 ∧ s.fRuns = [])
      ∧ ∀ k : Nat, ∃ s : TextOutput,
          TextOutput.run env (TextOutput.new (some Sink.reliable) true) (scenario_A.take k)
            = .ok s
          ∧ s.fContext.first_line_indent = 0 ∧ s.fRuns = [] := by
  refine ⟨rfl, ⟨_, rfl, rfl, rfl, rfl⟩, fun k => ?_⟩
  rcases k with _ | _ | _ | _ | _ | k
  · exact ⟨_, rfl, rfl, rfl⟩
  · exact ⟨_, rfl, rfl, rfl⟩
  · exact ⟨_, rfl, rfl, rfl⟩
  · exact ⟨_, rfl, rfl, rfl⟩
  · exact ⟨_, rfl, rfl, rfl⟩
  · rw [List.take_of_length_le (by simp [scenario_A])]
    exact ⟨_, rfl, rfl, rfl⟩

/-! ### The first run -/

theorem first_style_command (vs : List Visit) :
    (∀ c, Visit.Command c ∈ vs → c.Name ∉ style_commands)
      ∨ ∃ pre c post, vs = pre ++ Visit.Command c :: post ∧ c.Name ∈ style_commands
          ∧ ∀ d, Visit.Command d ∈ pre → d.Name ∉ style_commands := by
  induction vs with
  | nil => left; intro c hc; cases hc
  | cons v vs ih =>
    have hsplit : (∃ c, v = Visit.Command c ∧ c.Name ∈ style_commands)
        ∨ ∀ c, v = Visit.Command c → c.Name ∉ style_commands := by
      cases v with
      | Command c =>
        by_cases hc : c.Name ∈ style_commands
        · exact Or.inl ⟨c, rfl, hc⟩
        · right; intro d hd; cases hd; exact hc
      | GroupEnter d => right; intro c hc; cases hc
      | GroupExit => right; intro c hc; cases hc
      | Text b => right; intro c hc; cases hc
    rcases hsplit with ⟨c, hv, hc⟩ | hv
    · right
      refine ⟨[], c, vs, by rw [hv]; rfl, hc, ?_⟩
      intro d hd; cases hd
    · rcases ih with h | ⟨pre, c, post, h1, h2, h3⟩
      · left
        intro c hc
        rcases List.mem_cons.mp hc with e | e
        · exact hv c e.symm
        · exact h c e
      · right
        refine ⟨v :: pre, c, post, by rw [h1]; rfl, h2, ?_⟩
        intro d hd
        rcases List.mem_cons.mp hd with e | e
        · exact hv d e.symm
        · exact h3 d e

theorem unstyled_current (s : TextOutput) (h : s.Unstyled) : s.current = none := by
  simp [TextOutput.current, h.2.1]

theorem unstyled_visit (env : Env) (s t : TextOutput) (v : Visit) (h : s.Unstyled)
    (hn : ∀ c, v = Visit.Command c → c.Name ∉ style_commands)
    (hv : TextOutput.visit env s v = .ok t) : t.Unstyled := by
  obtain ⟨h1, h2, h3⟩ := h
  cases v with
  | GroupEnter d =>
    simp only [TextOutput.visit, Except.ok.injEq] at hv
    rw [← hv]
    unfold TextOutput.Group
    split_ifs
    · exact ⟨h1, h2, h3⟩
    · exact ⟨h1, h2, h3⟩
    · refine ⟨h1, h2, ?_⟩
      intro x hx
      simp only [unstyled_current s ⟨h1, h2, h3⟩, List.mem_cons] at hx
      rcases hx with e | e
      · exact e
      · exact h3 x e
  | GroupExit =>
    simp only [TextOutput.visit, Except.ok.injEq] at hv
    rw [← hv]
    unfold TextOutput.GroupEnd
    by_cases hp : s.fProcessRuns = false
    · rw [if_pos hp]; exact ⟨h1, h2, h3⟩
    · rw [if_neg hp]
      have hl : s.fGroupStack.head?.join = none := by
        cases hs : s.fGroupStack with
        | nil => rfl
        | cons a rest =>
          have := h3 a (by rw [hs]; exact List.mem_cons_self _ _)
          simp [this]
      have hc : TextOutput.current { s with fGroupStack := s.fGroupStack.tail } = none := by
        simp [TextOutput.current, h2]
      simp only [hl, hc, text_runs_are_equal]
      refine ⟨h1, h2, ?_⟩
      intro x hx
      exact h3 x (List.mem_of_mem_tail hx)
  | Command c =>
    simp only [TextOutput.visit] at hv
    rw [Command_forward env s c (hn c rfl)] at hv
    obtain ⟨e1, e2, e3, _, _⟩ := forward_frame env s t c hv
    exact ⟨by rw [e1, h1], by rw [e2, h2], by rw [e3]; exact h3⟩
  | Text b =>
    obtain ⟨e1, e2, e3, _, _⟩ := Text_frame s t b hv
    exact ⟨by rw [e1, h1], by rw [e2, h2], by rw [e3]; exact h3⟩

theorem unstyled_run (env : Env) (vs : List Visit) (s t : TextOutput) (h : s.Unstyled)
    (hn : ∀ c, Visit.Command c ∈ vs → c.Name ∉ style_commands)
    (hr : TextOutput.run env s vs = .ok t) : t.Unstyled := by
  induction vs generalizing s with
  | nil =>
    simp only [TextOutput.run, Except.ok.injEq] at hr
    rw [← hr]; exact h
  | cons v vs ih =>
    simp only [TextOutput.run] at hr
    cases hv : TextOutput.visit env s v with
    | error e => rw [hv] at hr; cases hr
    | ok s1 =>
      rw [hv] at hr
      refine ih s1 (unstyled_visit env s s1 v h ?_ hv) ?_ hr
      · intro c hc
        exact hn c (by rw [hc]; exact List.mem_cons_self _ _)
      · intro c hc
        exact hn c (List.mem_cons_of_mem _ hc)

theorem prepare_offsets (env : Env) (s : TextOutput) (run : Option text_run) :
    (s.PrepareTextRun env run).offsets = s.offsets
      ∨ (s.PrepareTextRun env run).offsets = s.offsets ++ [s.fOffset] := by
  unfold TextOutput.PrepareTextRun
  cases run with
  | none => right; simp [TextOutput.offsets]
  | some r =>
    by_cases h : s.fOffset = r.offset
    · left; simp [h]
    · right; simp [h, TextOutput.offsets]

theorem GroupEnd_offsets (s : TextOutput) :
    s.GroupEnd.offsets = s.offsets ∨ s.GroupEnd.offsets = s.offsets ++ [s.fOffset] := by
  unfold TextOutput.GroupEnd
  by_cases hp : s.fProcessRuns = false
  · rw [if_pos hp]; exact Or.inl rfl
  · rw [if_neg hp]
    generalize s.fGroupStack.head?.join = last
    simp only []
    split_ifs with heq
    · cases hc : TextOutput.current { s with fGroupStack := s.fGroupStack.tail } with
      | none =>
        cases last with
        | none => exact Or.inl rfl
        | some l => right; simp [TextOutput.offsets]
      | some cur =>
        cases last with
        | none => exact Or.inl rfl
        | some l =>
          simp only []
          split_ifs with ho
          · left
            exact assign_offsets { s with fGroupStack := s.fGroupStack.tail } _ (fun _ => rfl)
          · right; simp [TextOutput.offsets]
    · exact Or.inl rfl

theorem started_of_offsets (s t : TextOutput) (h : s.Started) (hle : s.fOffset ≤ t.fOffset)
    (ho : t.offsets = s.offsets ∨ t.offsets = s.offsets ++ [s.fOffset]) : t.Started := by
  refine ⟨Nat.lt_of_lt_of_le h.1 hle, ?_⟩
  intro o hm
  rcases ho with e | e
  · rw [e] at hm; exact h.2 o hm
  · rw [e] at hm
    rcases List.mem_append.mp hm with hm | hm
    · exact h.2 o hm
    · simp only [List.mem_singleton] at hm
      rw [hm]; exact h.1

theorem started_visit (env : Env) (s t : TextOutput) (v : Visit) (h : s.Started)
    (hv : TextOutput.visit env s v = .ok t) : t.Started := by
  cases v with
  | GroupEnter d =>
    simp only [TextOutput.visit, Except.ok.injEq] at hv
    rw [← hv]
    apply started_of_offsets s _ h (le_of_eq (Group_frame env s d).1.symm)
    left
    unfold TextOutput.Group
    split_ifs <;> rfl
  | GroupExit =>
    simp only [TextOutput.visit, Except.ok.injEq] at hv
    rw [← hv]
    exact started_of_offsets s _ h (le_of_eq (GroupEnd_frame s).1.symm) (GroupEnd_offsets s)
  | Command c =>
    simp only [TextOutput.visit] at hv
    by_cases hn : c.Name ∈ style_commands
    · cases hp : s.fProcessRuns with
      | false =>
        rw [Command_counting env s c hp] at hv
        obtain ⟨e1, _, _, _, e5⟩ := forward_frame env s t c hv
        exact started_of_offsets s t h e5 (Or.inl (by simp [TextOutput.offsets, e1]))
      | true =>
        have hf := Command_style_frame env s t c hp hn hv
        apply started_of_offsets s t h (le_of_eq hf.1.symm)
        rcases Command_style env s c hp hn with ⟨_, _, he⟩ | ⟨f, hf, he⟩
        · rw [he] at hv
          simp only [Except.ok.injEq] at hv
          rw [← hv]; exact Or.inl rfl
        · rw [he] at hv
          simp only [Except.ok.injEq] at hv
          rw [← hv, assign_offsets _ f hf]
          exact prepare_offsets env s s.current
    · rw [Command_forward env s c hn] at hv
      obtain ⟨e1, _, _, _, e5⟩ := forward_frame env s t c hv
      exact started_of_offsets s t h e5 (Or.inl (by simp [TextOutput.offsets, e1]))
  | Text b =>
    obtain ⟨e1, _, _, _, e5⟩ := Text_frame s t b hv
    exact started_of_offsets s t h e5 (Or.inl (by simp [TextOutput.offsets, e1]))

theorem started_run (env : Env) (vs : List Visit) (s t : TextOutput) (h : s.Started)
    (hr : TextOutput.run env s vs = .ok t) : t.Started := by
  induction vs generalizing s with
  | nil =>
    simp only [TextOutput.run, Except.ok.injEq] at hr
    rw [← hr]; exact h
  | cons v vs ih =>
    simp only [TextOutput.run] at hr
    cases hv : TextOutput.visit env s v with
    | error e => rw [hv] at hr; cases hr
    | ok s1 =>
      rw [hv] at hr
      exact ih s1 (started_visit env s s1 v h hv) hr

/-- C17, the claim as stated fails: for the document `{\b0 X}` the run table
has an entry at offset 0 whose style is the default baseline, black and in the
default font: bold-off as the first command creates the run and leaves its
face regular. -/
theorem baseline_run_at_start :
    ∃ (s : TextOutput) (r : text_run),
      Worker.Work sample_env (TextOutput.new (some Sink.reliable) true) bold_off_first
        = .ok s
      ∧ s.fRuns = [r] ∧ r.offset = 0 ∧ r.color = kBlack ∧ r.font = sample_env.new_font :=
  ⟨_, _, rfl, rfl, rfl, rfl, rfl⟩

/-- C17, amended: for every document tree, if the run table produced by the
forward pass has an entry at offset 0, then the first style command of the
document was executed while the text offset was still 0 and the run table was
still empty; the style of the entry is whatever the style commands at offset 0
assigned, and may equal the default baseline. -/
theorem first_run_needs_style_command (env : Env) (target : Option Sink) (root : Element)
    (s : TextOutput) (r : text_run)
    (hw : Worker.Work env (TextOutput.new target true) root = .ok s)
    (hr : r ∈ s.fRuns) (h0 : r.offset = 0) :
    ∃ pre c post s0, Worker.visits root = pre ++ Visit.Command c :: post
      ∧ c.Name ∈ style_commands
      ∧ (∀ d, Visit.Command d ∈ pre → d.Name ∉ style_commands)
      ∧ TextOutput.run env (TextOutput.new target true) pre = .ok s0
      ∧ s0.fOffset = 0 ∧ s0.fRuns = [] := by
  rw [Work_eq_run] at hw
  have hnew : (TextOutput.new target true).Unstyled := by
    refine ⟨rfl, rfl, ?_⟩
    intro x hx; cases hx
  rcases first_style_command (Worker.visits root) with hn | ⟨pre, c, post, h1, h2, h3⟩
  · have := (unstyled_run env _ _ s hnew hn hw).1
    rw [this] at hr
    cases hr
  · rw [h1, run_append] at hw
    cases hp : TextOutput.run env (TextOutput.new target true) pre with
    | error e => rw [hp] at hw; cases hw
    | ok s0 =>
      rw [hp] at hw
      have hu := unstyled_run env pre _ s0 hnew h3 hp
      refine ⟨pre, c, post, s0, h1, h2, h3, hp, ?_, hu.1⟩
      by_contra hne
      have hs : s0.Started := by
        refine ⟨Nat.pos_of_ne_zero hne, ?_⟩
        intro o ho
        simp [TextOutput.offsets, hu.1] at ho
      have := (started_run env _ s0 s hs hw).2 r.offset
        (List.mem_map_of_mem text_run.offset hr)
      omega

theorem first_run_needs_style_command_witness :
    ∃ pre c post s0, Worker.visits bold_off_first = pre ++ Visit.Command c :: post
      ∧ c.Name ∈ style_commands
      ∧ (∀ d, Visit.Command d ∈ pre → d.Name ∉ style_commands)
      ∧ TextOutput.run sample_env (TextOutput.new (some Sink.reliable) true) pre = .ok s0
      ∧ s0.fOffset = 0 ∧ s0.fRuns = [] := by
  have hw : Worker.Work sample_env (TextOutput.new (some Sink.reliable) true) bold_off_first
      = .ok { fTarget := some ⟨[88], []⟩, fOffset := 1,
              fContext := { conversion_context.Reset with new_line := false },
              fGroupStack := [], fProcessRuns := true,
              fRuns := [⟨0, sample_env.new_font, kBlack⟩], fCurrentRun := some 0 } := rfl
  exact first_run_needs_style_command sample_env (some Sink.reliable) bold_off_first _
    ⟨0, sample_env.new_font, kBlack⟩ hw (List.mem_singleton.mpr rfl) rfl

/-! ### The layout of the container -/

theorem write_all_append (a b : List (List Byte)) (k : Sink) :
    write_all (a ++ b) k
      = match write_all a k with
        | .error e => .error e
        | .ok k1 => write_all b k1 := by
  induction a generalizing k with
  | nil => rfl
  | cons x a ih =>
    simp only [List.cons_append, write_all]
    cases write_checked k x with
    | error e => rfl
    | ok k1 => exact ih k1

theorem write_indent_eq (n : Nat) (k : Sink) :
    write_indent n k = write_all (List.replicate n [32]) k := by
  induction n generalizing k with
  | zero => rfl
  | succ n ih =>
    simp only [write_indent, List.replicate_succ, write_all]
    cases write_checked k [32] with
    | error e => rfl
    | ok k1 => exact ih k1

theorem write_text_eq (context : conversion_context) (text : List Byte) (k : Sink) :
    write_text context text (some k)
      = match write_all (List.replicate (pending_indent context) [32] ++ [text]) k with
        | .error e => .error e
        | .ok k2 => .ok (pending_indent context + text.length,
            { context with new_line := false }, some k2) := by
  have hc : (if context.new_line = true then { context with new_line := false } else context)
      = { context with new_line := false } := by
    cases hn : context.new_line
    · simp [← hn]
    · simp
  unfold write_text
  rw [hc, write_all_append, ← write_indent_eq]
  simp only [pending_indent]
  cases write_indent (if context.new_line = true then context.first_line_indent.toNat else 0)
      k with
  | error e => rfl
  | ok k1 =>
    simp only [write_all]
    cases write_checked k1 text with
    | error e => rfl
    | ok k2 => rfl

theorem next_line_eq (context : conversion_context) (pfx : List Byte) (k : Sink) :
    next_line context pfx (some k)
      = match write_all [pfx] k with
        | .error e => .error e
        | .ok k1 => .ok (pfx.length, { context with new_line := true }, some k1) := by
  simp only [next_line, write_all]
  cases write_checked k pfx with
  | error e => rfl
  | ok k1 => rfl

/-- On a target, `process_command` issues a sequence of writes that does not
depend on what the target answers, and stops at the first one that fails. -/
theorem process_command_writes (garbage : Byte) (context : conversion_context)
    (command : Command) :
    ∃ (buffers : List (List Byte)) (n : Nat) (context1 : conversion_context), ∀ k : Sink,
      process_command garbage context command (some k)
        = match write_all buffers k with
          | .error e => .error e
          | .ok k1 => .ok (n, context1, some k1) := by
  rcases process_command_shape garbage context command with
    ⟨c1, pfx, h⟩ | ⟨text, h⟩ | ⟨c1, h⟩
  · exact ⟨[pfx], _, _, fun k => by rw [h, next_line_eq]⟩
  · exact ⟨_, _, _, fun k => by rw [h, write_text_eq]⟩
  · exact ⟨[], 0, c1, fun k => by rw [h]; rfl⟩

theorem retarget_current (s : TextOutput) (k : Sink) : (s.retarget k).current = s.current :=
  rfl

theorem retarget_assign (s : TextOutput) (k : Sink) (f : text_run → text_run) :
    (s.retarget k).assign f = (s.assign f).retarget k := by
  unfold TextOutput.assign TextOutput.retarget
  cases h1 : s.fCurrentRun with
  | none => simp [h1]
  | some i =>
    cases h2 : s.fRuns[i]? with
    | none => simp [h1, h2]
    | some r => simp [h1, h2]

theorem retarget_prepare (env : Env) (s : TextOutput) (k : Sink) (run : Option text_run) :
    (s.retarget k).PrepareTextRun env run = (s.PrepareTextRun env run).retarget k := by
  unfold TextOutput.PrepareTextRun TextOutput.retarget
  cases run with
  | none => rfl
  | some r => by_cases h : s.fOffset = r.offset <;> simp [h]

theorem retarget_Group (env : Env) (s : TextOutput) (k : Sink) (d : Destination) :
    (TextOutput.Group env (s.retarget k) d).2 = (TextOutput.Group env s d).2.retarget k := by
  have e : (s.retarget k).fProcessRuns = s.fProcessRuns := rfl
  unfold TextOutput.Group
  simp only [retarget_current, e]
  split_ifs <;> rfl

theorem retarget_GroupEnd (s : TextOutput) (k : Sink) :
    (s.retarget k).GroupEnd = s.GroupEnd.retarget k := by
  obtain ⟨tg, off, ctx, stack, pr, runs, cur⟩ := s
  cases pr with
  | false => rfl
  | true =>
    simp only [TextOutput.GroupEnd, TextOutput.retarget, TextOutput.current]
    generalize stack.head?.join = last
    cases cur with
    | none =>
      cases last with
      | none => rfl
      | some l => rfl
    | some i =>
      cases hr : runs[i]? with
      | none =>
        cases last with
        | none => simp [hr, text_runs_are_equal]
        | some l => simp [hr, text_runs_are_equal]
      | some r =>
        cases last with
        | none => simp [hr, text_runs_are_equal]
        | some l =>
          simp only [hr, text_runs_are_equal, TextOutput.assign]
          split_ifs <;> simp [hr]

theorem retarget_forward (env : Env) (s : TextOutput) (command : Command) :
    ∃ (buffers : List (List Byte)) (t : TextOutput), ∀ k : Sink,
      (s.retarget k).forward env command
        = match write_all buffers k with
          | .error e => .error e
          | .ok k1 => .ok (t.retarget k1) := by
  obtain ⟨buffers, n, c1, h⟩ := process_command_writes env.garbage s.fContext command
  refine ⟨buffers, { s with fOffset := s.fOffset + n, fContext := c1 }, fun k => ?_⟩
  have e1 : (s.retarget k).fContext = s.fContext := rfl
  have e2 : (s.retarget k).fTarget = some k := rfl
  unfold TextOutput.forward
  rw [e1, e2, h k]
  cases write_all buffers k with
  | error e => rfl
  | ok k1 => rfl

theorem retarget_Text (s : TextOutput) (text : List Byte) :
    ∃ (buffers : List (List Byte)) (t : TextOutput), ∀ k : Sink,
      (s.retarget k).Text text
        = match write_all buffers k with
          | .error e => .error e
          | .ok k1 => .ok (t.retarget k1) := by
  refine ⟨List.replicate (pending_indent s.fContext) [32] ++ [text],
    TextOutput.mk s.fTarget (s.fOffset + (pending_indent s.fContext + text.length))
    { s.fContext with new_line := false } s.fGroupStack s.fProcessRuns s.fRuns s.fCurrentRun,
    fun k => ?_⟩
  have e1 : (s.retarget k).fContext = s.fContext := rfl
  have e2 : (s.retarget k).fTarget = some k := rfl
  unfold TextOutput.Text
  rw [e1, e2, write_text_eq]
  cases write_all (List.replicate (pending_indent s.fContext) [32] ++ [text]) k with
  | error e => rfl
  | ok k1 => rfl

theorem retarget_Command_style (env : Env) (s t : TextOutput) (k : Sink) (command : Command)
    (hp : s.fProcessRuns = true) (hn : command.Name ∈ style_commands)
    (ht : TextOutput.Command env s command = .ok t) :
    TextOutput.Command env (s.retarget k) command = .ok (t.retarget k) := by
  have hp2 : (s.retarget k).fProcessRuns = true := hp
  unfold TextOutput.Command at ht ⊢
  rw [if_neg (by simp [hp])] at ht
  rw [if_neg (by simp [hp2])]
  simp only [retarget_current, retarget_prepare, retarget_assign] at ht ⊢
  split_ifs at ht ⊢ with h1 h2 h3 h4 h5 h6 h7 h8
  · simp only [Except.ok.injEq] at ht; rw [← ht]
  · simp only [Except.ok.injEq] at ht; rw [← ht]
  · simp only [Except.ok.injEq] at ht; rw [← ht]
  · simp only [Except.ok.injEq] at ht; rw [← ht]
  · simp only [Except.ok.injEq] at ht; rw [← ht]
  · simp only [Except.ok.injEq] at ht; rw [← ht]
  · simp only [Except.ok.injEq] at ht; rw [← ht]
  · cases hf : env.fonttbl with
    | none =>
      rw [hf] at ht
      simp only [Except.ok.injEq] at ht ⊢
      rw [← ht]
    | some fonts =>
      rw [hf] at ht
      simp only [Except.ok.injEq] at ht ⊢
      rw [← ht]
  · exfalso
    simp only [style_commands, List.mem_cons, List.mem_singleton, List.not_mem_nil,
      or_false] at hn
    tauto

theorem retarget_Command (env : Env) (s : TextOutput) (command : Command) :
    ∃ (buffers : List (List Byte)) (t : TextOutput), ∀ k : Sink,
      TextOutput.Command env (s.retarget k) command
        = match write_all buffers k with
          | .error e => .error e
          | .ok k1 => .ok (t.retarget k1) := by
  by_cases hn : command.Name ∈ style_commands
  · cases hp : s.fProcessRuns with
    | false =>
      obtain ⟨buffers, t, h⟩ := retarget_forward env s command
      exact ⟨buffers, t, fun k => by rw [Command_counting env _ command (by exact hp), h k]⟩
    | true =>
      obtain ⟨t, ht⟩ := Command_total_style env s command hp hn
      exact ⟨[], t, fun k => retarget_Command_style env s t k command hp hn ht⟩
  · obtain ⟨buffers, t, h⟩ := retarget_forward env s command
    exact ⟨buffers, t, fun k => by rw [Command_forward env _ command hn, h k]⟩

/-- Every callback issues, on a target, a sequence of writes that does not
depend on what the target answers, and stops at the first one that fails. -/
theorem visit_writes (env : Env) (s : TextOutput) (v : Visit) :
    ∃ (buffers : List (List Byte)) (t : TextOutput), ∀ k : Sink,
      TextOutput.visit env (s.retarget k) v
        = match write_all buffers k with
          | .error e => .error e
          | .ok k1 => .ok (t.retarget k1) := by
  cases v with
  | GroupEnter d =>
    exact ⟨[], (TextOutput.Group env s d).2, fun k => by
      simp only [TextOutput.visit, retarget_Group, write_all]⟩
  | GroupExit =>
    exact ⟨[], s.GroupEnd, fun k => by
      simp only [TextOutput.visit, retarget_GroupEnd, write_all]⟩
  | Command c => exact retarget_Command env s c
  | Text b => exact retarget_Text s b

theorem run_writes (env : Env) (vs : List Visit) : ∀ s : TextOutput,
    ∃ (buffers : List (List Byte)) (t : TextOutput), ∀ k : Sink,
      TextOutput.run env (s.retarget k) vs
        = match write_all buffers k with
          | .error e => .error e
          | .ok k1 => .ok (t.retarget k1) := by
  induction vs with
  | nil => intro s; exact ⟨[], s, fun k => rfl⟩
  | cons v vs ih =>
    intro s
    obtain ⟨b1, t1, h1⟩ := visit_writes env s v
    obtain ⟨b2, t2, h2⟩ := ih t1
    refine ⟨b1 ++ b2, t2, fun k => ?_⟩
    simp only [TextOutput.run, h1 k, write_all_append]
    cases write_all b1 k with
    | error e => rfl
    | ok k1 => exact h2 k1

theorem write_checked_cases (k : Sink) (text : List Byte) :
    ((k.Write text).1 = text.length ∧ write_checked k text = .ok (k.Write text).2)
      ∨ (((k.Write text).1 < 0 ∨ (k.Write text).1 ≠ text.length)
        ∧ write_checked k text
          = .error (if (k.Write text).1 < 0 then (k.Write text).1 else B_IO_ERROR,
              (k.Write text).2)) := by
  unfold write_checked
  simp only [B_OK]
  by_cases h1 : (k.Write text).1 < 0
  · right
    simp [h1]
  · by_cases h2 : (k.Write text).1 = text.length
    · left
      simp [h1, h2]
    · right
      simp [h1, h2]

theorem write_or_return_eq (k : Sink) (data : List Byte) :
    write_or_return k data
      = match write_checked k data with
        | .error e => (some e.1, e.2)
        | .ok k1 => (none, k1) := by
  unfold write_or_return write_checked
  simp only []
  split_ifs <;> rfl

/-- The first write of a sequence that fails ends the sequence: the status is
the negative return value, or `B_IO_ERROR`, and the target is left as that
write left it. -/
theorem write_all_first_failure (pre post : List (List Byte)) (buffer : List Byte)
    (k before : Sink) (hp : write_all pre k = .ok before)
    (hf : (before.Write buffer).1 < 0 ∨ (before.Write buffer).1 ≠ buffer.length) :
    write_all (pre ++ buffer :: post) k
      = .error (if (before.Write buffer).1 < 0 then (before.Write buffer).1 else B_IO_ERROR,
          (before.Write buffer).2) := by
  rw [write_all_append, hp]
  simp only [write_all]
  rcases write_checked_cases before buffer with ⟨h1, _⟩ | ⟨_, h2⟩
  · rcases hf with hf | hf
    · rw [h1] at hf
      omega
    · exact absurd h1 hf
  · rw [h2]

theorem failure_status (r : Int) : (if r < 0 then r else B_IO_ERROR) ≠ B_OK := by
  split_ifs with h
  · simp only [B_OK]; omega
  · decide

/-- On every target `convert_to_stxt` issues one fixed sequence of writes, and
the first of them that fails ends the conversion. -/
theorem convert_to_stxt_writes (env : Env) (codec : RunArrayCodec) (root : Element) :
    ∃ writes : List (List Byte), ∀ target : Sink,
      convert_to_stxt env codec root target
        = match write_all writes target with
          | .error e => (e.1, e.2)
          | .ok target1 => (B_OK, target1) := by
  obtain ⟨sc, hc⟩ := counting_pass_total env root
  obtain ⟨body, t, ht⟩ := run_writes env (Worker.visits root) (TextOutput.new none true)
  refine ⟨stream_header_bytes :: text_header_bytes sc.Length
    :: (body ++ [style_header_bytes (t.FlattenedRunArray codec).length sc.Length,
      t.FlattenedRunArray codec]), fun target => ?_⟩
  simp only [convert_to_stxt, hc, write_or_return_eq, write_all]
  cases write_checked target stream_header_bytes with
  | error e => rfl
  | ok target1 =>
    simp only []
    cases write_checked target1 (text_header_bytes sc.Length) with
    | error e => rfl
    | ok target2 =>
      have hw : Worker.Work env (TextOutput.new (some target2) true) root
          = TextOutput.run env ((TextOutput.new none true).retarget target2)
              (Worker.visits root) := Work_eq_run env _ root
      simp only [hw, ht target2, write_all_append]
      cases write_all body target2 with
      | error e => rfl
      | ok target3 =>
        have e1 : (t.retarget target3).fTarget.getD target2 = target3 := rfl
        have e2 : (t.retarget target3).FlattenedRunArray codec = t.FlattenedRunArray codec :=
          rfl
        simp only [e1, e2, write_all]
        cases write_checked target3
            (style_header_bytes (t.FlattenedRunArray codec).length sc.Length) with
        | error e => rfl
        | ok target4 =>
          simp only []
          cases write_checked target4 (t.FlattenedRunArray codec) with
          | error e => rfl
          | ok target5 => rfl

/-- C19: for every document tree, `convert_to_stxt` issues one fixed sequence
of writes (the two headers, the indent spaces, text pieces and line breaks of
the full pass, the style header, the run array), whatever the target answers;
on every target, if the writes before one of them succeeded and that one
returns a negative value or a count other than the one requested,
`convert_to_stxt` returns a status other than `B_OK` (the negative value, or
`B_IO_ERROR`) and the target is left as the failing write left it: no further
write is issued. -/
theorem conversion_fails_fast (env : Env) (codec : RunArrayCodec) (root : Element) :
    ∃ writes : List (List Byte),
      (∀ target : Sink,
        convert_to_stxt env codec root target
          = match write_all writes target with
            | .error e => (e.1, e.2)
            | .ok target1 => (B_OK, target1))
      ∧ ∀ (target before : Sink) (pre post : List (List Byte)) (buffer : List Byte),
          writes = pre ++ buffer :: post → write_all pre target = .ok before →
          ((before.Write buffer).1 < 0 ∨ (before.Write buffer).1 ≠ buffer.length) →
          convert_to_stxt env codec root target
              = (if (before.Write buffer).1 < 0 then (before.Write buffer).1 else B_IO_ERROR,
                  (before.Write buffer).2)
            ∧ (convert_to_stxt env codec root target).1 ≠ B_OK := by
  obtain ⟨writes, h⟩ := convert_to_stxt_writes env codec root
  refine ⟨writes, h, ?_⟩
  intro target before pre post buffer hw hp hf
  have := write_all_first_failure pre post buffer target before hp hf
  rw [h target, hw, this]
  exact ⟨rfl, failure_status _⟩

/-- The text write of the document `Hi` fails: with an error code after the two
headers were taken, and with a short count. In both cases the conversion
returns at once and the replies scripted for later writes stay unused. -/
theorem failing_text_write :
    convert_to_stxt sample_env sample_codec (text_document [72, 105]) ⟨[], [16, 16, -5, 7]⟩
        = (-5, ⟨stream_header_bytes ++ text_header_bytes 2, [7]⟩)
      ∧ convert_to_stxt sample_env sample_codec (text_document [72, 105]) ⟨[], [16, 16, 1, 7]⟩
        = (B_IO_ERROR, ⟨stream_header_bytes ++ text_header_bytes 2 ++ [72], [7]⟩) :=
  ⟨by decide, by decide⟩

theorem conversion_fails_fast_witness :
    ∃ writes : List (List Byte), ∀ target : Sink,
      convert_to_stxt sample_env sample_codec (text_document [72, 105]) target
        = match write_all writes target with
          | .error e => (e.1, e.2)
          | .ok target1 => (B_OK, target1) := by
  obtain ⟨writes, h, _⟩ := conversion_fails_fast sample_env sample_codec
    (text_document [72, 105])
  exact ⟨writes, h⟩

/-! ### Headers the reader does not check -/

/-- The reading part of `convert_styled_text_to_rtf` accepts a stream without a
style section whatever its stream header holds and whatever the magic, the
header size and the character set of its text header are: it returns no error
status, with the text the reading loop reassembles. -/
theorem read_ignores_headers (codec : RunArrayCodec) (memory text : List Byte)
    (m1 s1 d1 v1 m2 s2 c2 : Nat) (ht : text.length < 4294967296) :
    read_styled_text codec memory
        ⟨(be32 m1 ++ be32 s1 ++ be32 d1 ++ be32 v1)
          ++ (be32 m2 ++ be32 s2 ++ be32 text.length ++ be32 c2) ++ text, 0⟩
      = .ok ⟨reassembled (text.length + 1) memory text, none⟩ := by
  generalize hA : be32 m1 ++ be32 s1 ++ be32 d1 ++ be32 v1 = A
  generalize hB : be32 m2 ++ be32 s2 ++ be32 text.length ++ be32 c2 = B
  have l1 : A.length = sizeof_stream_header := by rw [← hA]; rfl
  have l2 : B.length = sizeof_text_header := by rw [← hB]; rfl
  have h1 : Source.Read ⟨A ++ B ++ text, 0⟩ sizeof_stream_header
      = (A, ⟨A ++ B ++ text, 0 + sizeof_stream_header⟩) :=
    Source.Read_exact (A ++ B ++ text) [] A (B ++ text) 0 sizeof_stream_header
      (by simp [List.append_assoc]) rfl l1.symm
  have h2 : Source.Read ⟨A ++ B ++ text, 0 + sizeof_stream_header⟩ sizeof_text_header
      = (B, ⟨A ++ B ++ text, 0 + sizeof_stream_header + sizeof_text_header⟩) :=
    Source.Read_exact (A ++ B ++ text) A B text _ sizeof_text_header rfl
      (by simp [l1]) l2.symm
  have hsize : from_be32 ((B.drop 8).take 4) = text.length := by
    have : (B.drop 8).take 4 = be32 text.length := by
      rw [← hB]
      simp [be32]
    rw [this, from_be32_be32 _ ht]
  have hp : (A ++ B).length = 0 + sizeof_stream_header + sizeof_text_header := by
    rw [List.length_append, l1, l2, Nat.zero_add]
  have h3 : ∃ m, read_text_loop (text.length + 1) text.length
      ⟨A ++ B ++ text, 0 + sizeof_stream_header + sizeof_text_header⟩ memory [] 0
      = (reassembled (text.length + 1) memory text, text.length,
          ⟨A ++ B ++ text, 0 + sizeof_stream_header + sizeof_text_header + text.length⟩,
          m) := by
    obtain ⟨m, h3⟩ := read_text_loop_spec (text.length + 1) (A ++ B ++ text)
      (A ++ B) text [] memory [] 0 (by simp) (Nat.lt_succ_self _)
    refine ⟨m, ?_⟩
    rw [hp] at h3
    simpa using h3
  obtain ⟨m, h3⟩ := h3
  have h4 : Source.Read
      ⟨A ++ B ++ text, 0 + sizeof_stream_header + sizeof_text_header + text.length⟩
      sizeof_style_header
      = ([], ⟨A ++ B ++ text, 0 + sizeof_stream_header + sizeof_text_header + text.length
          + 0⟩) := by
    have := Source.Read_at (A ++ B ++ text) (A ++ B ++ text) [] sizeof_style_header (by simp)
    rw [List.length_append, hp] at this
    simpa using this
  unfold read_styled_text
  simp only [h1, l1, ne_eq, not_true_eq_false, if_false, h2, l2, hsize, h3, h4,
    List.length_nil]
  simp [sizeof_style_header]

/-- C20: the stream `zero_magic_stream` has a stream header whose magic is not
`'STXT'` and whose header size is not the size of the struct, and a text header
whose magic is not `'TEXT'` and whose header size is not the size of the
struct; yet `convert_styled_text_to_rtf` does not fail on it: the reading part
returns the text without an error status, the markup built from it is written
to the target, and the status returned is `B_OK`, not `B_NO_TRANSLATOR`. -/
theorem unchecked_magic_is_decoded (codec : RunArrayCodec) (markup : StyledText → List Byte)
    (memory : List Byte) (target : Sink) :
    from_be32 (zero_magic_stream.take 4) ≠ magic_STXT
      ∧ from_be32 ((zero_magic_stream.drop 4).take 4) ≠ sizeof_stream_header
      ∧ from_be32 ((zero_magic_stream.drop 16).take 4) ≠ magic_TEXT
      ∧ from_be32 ((zero_magic_stream.drop 20).take 4) ≠ sizeof_text_header
      ∧ read_styled_text codec memory ⟨zero_magic_stream, 0⟩
        = .ok ⟨reassembled 3 memory [72, 105], none⟩
      ∧ convert_styled_text_to_rtf codec markup memory ⟨zero_magic_stream, 0⟩ target
        = (B_OK, (target.Write (markup ⟨reassembled 3 memory [72, 105], none⟩)).2)
      ∧ convert_styled_text_to_rtf codec markup memory ⟨zero_magic_stream, 0⟩ Sink.reliable
        = (B_OK, ⟨markup ⟨reassembled 3 memory [72, 105], none⟩, []⟩)
      ∧ B_OK ≠ B_NO_TRANSLATOR := by
  have hr : read_styled_text codec memory ⟨zero_magic_stream, 0⟩
      = .ok ⟨reassembled 3 memory [72, 105], none⟩ :=
    read_ignores_headers codec memory [72, 105] 0 0 0 0 0 0 0 (by decide)
  refine ⟨by decide, by decide, by decide, by decide, hr, ?_, ?_, by decide⟩
  · simp only [convert_styled_text_to_rtf, hr]
  · simp only [convert_styled_text_to_rtf, hr, Sink.reliable, Sink.Write, List.nil_append]

/-! ### The faces `set_font_face` reaches -/

/-- C29: for every face that is exactly the regular face or a non-empty
combination of bold, italic, underline and strikeout, for each of these four
flags and for on and off: the value `set_font_face` passes to `SetFace` is not
zero, and it is again exactly the regular face or a non-empty combination of
the four flags (the regular bit never stands beside a style flag); setting a
flag that is set already, or clearing one that is not set, passes the face as
it is. -/
theorem face_stays_valid :
    ∀ current ∈ valid_faces, ∀ face ∈ style_flags, ∀ on_ : Bool,
      set_font_face_value current face on_ ≠ 0
        ∧ set_font_face_value current face on_ ∈ valid_faces
        ∧ (∀ font : BFont, font.face = current →
            (set_font_face font face on_).face = set_font_face_value current face on_)
        ∧ (on_ = true → current &&& face = face →
            set_font_face_value current face on_ = current)
        ∧ (on_ = false → current &&& face = 0 →
            set_font_face_value current face on_ = current) := by
  intro current hc face hf on_
  have h : set_font_face_value current face on_ ≠ 0
      ∧ set_font_face_value current face on_ ∈ valid_faces
      ∧ (on_ = true → current &&& face = face →
          set_font_face_value current face on_ = current)
      ∧ (on_ = false → current &&& face = 0 →
          set_font_face_value current face on_ = current) := by
    revert current face on_
    decide
  refine ⟨h.1, h.2.1, ?_, h.2.2⟩
  intro font hfont
  simp [set_font_face, BFont.SetFace, hfont, h.1]

theorem face_stays_valid_witness :
    set_font_face_value B_REGULAR_FACE B_BOLD_FACE true ≠ 0
      ∧ set_font_face_value B_REGULAR_FACE B_BOLD_FACE true ∈ valid_faces
      ∧ set_font_face_value (B_BOLD_FACE ||| B_ITALIC_FACE) B_BOLD_FACE true
        = B_BOLD_FACE ||| B_ITALIC_FACE
      ∧ set_font_face_value B_ITALIC_FACE B_BOLD_FACE false = B_ITALIC_FACE :=
  ⟨(face_stays_valid B_REGULAR_FACE (by decide) B_BOLD_FACE (by decide) true).1,
    (face_stays_valid B_REGULAR_FACE (by decide) B_BOLD_FACE (by decide) true).2.1,
    (face_stays_valid (B_BOLD_FACE ||| B_ITALIC_FACE) (by decide) B_BOLD_FACE (by decide)
      true).2.2.2.1 rfl (by decide),
    (face_stays_valid B_ITALIC_FACE (by decide) B_BOLD_FACE (by decide) false).2.2.2.2 rfl
      (by decide)⟩

/-! ### `StringToScalar` -/

/-- C30: for the texts `5 KB`, `5 MB`, `5 GB` and `5` the function
`StringToScalar` returns 5 scaled by the unit the text names, but for the
text `5 bytes` it returns 5 times `kGBSize`, 5368709120 with the constants of
the Tracker headers, not 5: the branch for `byte` multiplies with the constant
of the branch before it. -/
theorem byte_unit_scaled_as_gigabyte :
    StringToScalar tracker_units (cstr "5 KB") = 5 * tracker_units.kKBSize
      ∧ StringToScalar tracker_units (cstr "5 MB") = 5 * tracker_units.kMBSize
      ∧ StringToScalar tracker_units (cstr "5 GB") = 5 * tracker_units.kGBSize
      ∧ StringToScalar tracker_units (cstr "5") = 5
      ∧ StringToScalar tracker_units (cstr "5 bytes") = 5 * tracker_units.kGBSize
      ∧ StringToScalar tracker_units (cstr "5 BYTE") = 5 * tracker_units.kGBSize
      ∧ StringToScalar tracker_units (cstr "5 bytes") = 5368709120
      ∧ StringToScalar tracker_units (cstr "5 bytes") ≠ 5 := by
  decide

/-! ### The reader, section by section -/

/-- The reading loop on a text section that ends before the declared size:
everything that is left is read, and `ntotalread` stays below the declared
size. -/
theorem read_text_loop_short (fuel : Nat) : ∀ (data pre rest memory plainText : List Byte)
    (n data_size : Nat), data = pre ++ rest → rest.length < fuel →
    n + rest.length < data_size →
    ∃ p s m, read_text_loop fuel data_size ⟨data, pre.length⟩ memory plainText n
      = (p, n + rest.length, s, m) := by
  induction fuel with
  | zero => intro _ _ _ _ _ _ _ _ h; omega
  | succ fuel ih =>
    intro data pre rest memory plainText n data_size hd hlen hshort
    have hread := Source.Read_at data pre rest (min READ_BUFFER_SIZE (data_size - n)) hd
    have htake : rest.take (min READ_BUFFER_SIZE (data_size - n))
        = rest.take READ_BUFFER_SIZE := by
      rw [← List.take_take, List.take_of_length_le (l := rest) (by omega)]
    rw [htake] at hread
    by_cases ht : rest = []
    · subst ht
      have hv : read_text_loop (fuel + 1) data_size ⟨data, pre.length⟩ memory plainText n
          = (plainText, n, ⟨data, pre.length + 0⟩, memory) := by
        simp only [read_text_loop, hread]
        simp
      exact ⟨plainText, _, memory, hv⟩
    · have hpos : (rest.take READ_BUFFER_SIZE).length > 0 := by
        have : 0 < rest.length := List.length_pos.2 ht
        simp [READ_BUFFER_SIZE]; omega
      have hd2 : data = (pre ++ rest.take READ_BUFFER_SIZE) ++ rest.drop READ_BUFFER_SIZE := by
        rw [hd, List.append_assoc, List.take_append_drop]
      have hsplit : (rest.take READ_BUFFER_SIZE).length + (rest.drop READ_BUFFER_SIZE).length
          = rest.length := by
        rw [← List.length_append, List.take_append_drop]
      obtain ⟨p, s, m, hm⟩ := ih data (pre ++ rest.take READ_BUFFER_SIZE)
        (rest.drop READ_BUFFER_SIZE) (store memory (rest.take READ_BUFFER_SIZE))
        (plainText ++ c_string (store memory (rest.take READ_BUFFER_SIZE)))
        (n + (rest.take READ_BUFFER_SIZE).length) data_size hd2 (by omega) (by omega)
      refine ⟨p, s, m, ?_⟩
      have e1 : n + (rest.take READ_BUFFER_SIZE).length + (rest.drop READ_BUFFER_SIZE).length
          = n + rest.length := by omega
      have e2 : (pre ++ rest.take READ_BUFFER_SIZE).length
          = pre.length + (rest.take READ_BUFFER_SIZE).length := List.length_append _ _
      rw [e1, e2] at hm
      simp only [read_text_loop, hread, hpos, if_true, hm]

/-- A stream whose text section is shorter than its text header declares: the
reading part returns `B_NO_TRANSLATOR`, whatever else the headers hold. -/
theorem read_short_text (codec : RunArrayCodec) (memory A B rest : List Byte)
    (position : Nat) (hA : A.length = sizeof_stream_header)
    (hB : B.length = sizeof_text_header)
    (hshort : rest.length < from_be32 ((B.drop 8).take 4)) :
    read_styled_text codec memory ⟨A ++ B ++ rest, position⟩ = .error B_NO_TRANSLATOR := by
  have h1 : Source.Read ⟨A ++ B ++ rest, 0⟩ sizeof_stream_header
      = (A, ⟨A ++ B ++ rest, 0 + sizeof_stream_header⟩) :=
    Source.Read_exact (A ++ B ++ rest) [] A (B ++ rest) 0 sizeof_stream_header
      (by simp [List.append_assoc]) rfl hA.symm
  have h2 : Source.Read ⟨A ++ B ++ rest, 0 + sizeof_stream_header⟩ sizeof_text_header
      = (B, ⟨A ++ B ++ rest, 0 + sizeof_stream_header + sizeof_text_header⟩) :=
    Source.Read_exact (A ++ B ++ rest) A B rest _ sizeof_text_header rfl
      (by simp [hA]) hB.symm
  have hp : (A ++ B).length = 0 + sizeof_stream_header + sizeof_text_header := by
    rw [List.length_append, hA, hB, Nat.zero_add]
  obtain ⟨p, s, m, h3⟩ := read_text_loop_short (from_be32 ((B.drop 8).take 4) + 1)
    (A ++ B ++ rest) (A ++ B) rest memory [] 0 (from_be32 ((B.drop 8).take 4)) rfl
    (by omega) (by omega)
  rw [hp] at h3
  have hne : ¬ from_be32 ((B.drop 8).take 4) = 0 + rest.length := by omega
  unfold read_styled_text
  simp only [h1, hA, ne_eq, not_true_eq_false, if_false, h2, hB, h3, hne, not_false_eq_true,
    if_true]

/-- The outcome of the reading part of `convert_styled_text_to_rtf` on a stream
whose text section is complete, in terms of the bytes `tail` that follow the
text: nothing, a part of a style header, or a style header with what follows
it. The content of the stream header, and the magic, header size and
character set of the text header, play no part. -/
theorem read_styled_text_tail (codec : RunArrayCodec) (memory A B text tail : List Byte)
    (position : Nat) (hA : A.length = sizeof_stream_header)
    (hB : B.length = sizeof_text_header)
    (hsize : from_be32 ((B.drop 8).take 4) = text.length) :
    read_styled_text codec memory ⟨A ++ B ++ text ++ tail, position⟩
      = if (tail.take sizeof_style_header).length ≠ sizeof_style_header
            ∧ (tail.take sizeof_style_header).length ≠ 0 then .error B_NO_TRANSLATOR
        else if (tail.take sizeof_style_header).length = sizeof_style_header then
          if from_be32 (tail.take 4) ≠ magic_STYL
              ∨ from_be32 ((tail.drop 4).take 4) ≠ sizeof_style_header then
            .error B_NO_TRANSLATOR
          else
            .ok ⟨reassembled (text.length + 1) memory text,
              some (codec.UnflattenRunArray
                ((tail.drop sizeof_style_header).take (from_be32 ((tail.drop 8).take 4))))⟩
        else .ok ⟨reassembled (text.length + 1) memory text, none⟩ := by
  generalize hD : A ++ B ++ text ++ tail = data
  have hd1 : data = [] ++ A ++ (B ++ text ++ tail) := by
    rw [← hD]; simp [List.append_assoc]
  have hd2 : data = A ++ B ++ (text ++ tail) := by
    rw [← hD]; simp [List.append_assoc]
  have h1 : Source.Read ⟨data, 0⟩ sizeof_stream_header
      = (A, ⟨data, sizeof_stream_header⟩) := by
    have := Source.Read_exact data [] A (B ++ text ++ tail) 0 sizeof_stream_header hd1 rfl
      hA.symm
    rw [Nat.zero_add] at this
    exact this
  have h2 : Source.Read ⟨data, sizeof_stream_header⟩ sizeof_text_header
      = (B, ⟨data, sizeof_stream_header + sizeof_text_header⟩) :=
    Source.Read_exact data A B (text ++ tail) _ sizeof_text_header hd2 hA.symm hB.symm
  have hp : (A ++ B).length = sizeof_stream_header + sizeof_text_header := by
    rw [List.length_append, hA, hB]
  obtain ⟨m, h3⟩ := read_text_loop_spec (text.length + 1) data (A ++ B) text tail memory [] 0
    hD.symm (Nat.lt_succ_self _)
  rw [hp] at h3
  simp only [Nat.zero_add, List.nil_append] at h3
  have hp2 : (A ++ B ++ text).length = sizeof_stream_header + sizeof_text_header + text.length := by
    rw [List.length_append, List.length_append, hA, hB]
  have h4 := Source.Read_at data (A ++ B ++ text) tail sizeof_style_header hD.symm
  rw [hp2] at h4
  have h5 : (tail.take sizeof_style_header).length = sizeof_style_header →
      Source.Read ⟨data, sizeof_stream_header + sizeof_text_header + text.length
          + (tail.take sizeof_style_header).length⟩ (from_be32 ((tail.drop 8).take 4))
        = ((tail.drop sizeof_style_header).take (from_be32 ((tail.drop 8).take 4)),
            ⟨data, sizeof_stream_header + sizeof_text_header + text.length
              + (tail.take sizeof_style_header).length
              + ((tail.drop sizeof_style_header).take
                  (from_be32 ((tail.drop 8).take 4))).length⟩) := by
    intro hl
    have := Source.Read_at data (A ++ B ++ text ++ tail.take sizeof_style_header)
      (tail.drop sizeof_style_header) (from_be32 ((tail.drop 8).take 4))
      (by rw [← hD, List.append_assoc (A ++ B ++ text), List.take_append_drop])
    rw [List.length_append, hp2] at this
    exact this
  have e1 : (tail.take sizeof_style_header).take 4 = tail.take 4 := by
    rw [List.take_take]; rfl
  have e2 : ((tail.take sizeof_style_header).drop 4).take 4 = (tail.drop 4).take 4 := by
    rw [List.drop_take, List.take_take]; rfl
  have e3 : ((tail.take sizeof_style_header).drop 8).take 4 = (tail.drop 8).take 4 := by
    rw [List.drop_take, List.take_take]; rfl
  unfold read_styled_text
  by_cases hl : (tail.take sizeof_style_header).length = sizeof_style_header
  · have h5a := h5 hl
    rw [hl] at h4 h5a
    simp only [h1, hA, ne_eq, not_true_eq_false, if_false, h2, hB, hsize, h3, h4, e1, e2, e3,
      hl, false_and, if_true, h5a]
  · simp only [h1, hA, ne_eq, not_true_eq_false, if_false, h2, hB, hsize, h3, h4, e1, e2, e3,
      hl, not_false_eq_true, true_and]

/-! ### Escaping a span -/

theorem CharacterEscape_eq (set : List Byte) (e : Byte) (l : List Byte) :
    CharacterEscape set e l = l.flatMap (fun b => if b ∈ set then [e, b] else [b]) := by
  induction l with
  | nil => rfl
  | cons b rest ih =>
    simp only [CharacterEscape, List.flatMap_cons, ih]
    split_ifs <;> rfl

theorem ReplaceAll_newline (w l : List Byte) :
    ReplaceAll [10] w l = l.flatMap (fun b => if b = 10 then w else [b]) := by
  unfold ReplaceAll
  induction l with
  | nil => rfl
  | cons b rest ih =>
    by_cases hb : b = 10
    · subst hb
      simp [ReplaceAll_scan, ih, List.isPrefixOf]
    · have : (10 == b) = false := by
        simp only [beq_eq_false_iff_ne, ne_eq]
        exact fun h => hb h.symm
      simp [ReplaceAll_scan, ih, List.isPrefixOf, hb, this]

/-- The two steps on a segment, `CharacterEscape("\\{}", '\\')` and then
`ReplaceAll("\n", "\\line")`, byte by byte. -/
theorem segment_escaped (span : List Byte) :
    ReplaceAll (cstr "\n") (cstr "\\line") (CharacterEscape (cstr "\\\x7b\x7d") 92 span)
      = span.flatMap escaped_byte := by
  have e1 : cstr "\n" = [10] := rfl
  have e2 : cstr "\\\x7b\x7d" = [92, 123, 125] := rfl
  rw [e1, e2, CharacterEscape_eq, ReplaceAll_newline, List.flatMap_assoc]
  congr 1
  funext b
  unfold escaped_byte
  by_cases h : b = 92 ∨ b = 123 ∨ b = 125
  · have hm : b ∈ [92, 123, 125] := by simpa using h
    rw [if_pos h, if_pos hm]
    rcases h with h | h | h <;> subst h <;> rfl
  · have hm : b ∉ [92, 123, 125] := by simpa using h
    rw [if_neg h, if_neg hm]
    simp

/-! ### The style section is optional -/

/-- C22: for every stream in which fewer bytes follow the text header than its
`data_size` field declares, whatever the two headers hold otherwise and
whatever the read position of the source is at the start,
`convert_styled_text_to_rtf` returns `B_NO_TRANSLATOR` and leaves the target
as it was: nothing is written. -/
theorem short_text_is_rejected (codec : RunArrayCodec) (big_endian : Bool)
    (memory A B rest : List Byte) (position : Nat) (target : Sink)
    (hA : A.length = sizeof_stream_header) (hB : B.length = sizeof_text_header)
    (hshort : rest.length < from_be32 ((B.drop 8).take 4)) :
    convert_styled_text_to_rtf codec (rtf_markup big_endian) memory
        ⟨A ++ B ++ rest, position⟩ target
      = (B_NO_TRANSLATOR, target) := by
  simp only [convert_styled_text_to_rtf,
    read_short_text codec memory A B rest position hA hB hshort]

theorem short_text_is_rejected_witness :
    convert_styled_text_to_rtf sample_codec (rtf_markup false) []
        ⟨stream_header_bytes ++ text_header_of_5 ++ [72, 105], 0⟩ ⟨[1, 2, 3], [7]⟩
      = (B_NO_TRANSLATOR, ⟨[1, 2, 3], [7]⟩) :=
  short_text_is_rejected sample_codec false [] stream_header_bytes text_header_of_5 [72, 105]
    0 ⟨[1, 2, 3], [7]⟩ rfl rfl (by decide)

/-- C21, the claim as stated fails: behind the complete text `Hi` of a stream
with valid stream and text headers comes a chunk of the size of a style header
whose magic is not `'STYL'`; the style section is not treated as absent:
`convert_styled_text_to_rtf` returns `B_NO_TRANSLATOR` and writes nothing. -/
theorem wrong_style_magic_is_rejected :
    convert_styled_text_to_rtf sample_codec (rtf_markup false) []
        ⟨stream_header_bytes ++ text_header_bytes 2 ++ [72, 105] ++ zero_style_header, 0⟩
        Sink.reliable
      = (B_NO_TRANSLATOR, Sink.reliable)
      ∧ B_NO_TRANSLATOR ≠ B_OK := by
  have h := read_styled_text_tail sample_codec [] stream_header_bytes (text_header_bytes 2)
    [72, 105] zero_style_header 0 rfl rfl (by decide)
  have hr : read_styled_text sample_codec []
      ⟨stream_header_bytes ++ text_header_bytes 2 ++ [72, 105] ++ zero_style_header, 0⟩
      = .error B_NO_TRANSLATOR := by
    rw [h, if_neg (by decide), if_pos (by decide), if_pos (by decide)]
  exact ⟨by simp only [convert_styled_text_to_rtf, hr], by decide⟩

/-- C21, amended: for every stream whose text section is complete (the text
header declares as many text bytes as follow it before `tail`), whatever the
headers hold otherwise: if no byte follows the text, the conversion succeeds
with the markup of the plain text alone; if a chunk of the full size of a
style header follows whose magic is not `'STYL'` or whose header size is not
the size of the struct, the conversion fails with `B_NO_TRANSLATOR` and writes
nothing; if at least one byte but fewer than a full style header follows, the
conversion fails with `B_NO_TRANSLATOR` and writes nothing. -/
theorem style_section_cases (codec : RunArrayCodec) (big_endian : Bool)
    (memory A B text tail : List Byte) (position : Nat) (target : Sink)
    (hA : A.length = sizeof_stream_header) (hB : B.length = sizeof_text_header)
    (hsize : from_be32 ((B.drop 8).take 4) = text.length) :
    (tail = [] →
        read_styled_text codec memory ⟨A ++ B ++ text ++ tail, position⟩
          = .ok ⟨reassembled (text.length + 1) memory text, none⟩
        ∧ convert_styled_text_to_rtf codec (rtf_markup big_endian) memory
            ⟨A ++ B ++ text ++ tail, position⟩ target
          = (B_OK, (target.Write
              (rtfFile big_endian (reassembled (text.length + 1) memory text) none)).2))
      ∧ (sizeof_style_header ≤ tail.length →
        (from_be32 (tail.take 4) ≠ magic_STYL
          ∨ from_be32 ((tail.drop 4).take 4) ≠ sizeof_style_header) →
        convert_styled_text_to_rtf codec (rtf_markup big_endian) memory
            ⟨A ++ B ++ text ++ tail, position⟩ target
          = (B_NO_TRANSLATOR, target))
      ∧ (0 < tail.length → tail.length < sizeof_style_header →
        convert_styled_text_to_rtf codec (rtf_markup big_endian) memory
            ⟨A ++ B ++ text ++ tail, position⟩ target
          = (B_NO_TRANSLATOR, target)) := by
  have h := read_styled_text_tail codec memory A B text tail position hA hB hsize
  refine ⟨?_, ?_, ?_⟩
  · intro ht
    subst ht
    have hr : read_styled_text codec memory ⟨A ++ B ++ text ++ [], position⟩
        = .ok ⟨reassembled (text.length + 1) memory text, none⟩ := by
      rw [h]
      simp [sizeof_style_header]
    exact ⟨hr, by simp only [convert_styled_text_to_rtf, hr, rtf_markup]⟩
  · intro hlen hbad
    have hl : (tail.take sizeof_style_header).length = sizeof_style_header := by
      rw [List.length_take]; omega
    have hr : read_styled_text codec memory ⟨A ++ B ++ text ++ tail, position⟩
        = .error B_NO_TRANSLATOR := by
      rw [h]
      simp only [hl, ne_eq, not_true_eq_false, false_and, if_false, if_true]
      rw [if_pos hbad]
    simp only [convert_styled_text_to_rtf, hr]
  · intro h0 h1
    have hl : (tail.take sizeof_style_header).length = tail.length := by
      rw [List.length_take]; omega
    have hr : read_styled_text codec memory ⟨A ++ B ++ text ++ tail, position⟩
        = .error B_NO_TRANSLATOR := by
      rw [h]
      have c : (tail.take sizeof_style_header).length ≠ sizeof_style_header
          ∧ (tail.take sizeof_style_header).length ≠ 0 := by
        rw [hl]; omega
      rw [if_pos c]
    simp only [convert_styled_text_to_rtf, hr]

theorem style_section_cases_witness :
    convert_styled_text_to_rtf sample_codec (rtf_markup false) []
        ⟨stream_header_bytes ++ text_header_bytes 2 ++ [72, 105] ++ [1, 2, 3], 0⟩
        Sink.reliable
      = (B_NO_TRANSLATOR, Sink.reliable) :=
  (style_section_cases sample_codec false [] stream_header_bytes (text_header_bytes 2)
    [72, 105] [1, 2, 3] 0 Sink.reliable rfl rfl (by decide)).2.2 (by decide) (by decide)

/-! ### Sets held as ascending lists -/

theorem set_insert_keys {α β : Type} [LinearOrder β] (k : α → β) (less : α → α → Bool)
    (hk : ∀ a b, less a b = decide (k a < k b)) (x : α) (l : List α) (b : β) :
    b ∈ (set_insert less x l).map k ↔ b = k x ∨ b ∈ l.map k := by
  induction l with
  | nil => simp [set_insert]
  | cons y ys ih =>
    simp only [set_insert, hk, decide_eq_true_eq]
    by_cases h1 : k x < k y
    · simp [h1]
    · by_cases h2 : k y < k x
      · simp only [h1, h2, if_false, if_true, List.map_cons, List.mem_cons, ih]
        tauto
      · have he : k x = k y := le_antisymm (not_lt.mp h2) (not_lt.mp h1)
        simp only [h1, h2, if_false, List.map_cons, List.mem_cons]
        rw [he]
        tauto

theorem set_insert_mem {α : Type} (less : α → α → Bool) (x : α) (l : List α) (y : α)
    (h : y ∈ set_insert less x l) : y = x ∨ y ∈ l := by
  induction l with
  | nil => simpa [set_insert] using h
  | cons z zs ih =>
    simp only [set_insert] at h
    split_ifs at h
    · simpa using h
    · rcases List.mem_cons.mp h with e | e
      · exact Or.inr (by simp [e])
      · rcases ih e with e | e
        · exact Or.inl e
        · exact Or.inr (List.mem_cons_of_mem _ e)
    · exact Or.inr h

theorem set_insert_sorted {α β : Type} [LinearOrder β] (k : α → β) (less : α → α → Bool)
    (hk : ∀ a b, less a b = decide (k a < k b)) (x : α) (l : List α)
    (h : (l.map k).Pairwise (· < ·)) : ((set_insert less x l).map k).Pairwise (· < ·) := by
  induction l with
  | nil => simp [set_insert]
  | cons y ys ih =>
    simp only [List.map_cons, List.pairwise_cons] at h
    simp only [set_insert, hk, decide_eq_true_eq]
    by_cases h1 : k x < k y
    · simp only [h1, if_true, List.map_cons, List.pairwise_cons, List.mem_cons]
      refine ⟨?_, h.1, h.2⟩
      intro b hb
      rcases hb with e | e
      · rw [e]; exact h1
      · exact lt_trans h1 (h.1 b e)
    · by_cases h2 : k y < k x
      · simp only [h1, h2, if_false, if_true, List.map_cons, List.pairwise_cons]
        refine ⟨?_, ih h.2⟩
        intro b hb
        rcases (set_insert_keys k less hk x ys b).mp hb with e | e
        · rw [e]; exact h2
        · exact h.1 b e
      · simp only [h1, h2, if_false, List.map_cons, List.pairwise_cons]
        exact h

theorem set_fold_sorted {α β : Type} [LinearOrder β] (k : α → β) (less : α → α → Bool)
    (hk : ∀ a b, less a b = decide (k a < k b)) (xs : List α) : ∀ table : List α,
    (table.map k).Pairwise (· < ·) →
    ((xs.foldl (fun t x => set_insert less x t) table).map k).Pairwise (· < ·) := by
  induction xs with
  | nil => intro table h; exact h
  | cons x xs ih =>
    intro table h
    exact ih _ (set_insert_sorted k less hk x table h)

theorem set_fold_keys {α β : Type} [LinearOrder β] (k : α → β) (less : α → α → Bool)
    (hk : ∀ a b, less a b = decide (k a < k b)) (xs : List α) : ∀ (table : List α) (b : β),
    b ∈ (xs.foldl (fun t x => set_insert less x t) table).map k
      ↔ b ∈ xs.map k ∨ b ∈ table.map k := by
  induction xs with
  | nil => intro table b; simp
  | cons x xs ih =>
    intro table b
    simp only [List.foldl_cons, ih, set_insert_keys k less hk, List.map_cons, List.mem_cons]
    tauto

theorem set_fold_mem {α : Type} (less : α → α → Bool) (xs : List α) :
    ∀ (table : List α) (y : α),
    y ∈ xs.foldl (fun t x => set_insert less x t) table → y ∈ xs ∨ y ∈ table := by
  induction xs with
  | nil => intro table y h; exact Or.inr h
  | cons x xs ih =>
    intro table y h
    rcases ih _ y h with e | e
    · exact Or.inl (List.mem_cons_of_mem _ e)
    · rcases set_insert_mem less x table y e with e | e
      · exact Or.inl (by simp [e])
      · exact Or.inr e

/-- With a key that tells the values apart, the set built from a list of values
holds exactly these values. -/
theorem set_fold_mem_iff {α β : Type} [LinearOrder β] (k : α → β) (less : α → α → Bool)
    (hk : ∀ a b, less a b = decide (k a < k b)) (xs : List α)
    (hinj : ∀ a ∈ xs, ∀ b ∈ xs, k a = k b → a = b) (y : α) :
    y ∈ xs.foldl (fun t x => set_insert less x t) [] ↔ y ∈ xs := by
  constructor
  · intro h
    rcases set_fold_mem less xs [] y h with e | e
    · exact e
    · cases e
  · intro h
    have hb : k y ∈ (xs.foldl (fun t x => set_insert less x t) []).map k :=
      (set_fold_keys k less hk xs [] (k y)).mpr (Or.inl (List.mem_map_of_mem k h))
    obtain ⟨t, ht, hty⟩ := List.mem_map.mp hb
    have htx : t ∈ xs := by
      rcases set_fold_mem less xs [] t ht with e | e
      · exact e
      · cases e
    rw [← hinj t htx y h hty]
    exact ht

theorem set_find_spec {α β : Type} [LinearOrder β] (k : α → β) (less : α → α → Bool)
    (hk : ∀ a b, less a b = decide (k a < k b)) (x : α) (l : List α)
    (h : ∃ t ∈ l, k t = k x) :
    ∃ t, l[set_find less x l]? = some t ∧ k t = k x := by
  induction l with
  | nil => obtain ⟨t, ht, _⟩ := h; cases ht
  | cons y ys ih =>
    simp only [set_find, hk, decide_eq_false_iff_not]
    by_cases he : ¬ k x < k y ∧ ¬ k y < k x
    · rw [if_pos he]
      exact ⟨y, by simp, le_antisymm (not_lt.mp he.1) (not_lt.mp he.2)⟩
    · rw [if_neg he]
      obtain ⟨t, ht, hkt⟩ := h
      rcases List.mem_cons.mp ht with e | e
      · exfalso
        apply he
        rw [← hkt, e]
        exact ⟨lt_irrefl _, lt_irrefl _⟩
      · obtain ⟨t', h1, h2⟩ := ih ⟨t, e, hkt⟩
        exact ⟨t', by simpa using h1, h2⟩

theorem sorted_keys_unique {β : Type} [LinearOrder β] (a b : List β)
    (ha : a.Pairwise (· < ·)) (hb : b.Pairwise (· < ·)) (h : ∀ x, x ∈ a ↔ x ∈ b) : a = b := by
  have na : a.Nodup := ha.imp (fun h => ne_of_lt h)
  have nb : b.Nodup := hb.imp (fun h => ne_of_lt h)
  exact List.eq_of_perm_of_sorted ((List.perm_ext_iff_of_nodup na nb).mpr h) ha hb

theorem map_key_injective {α β : Type} (k : α → β) : ∀ (a b : List α),
    a.map k = b.map k → (∀ x ∈ a, ∀ y ∈ b, k x = k y → x = y) → a = b := by
  intro a
  induction a with
  | nil => intro b h _; cases b with
    | nil => rfl
    | cons y ys => cases h
  | cons x xs ih =>
    intro b h hinj
    cases b with
    | nil => cases h
    | cons y ys =>
      simp only [List.map_cons, List.cons.injEq] at h
      have e := hinj x (List.mem_cons_self _ _) y (List.mem_cons_self _ _) h.1
      rw [e, ih ys h.2 (fun x hx y hy => hinj x (List.mem_cons_of_mem _ hx) y
        (List.mem_cons_of_mem _ hy))]

/-- The set built from a list of values does not depend on the order of the
values. -/
theorem set_fold_perm {α β : Type} [LinearOrder β] (k : α → β) (less : α → α → Bool)
    (hk : ∀ a b, less a b = decide (k a < k b)) (xs ys : List α) (hp : xs.Perm ys)
    (hinj : ∀ a ∈ xs, ∀ b ∈ xs, k a = k b → a = b) :
    xs.foldl (fun t x => set_insert less x t) [] = ys.foldl (fun t x => set_insert less x t) []
    := by
  apply map_key_injective k
  · apply sorted_keys_unique
    · exact set_fold_sorted k less hk xs [] List.Pairwise.nil
    · exact set_fold_sorted k less hk ys [] List.Pairwise.nil
    · intro b
      rw [set_fold_keys k less hk, set_fold_keys k less hk]
      simp only [List.map_nil, List.not_mem_nil, or_false, List.mem_map]
      constructor
      · rintro ⟨a, ha, e⟩; exact ⟨a, hp.mem_iff.mp ha, e⟩
      · rintro ⟨a, ha, e⟩; exact ⟨a, hp.mem_iff.mpr ha, e⟩
  · intro x hx y hy e
    have h1 : x ∈ xs := by
      rcases set_fold_mem less xs [] x hx with h | h
      · exact h
      · cases h
    have h2 : y ∈ xs := by
      rcases set_fold_mem less ys [] y hy with h | h
      · exact hp.mem_iff.mpr h
      · cases h
    exact hinj x h1 y h2 e

/-! ### The markup of the reverse direction -/

theorem static_cast_int_natCast (n : Nat) : static_cast_int (n : ℚ) = n := by
  simp [static_cast_int]

theorem reassembled_brace : reassembled 2 [] [123] = [123] := by decide

theorem reassembled_hi : reassembled 3 [] [72, 105] = [72, 105] := by decide

/-- C23: for every run of every run table, whatever the tables and the index:
what `convert_styled_text_to_rtf` appends for the run ends with a space and
the span of the run, cut out of the plain text as it was read, in which every
backslash, `\x7b` and `\x7d` is preceded by one backslash, every newline is
replaced by the five bytes `\line`, and every other byte stands as it is (the
backslash of `\line` is not escaped). For the text `A`, newline, `B` with one
baseline run the markup is the one given, and holds `A\lineB`. -/
theorem span_text_is_escaped (big_endian : Bool) :
    (∀ (plainText : List Byte) (runs : List text_run) (fontTable : List (List Byte))
        (colorTable : List rgb_color) (i : Nat) (run : text_run),
        (cstr " " ++ (CopyInto plainText run.offset
            (span_length plainText runs i run)).flatMap escaped_byte)
          <:+ run_markup big_endian plainText runs fontTable colorTable i run)
      ∧ (∀ b : Byte, escaped_byte b
          = if b = 92 ∨ b = 123 ∨ b = 125 then [92, b]
            else if b = 10 then [92, 108, 105, 110, 101] else [b])
      ∧ rtfFile big_endian text_A_newline_B (some baseline_runs)
          = cstr ("\x7b\\rtf1\\ansi\x7b\\fonttbl\x7b\\f0 Noto Sans;\x7d\x7d"
              ++ "\x7b\\colortbl\\red0\\green0\\blue0;\x7d\\pard\\plain\\f0\\cf0\\fs24 A\\lineB\x7d")
      ∧ cstr "A\\lineB" <:+: rtfFile big_endian text_A_newline_B (some baseline_runs) := by
  have e : (12 : ℚ) * 2 = ((24 : Nat) : ℚ) := by norm_num
  have hm : rtfFile big_endian text_A_newline_B (some baseline_runs)
      = cstr ("\x7b\\rtf1\\ansi\x7b\\fonttbl\x7b\\f0 Noto Sans;\x7d\x7d"
          ++ "\x7b\\colortbl\\red0\\green0\\blue0;\x7d\\pard\\plain\\f0\\cf0\\fs24 A\\lineB\x7d") := by
    simp only [rtfFile, baseline_runs, List.length_cons, List.length_nil, runs_loop,
      List.getElem?_cons_zero, run_markup, e, static_cast_int_natCast]
    cases big_endian <;> decide
  refine ⟨?_, fun b => rfl, hm, ?_⟩
  · intro plainText runs fontTable colorTable i run
    simp only [run_markup, segment_escaped]
    rw [List.append_assoc]
    exact List.suffix_append _ _
  · rw [hm]
    exact ⟨cstr ("\x7b\\rtf1\\ansi\x7b\\fonttbl\x7b\\f0 Noto Sans;\x7d\x7d"
      ++ "\x7b\\colortbl\\red0\\green0\\blue0;\x7d\\pard\\plain\\f0\\cf0\\fs24 "), cstr "\x7d", rfl⟩

/-- C26: with no style section `convert_styled_text_to_rtf` appends the plain
text to the preamble as it is, without escaping: for the stream whose text is
the single byte `\x7b` it returns `B_OK` and writes the preamble, an unescaped
`\x7b` and the closing brace, which is not the document of the claim (there
the `\x7b` is preceded by a backslash). -/
theorem plain_text_is_not_escaped (codec : RunArrayCodec) (big_endian : Bool) :
    (∀ plainText : List Byte, rtfFile big_endian plainText none
        = cstr "\x7b\\rtf1\\ansi\x7b\\fonttbl\\f0 Noto Sans;\x7d\\f0\\pard " ++ plainText
          ++ cstr "\x7d")
      ∧ convert_styled_text_to_rtf codec (rtf_markup big_endian) [] ⟨brace_stream, 0⟩
          Sink.reliable
        = (B_OK, ⟨cstr "\x7b\\rtf1\\ansi\x7b\\fonttbl\\f0 Noto Sans;\x7d\\f0\\pard \x7b\x7d", []⟩)
      ∧ cstr "\x7b\\rtf1\\ansi\x7b\\fonttbl\\f0 Noto Sans;\x7d\\f0\\pard \x7b\x7d"
        ≠ cstr "\x7b\\rtf1\\ansi\x7b\\fonttbl\\f0 Noto Sans;\x7d\\f0\\pard "
          ++ backslash_escaped [123] ++ cstr "\x7d" := by
  have h := read_styled_text_tail codec [] stream_header_bytes (text_header_bytes 1)
    [123] [] 0 rfl rfl (by decide)
  have hr : read_styled_text codec [] ⟨brace_stream, 0⟩ = .ok ⟨[123], none⟩ := by
    have e : brace_stream = stream_header_bytes ++ text_header_bytes 1 ++ [123] ++ [] := by
      rw [List.append_nil]; rfl
    rw [e, h, if_neg (by decide), if_neg (by decide)]
    exact congrArg (fun t => Except.ok (StyledText.mk t none)) reassembled_brace
  refine ⟨fun plainText => rfl, ?_, by decide⟩
  simp only [convert_styled_text_to_rtf, hr, rtf_markup, Sink.reliable, Sink.Write,
    List.nil_append]
  rfl

/-- C27: `convert_styled_text_to_rtf` looks neither at the result of its
`Write` nor at the result of the `Read` of the run array. On the stream with
the text `Hi` and no style section it returns `B_OK` when the write fails
(reply `B_ERROR`, nothing written) and when the write is short (3 bytes
taken of a longer markup); on the stream whose style header declares 100 bytes
of run array of which only 3 are there, the 3 bytes are handed to
`UnflattenRunArray` and the function returns `B_OK`. -/
theorem unchecked_write_and_read (codec : RunArrayCodec) (big_endian : Bool) :
    convert_styled_text_to_rtf codec (rtf_markup big_endian) [] ⟨hi_stream, 0⟩
        ⟨[], [B_ERROR]⟩
      = (B_OK, ⟨[], []⟩)
      ∧ convert_styled_text_to_rtf codec (rtf_markup big_endian) [] ⟨hi_stream, 0⟩ ⟨[], [3]⟩
        = (B_OK, ⟨cstr "\x7b\\r", []⟩)
      ∧ 3 < (rtf_markup big_endian ⟨[72, 105], none⟩).length
      ∧ from_be32 (((style_header_bytes 100 2 ++ [1, 2, 3]).drop 8).take 4) = 100
      ∧ read_styled_text codec [] ⟨short_runs_stream, 0⟩
        = .ok ⟨[72, 105], some (codec.UnflattenRunArray [1, 2, 3])⟩
      ∧ (convert_styled_text_to_rtf codec (rtf_markup big_endian) [] ⟨short_runs_stream, 0⟩
          Sink.reliable).1 = B_OK
      ∧ ¬ B_OK < 0 := by
  have h := read_styled_text_tail codec [] stream_header_bytes (text_header_bytes 2)
    [72, 105] [] 0 rfl rfl (by decide)
  have hr : read_styled_text codec [] ⟨hi_stream, 0⟩ = .ok ⟨[72, 105], none⟩ := by
    have e : hi_stream = stream_header_bytes ++ text_header_bytes 2 ++ [72, 105] ++ [] := by
      rw [List.append_nil]; rfl
    rw [e, h, if_neg (by decide), if_neg (by decide)]
    exact congrArg (fun t => Except.ok (StyledText.mk t none)) reassembled_hi
  have h2 := read_styled_text_tail codec [] stream_header_bytes (text_header_bytes 2)
    [72, 105] (style_header_bytes 100 2 ++ [1, 2, 3]) 0 rfl rfl (by decide)
  have hr2 : read_styled_text codec [] ⟨short_runs_stream, 0⟩
      = .ok ⟨[72, 105], some (codec.UnflattenRunArray [1, 2, 3])⟩ := by
    have e : short_runs_stream = stream_header_bytes ++ text_header_bytes 2 ++ [72, 105]
        ++ (style_header_bytes 100 2 ++ [1, 2, 3]) := rfl
    have e3 : ((style_header_bytes 100 2 ++ [1, 2, 3]).drop sizeof_style_header).take
        (from_be32 (((style_header_bytes 100 2 ++ [1, 2, 3]).drop 8).take 4)) = [1, 2, 3] := by
      decide
    rw [e, h2, if_neg (by decide), if_pos (by decide), if_neg (by decide), e3]
    exact congrArg (fun t => Except.ok (StyledText.mk t (some (codec.UnflattenRunArray [1, 2, 3]))))
      reassembled_hi
  refine ⟨?_, ?_, by cases big_endian <;> decide, by decide, hr2, ?_, by decide⟩
  · simp only [convert_styled_text_to_rtf, hr, rtf_markup, Sink.Write]
    rfl
  · simp only [convert_styled_text_to_rtf, hr, rtf_markup, Sink.Write]
    rfl
  · simp only [convert_styled_text_to_rtf, hr2]

/-- Spans that follow one another: the bytes from one offset to a later one,
then the rest from there, are the rest from the first offset. -/
theorem CopyInto_append_drop (text : List Byte) (a b : Nat) (hab : a ≤ b) :
    CopyInto text a (b - a) ++ text.drop b = text.drop a := by
  have e : text.drop b = (text.drop a).drop (b - a) := by
    rw [List.drop_drop]; congr 1; omega
  rw [CopyInto, e, List.take_append_drop]

theorem emitted_spans_suffix (text : List Byte) (runs : List text_run) :
    ∀ (suf pre : List text_run), runs = pre ++ suf →
      (suf.map text_run.offset).Pairwise (· ≤ ·) →
      (∀ r ∈ suf, r.offset ≤ text.length) →
      ((suf.enumFrom pre.length).map
          (fun p => CopyInto text p.2.offset (span_length text runs p.1 p.2))).flatten
        = match suf.head? with
          | none => []
          | some r => text.drop r.offset := by
  intro suf
  induction suf with
  | nil => intro pre _ _ _; rfl
  | cons r suf1 ih =>
    intro pre hruns hsorted hwithin
    have hnext : runs[pre.length + 1]? = suf1.head? := by
      rw [hruns, List.getElem?_append_right (by omega)]
      cases suf1 <;> simp
    have hrec := ih (pre ++ [r]) (by rw [hruns]; simp)
      (List.Pairwise.of_cons (by simpa using hsorted))
      (fun x hx => hwithin x (List.mem_cons_of_mem _ hx))
    simp only [List.length_append, List.length_singleton] at hrec
    simp only [List.enumFrom_cons, List.map_cons, List.flatten_cons, List.head?_cons, hrec]
    unfold span_length
    rw [hnext]
    cases suf1 with
    | nil =>
      simp only [List.head?_nil, List.append_nil, CopyInto]
      rw [List.take_of_length_le (by simp)]
    | cons r1 rest =>
      simp only [List.head?_cons]
      apply CopyInto_append_drop
      simp only [List.map_cons, List.pairwise_cons, List.mem_cons] at hsorted
      exact hsorted.1 r1.offset (Or.inl rfl)

/-- The spans of a run table whose offsets do not decrease and lie within the
text are, joined, the text from the offset of the first run on: what stands
before the first run is in no span. -/
theorem emitted_spans_cover (text : List Byte) (first : text_run) (rest : List text_run)
    (hsorted : ((first :: rest).map text_run.offset).Pairwise (· ≤ ·))
    (hwithin : ∀ r ∈ first :: rest, r.offset ≤ text.length) :
    (emitted_spans text (first :: rest)).flatten = text.drop first.offset :=
  emitted_spans_suffix text (first :: rest) (first :: rest) [] rfl hsorted hwithin

/-- C28: the forward pass on the document `\x7bX\b Y\x7d` writes the text `XY`
and builds the run table of one bold run at offset 1 (no run starts at 0, as
no style command precedes `X`). The table is not empty, its offsets increase
strictly and lie within the text; yet the spans `convert_styled_text_to_rtf`
emits for it are, joined, `Y` and not `XY`: the byte before the first run is
dropped, and the markup built holds no `X`. -/
theorem text_before_first_run_is_dropped :
    (∃ s, Worker.Work sample_env (TextOutput.new (some Sink.reliable) true) text_then_bold
        = .ok s ∧ s.fRuns = bold_from_1 ∧ s.fTarget = some ⟨text_XY, []⟩)
      ∧ bold_from_1 ≠ []
      ∧ (bold_from_1.map text_run.offset).Pairwise (· < ·)
      ∧ (∀ r ∈ bold_from_1, r.offset < text_XY.length)
      ∧ (emitted_spans text_XY bold_from_1).flatten = [89]
      ∧ (emitted_spans text_XY bold_from_1).flatten ≠ text_XY
      ∧ (∀ big_endian : Bool, rtfFile big_endian text_XY (some bold_from_1)
          = cstr ("\x7b\\rtf1\\ansi\x7b\\fonttbl\x7b\\f0 Noto Sans;\x7d\x7d"
              ++ "\x7b\\colortbl\\red0\\green0\\blue0;\x7d\\pard\\plain\\f0\\cf0\\b\\fs24 Y\x7d")) := by
  refine ⟨⟨_, rfl, rfl, rfl⟩, by decide, by decide, by decide, by decide, by decide, ?_⟩
  intro big_endian
  have e : (12 : ℚ) * 2 = ((24 : Nat) : ℚ) := by norm_num
  simp only [rtfFile, bold_from_1, List.length_cons, List.length_nil, runs_loop,
    List.getElem?_cons_zero, run_markup, e, static_cast_int_natCast]
  cases big_endian <;> decide

theorem runs_loop_eq (big_endian : Bool) (plainText : List Byte) (runs : List text_run)
    (fontTable : List (List Byte)) (colorTable : List rgb_color) :
    ∀ (fuel i : Nat), runs.length ≤ i + fuel →
      runs_loop big_endian plainText runs fontTable colorTable fuel i
        = ((runs.drop i).enumFrom i).flatMap
            (fun p => run_markup big_endian plainText runs fontTable colorTable p.1 p.2) := by
  intro fuel
  induction fuel with
  | zero =>
    intro i h
    rw [List.drop_of_length_le (by omega)]
    rfl
  | succ fuel ih =>
    intro i h
    simp only [runs_loop]
    cases hr : runs[i]? with
    | none =>
      rw [List.drop_of_length_le (List.getElem?_eq_none_iff.mp hr)]
      rfl
    | some run =>
      obtain ⟨hi, he⟩ := List.getElem?_eq_some_iff.mp hr
      rw [List.drop_eq_getElem_cons hi, he]
      simp only [List.enumFrom_cons, List.flatMap_cons]
      rw [ih (i + 1) (by omega)]

theorem run_markup_eq (big_endian : Bool) (plainText : List Byte) (runs : List text_run)
    (fontTable : List (List Byte)) (colorTable : List rgb_color) (i : Nat) (run : text_run) :
    run_markup big_endian plainText runs fontTable colorTable i run
      = run_entry (set_find BString_less (family_of run.font) fontTable)
          (set_find (color_compare big_endian) run.color colorTable) run.font
          ((plainText.drop run.offset).take (next_offset plainText runs i - run.offset)) := by
  have hs : span_length plainText runs i run = next_offset plainText runs i - run.offset := by
    unfold span_length next_offset
    cases runs[i + 1]? <;> rfl
  simp only [run_markup, run_entry, face_commands, segment_escaped, hs, CopyInto,
    List.append_assoc]
  rfl

theorem static_cast_int_floor (q : ℚ) (h : 0 ≤ q) : static_cast_int q = ⌊q⌋ := by
  rw [Rat.floor_def, static_cast_int]
  exact Int.tdiv_eq_ediv (Rat.num_nonneg.mpr h) (by positivity)

theorem static_cast_int_neg (q : ℚ) : static_cast_int (-q) = -static_cast_int q := by
  simp only [static_cast_int, Rat.neg_num, Rat.neg_den, Int.neg_tdiv]

/-- C25: for every plain text and run table, the markup `convert_styled_text_to_rtf`
builds is the header with the two tables, then for every run in order its
entry, then the closing brace; the entry of run `i` is `\pard\plain`, `\f`
with the position of the family of the run in the font table, `\cf` with the
position of its colour in the colour table, `\i`, `\ul`, `\b`, `\strike` for
those of the four flags that are in its face, `\fs` with its size times 2 as an
integer, a space, and the escaped bytes of the text from the offset of the run
up to the offset of the next run (up to the end of the text for the last run).
The integer is the value truncated: the floor of a value that is not negative
and the ceiling of a value that is not positive. -/
theorem run_emission_order (big_endian : Bool) (plainText : List Byte)
    (runs : List text_run) (q : ℚ) (hq : 0 ≤ q) :
    rtfFile big_endian plainText (some runs)
        = cstr "\x7b\\rtf1\\ansi\x7b\\fonttbl" ++ font_table_loop 0 (collect_fonts runs)
          ++ cstr "\x7d\x7b\\colortbl" ++ color_table_loop (collect_colors big_endian runs)
          ++ cstr "\x7d"
          ++ runs.enum.flatMap (fun p =>
              run_entry (set_find BString_less (family_of p.2.font) (collect_fonts runs))
                (set_find (color_compare big_endian) p.2.color
                  (collect_colors big_endian runs))
                p.2.font
                ((plainText.drop p.2.offset).take
                  (next_offset plainText runs p.1 - p.2.offset)))
          ++ cstr "\x7d"
      ∧ static_cast_int q = ⌊q⌋ ∧ static_cast_int (-q) = ⌈-q⌉ := by
  refine ⟨?_, static_cast_int_floor q hq, ?_⟩
  · simp only [rtfFile]
    rw [runs_loop_eq big_endian plainText runs _ _ runs.length 0 (by omega)]
    simp only [run_markup_eq, List.drop_zero, List.enum, List.append_assoc]
    rfl
  · rw [static_cast_int_neg, static_cast_int_floor q hq, Int.ceil_neg]

theorem run_emission_order_witness :
    (0 : ℚ) ≤ 49 / 2
      ∧ (rtfFile false text_A_newline_B (some baseline_runs)
          = cstr "\x7b\\rtf1\\ansi\x7b\\fonttbl"
            ++ font_table_loop 0 (collect_fonts baseline_runs)
            ++ cstr "\x7d\x7b\\colortbl" ++ color_table_loop (collect_colors false baseline_runs)
            ++ cstr "\x7d"
            ++ baseline_runs.enum.flatMap (fun p =>
                run_entry (set_find BString_less (family_of p.2.font)
                    (collect_fonts baseline_runs))
                  (set_find (color_compare false) p.2.color
                    (collect_colors false baseline_runs))
                  p.2.font
                  ((text_A_newline_B.drop p.2.offset).take
                    (next_offset text_A_newline_B baseline_runs p.1 - p.2.offset)))
            ++ cstr "\x7d"
        ∧ static_cast_int (49 / 2) = ⌊(49 / 2 : ℚ)⌋
        ∧ static_cast_int (-(49 / 2)) = ⌈-(49 / 2 : ℚ)⌉) :=
  ⟨by norm_num, run_emission_order false text_A_newline_B baseline_runs (49 / 2) (by norm_num)⟩

theorem color_uint32_injective (big_endian : Bool) (a b : rgb_color) (ha : a.is_bytes)
    (hb : b.is_bytes) (h : color_uint32 big_endian a = color_uint32 big_endian b) : a = b := by
  obtain ⟨ar, ag, ab, aa⟩ := a
  obtain ⟨br, bg, bb, ba⟩ := b
  simp only [rgb_color.is_bytes] at ha hb
  simp only [color_uint32] at h
  simp only [rgb_color.mk.injEq]
  cases big_endian
  · simp only [Bool.false_eq_true, if_false] at h
    omega
  · simp only [if_true] at h
    omega

theorem collect_fonts_eq (runs : List text_run) :
    collect_fonts runs
      = (runs.map (fun r => family_of r.font)).foldl
          (fun t x => set_insert BString_less x t) [] := by
  rw [List.foldl_map]; rfl

theorem collect_colors_eq (big_endian : Bool) (runs : List text_run) :
    collect_colors big_endian runs
      = (runs.map text_run.color).foldl
          (fun t x => set_insert (color_compare big_endian) x t) [] := by
  rw [List.foldl_map]; rfl

theorem font_table_loop_eq (table : List (List Byte)) : ∀ count : Nat,
    font_table_loop count table
      = (table.enumFrom count).flatMap (fun p =>
          cstr "\x7b\\f" ++ snprintf_d p.1 ++ cstr " " ++ p.2 ++ cstr ";\x7d") := by
  induction table with
  | nil => intro count; rfl
  | cons family rest ih =>
    intro count
    simp only [font_table_loop, List.enumFrom_cons, List.flatMap_cons, ih]

theorem color_table_loop_eq (table : List rgb_color) :
    color_table_loop table
      = table.flatMap (fun c =>
          cstr "\\red" ++ snprintf_d c.red ++ cstr "\\green" ++ snprintf_d c.green
            ++ cstr "\\blue" ++ snprintf_d c.blue ++ cstr ";") := by
  induction table with
  | nil => rfl
  | cons c rest ih => simp only [color_table_loop, List.flatMap_cons, ih]

theorem set_find_self {α : Type} (less : α → α → Bool) (x : α) (h : less x x = false) :
    set_find less x [x] = 0 := by
  simp [set_find, h]

/-- The markup text of a styled text with its tables and run loop in closed
form: the header, the font entries in table order numbered from 0, the colour
entries in table order, one entry per run, and the closing brace. -/
theorem rtfFile_closed (big_endian : Bool) (plainText : List Byte) (runs : List text_run) :
    rtfFile big_endian plainText (some runs)
      = cstr "\x7b\\rtf1\\ansi\x7b\\fonttbl"
        ++ (collect_fonts runs).enum.flatMap (fun p =>
            cstr "\x7b\\f" ++ snprintf_d p.1 ++ cstr " " ++ p.2 ++ cstr ";\x7d")
        ++ cstr "\x7d\x7b\\colortbl"
        ++ (collect_colors big_endian runs).flatMap (fun c =>
            cstr "\\red" ++ snprintf_d c.red ++ cstr "\\green" ++ snprintf_d c.green
              ++ cstr "\\blue" ++ snprintf_d c.blue ++ cstr ";")
        ++ cstr "\x7d"
        ++ runs.enum.flatMap (fun p =>
            run_entry (set_find BString_less (family_of p.2.font) (collect_fonts runs))
              (set_find (color_compare big_endian) p.2.color (collect_colors big_endian runs))
              p.2.font
              ((plainText.drop p.2.offset).take
                (next_offset plainText runs p.1 - p.2.offset)))
        ++ cstr "\x7d" := by
  rw [← color_table_loop_eq, List.enum, ← font_table_loop_eq]
  simp only [rtfFile]
  rw [runs_loop_eq big_endian plainText runs _ _ runs.length 0 (by omega)]
  simp only [run_markup_eq, List.drop_zero, List.enum, List.append_assoc]
  rfl

/-- C24: for every run table whose colours have byte components, every plain
text, and whichever the byte order of the host: the markup
`convert_styled_text_to_rtf` builds is the header, the font table, the colour
table, one entry per run and the closing brace, where the font table holds
exactly the font families of the runs and the colour table exactly their
colours, each once, the families in strictly ascending lexicographic order of
their bytes and the colours in strictly ascending order of their 32-bit value;
the font entry at position `n` carries the number `n`; the tables are the same
for every reordering of the runs; the font index and the colour index in the
entry of a run are the positions of its family and its colour in the tables;
and a table of a single run gives a markup with one font entry and one colour
entry, both referred to by the index 0. -/
theorem tables_are_ascending_sets (big_endian : Bool) (runs : List text_run)
    (hcolor : ∀ r ∈ runs, r.color.is_bytes) :
    (∀ plainText : List Byte, rtfFile big_endian plainText (some runs)
        = cstr "\x7b\\rtf1\\ansi\x7b\\fonttbl"
          ++ (collect_fonts runs).enum.flatMap (fun p =>
              cstr "\x7b\\f" ++ snprintf_d p.1 ++ cstr " " ++ p.2 ++ cstr ";\x7d")
          ++ cstr "\x7d\x7b\\colortbl"
          ++ (collect_colors big_endian runs).flatMap (fun c =>
              cstr "\\red" ++ snprintf_d c.red ++ cstr "\\green" ++ snprintf_d c.green
                ++ cstr "\\blue" ++ snprintf_d c.blue ++ cstr ";")
          ++ cstr "\x7d"
          ++ runs.enum.flatMap (fun p =>
              run_entry (set_find BString_less (family_of p.2.font) (collect_fonts runs))
                (set_find (color_compare big_endian) p.2.color
                  (collect_colors big_endian runs))
                p.2.font
                ((plainText.drop p.2.offset).take
                  (next_offset plainText runs p.1 - p.2.offset)))
          ++ cstr "\x7d")
      ∧ (∀ family, family ∈ collect_fonts runs ↔ ∃ r ∈ runs, family_of r.font = family)
      ∧ (collect_fonts runs).Pairwise (· < ·)
      ∧ (∀ color, color ∈ collect_colors big_endian runs ↔ ∃ r ∈ runs, r.color = color)
      ∧ ((collect_colors big_endian runs).map (color_uint32 big_endian)).Pairwise (· < ·)
      ∧ (collect_fonts runs).Nodup ∧ (collect_colors big_endian runs).Nodup
      ∧ (∀ reordered : List text_run, reordered.Perm runs →
          collect_fonts reordered = collect_fonts runs
          ∧ collect_colors big_endian reordered = collect_colors big_endian runs)
      ∧ font_table_loop 0 (collect_fonts runs)
          = (collect_fonts runs).enum.flatMap (fun p =>
              cstr "\x7b\\f" ++ snprintf_d p.1 ++ cstr " " ++ p.2 ++ cstr ";\x7d")
      ∧ color_table_loop (collect_colors big_endian runs)
          = (collect_colors big_endian runs).flatMap (fun c =>
              cstr "\\red" ++ snprintf_d c.red ++ cstr "\\green" ++ snprintf_d c.green
                ++ cstr "\\blue" ++ snprintf_d c.blue ++ cstr ";")
      ∧ (∀ r ∈ runs,
          (collect_fonts runs)[set_find BString_less (family_of r.font) (collect_fonts runs)]?
            = some (family_of r.font)
          ∧ (collect_colors big_endian runs)[set_find (color_compare big_endian) r.color
              (collect_colors big_endian runs)]? = some r.color)
      ∧ (∀ r, runs = [r] →
          collect_fonts runs = [family_of r.font]
          ∧ collect_colors big_endian runs = [r.color]
          ∧ ∀ plainText : List Byte, rtfFile big_endian plainText (some runs)
              = cstr "\x7b\\rtf1\\ansi\x7b\\fonttbl"
                ++ (cstr "\x7b\\f" ++ snprintf_d 0 ++ cstr " " ++ family_of r.font
                  ++ cstr ";\x7d")
                ++ cstr "\x7d\x7b\\colortbl"
                ++ (cstr "\\red" ++ snprintf_d r.color.red ++ cstr "\\green"
                  ++ snprintf_d r.color.green ++ cstr "\\blue" ++ snprintf_d r.color.blue
                  ++ cstr ";")
                ++ cstr "\x7d"
                ++ run_entry 0 0 r.font
                  ((plainText.drop r.offset).take (plainText.length - r.offset))
                ++ cstr "\x7d") := by
  have kf : ∀ a b : List Byte, BString_less a b = decide (id a < id b) := fun _ _ => rfl
  have kc : ∀ a b : rgb_color, color_compare big_endian a b
      = decide (color_uint32 big_endian a < color_uint32 big_endian b) := fun _ _ => rfl
  have injf : ∀ a ∈ runs.map (fun r => family_of r.font),
      ∀ b ∈ runs.map (fun r => family_of r.font), id a = id b → a = b := fun _ _ _ _ h => h
  have injc : ∀ a ∈ runs.map text_run.color, ∀ b ∈ runs.map text_run.color,
      color_uint32 big_endian a = color_uint32 big_endian b → a = b := by
    intro a ha b hb h
    obtain ⟨r1, h1, e1⟩ := List.mem_map.mp ha
    obtain ⟨r2, h2, e2⟩ := List.mem_map.mp hb
    exact color_uint32_injective big_endian a b (e1 ▸ hcolor r1 h1) (e2 ▸ hcolor r2 h2) h
  have sf : (collect_fonts runs).Pairwise (· < ·) := by
    have h := set_fold_sorted id BString_less kf (runs.map (fun r => family_of r.font)) []
      List.Pairwise.nil
    rwa [List.map_id, ← collect_fonts_eq] at h
  have sc : ((collect_colors big_endian runs).map (color_uint32 big_endian)).Pairwise
      (· < ·) := by
    have h := set_fold_sorted (color_uint32 big_endian) (color_compare big_endian) kc
      (runs.map text_run.color) [] List.Pairwise.nil
    rwa [← collect_colors_eq] at h
  have mf : ∀ family, family ∈ collect_fonts runs ↔ ∃ r ∈ runs, family_of r.font = family := by
    intro family
    rw [collect_fonts_eq, set_fold_mem_iff id BString_less kf _ injf, List.mem_map]
  have mc : ∀ color, color ∈ collect_colors big_endian runs ↔ ∃ r ∈ runs, r.color = color := by
    intro color
    rw [collect_colors_eq, set_fold_mem_iff (color_uint32 big_endian)
      (color_compare big_endian) kc _ injc, List.mem_map]
  refine ⟨fun plainText => rtfFile_closed big_endian plainText runs, mf, sf, mc, sc, sf.imp (fun h => ne_of_lt h),
    (List.Nodup.of_map _ (sc.imp (fun h => ne_of_lt h))), ?_, ?_,
    color_table_loop_eq _, ?_, ?_⟩
  · intro reordered hp
    constructor
    · rw [collect_fonts_eq, collect_fonts_eq]
      exact (set_fold_perm id BString_less kf _ _ (hp.symm.map _) injf).symm
    · rw [collect_colors_eq, collect_colors_eq]
      exact (set_fold_perm (color_uint32 big_endian) (color_compare big_endian) kc _ _
        (hp.symm.map _) injc).symm
  · rw [font_table_loop_eq, List.enum]
  · intro r hr
    constructor
    · obtain ⟨t, h1, h2⟩ := set_find_spec id BString_less kf (family_of r.font)
        (collect_fonts runs) ⟨family_of r.font, (mf _).mpr ⟨r, hr, rfl⟩, rfl⟩
      rw [h1]
      exact congrArg some h2
    · obtain ⟨t, h1, h2⟩ := set_find_spec (color_uint32 big_endian)
        (color_compare big_endian) kc r.color (collect_colors big_endian runs)
        ⟨r.color, (mc _).mpr ⟨r, hr, rfl⟩, rfl⟩
      rw [h1]
      have ht : t ∈ collect_colors big_endian runs := List.mem_iff_getElem?.mpr ⟨_, h1⟩
      obtain ⟨r1, hr1, e1⟩ := (mc t).mp ht
      exact congrArg some (color_uint32_injective big_endian t r.color
        (e1 ▸ hcolor r1 hr1) (hcolor r hr) h2)
  · intro r hr
    subst hr
    refine ⟨rfl, rfl, fun plainText => ?_⟩
    have hf : collect_fonts [r] = [family_of r.font] := rfl
    have hc : collect_colors big_endian [r] = [r.color] := rfl
    have h1 : set_find BString_less (family_of r.font) [family_of r.font] = 0 :=
      set_find_self _ _ (by simp [BString_less])
    have h2 : set_find (color_compare big_endian) r.color [r.color] = 0 :=
      set_find_self _ _ (by simp [color_compare])
    rw [rtfFile_closed, hf, hc]
    simp only [List.enum, List.enumFrom_cons, List.enumFrom_nil, List.flatMap_cons,
      List.flatMap_nil, List.append_nil, h1, h2, next_offset, List.getElem?_cons_succ,
      List.getElem?_nil]
    rfl

theorem tables_are_ascending_sets_witness :
    (∀ r ∈ sample_runs, r.color.is_bytes)
      ∧ (collect_fonts sample_runs).Pairwise (· < ·)
      ∧ ((collect_colors false sample_runs).map (color_uint32 false)).Pairwise (· < ·)
      ∧ (collect_fonts sample_runs.reverse = collect_fonts sample_runs
          ∧ collect_colors false sample_runs.reverse = collect_colors false sample_runs)
      ∧ (∀ r ∈ sample_runs,
          (collect_fonts sample_runs)[set_find BString_less (family_of r.font)
              (collect_fonts sample_runs)]? = some (family_of r.font)
          ∧ (collect_colors false sample_runs)[set_find (color_compare false) r.color
              (collect_colors false sample_runs)]? = some r.color) := by
  have hc : ∀ r ∈ sample_runs, r.color.is_bytes := by
    intro r hr
    simp only [sample_runs, List.mem_cons, List.mem_singleton, List.not_mem_nil, or_false]
      at hr
    rcases hr with h | h | h <;> subst h <;> simp [rgb_color.is_bytes, kBlack]
  have h := tables_are_ascending_sets false sample_runs hc
  exact ⟨hc, h.2.2.1, h.2.2.2.2.1, h.2.2.2.2.2.2.2.1 _ (List.reverse_perm _),
    h.2.2.2.2.2.2.2.2.2.2.1⟩

end RTFTranslator
